import Mathlib

/-!
# xcftools: genotype codec, record conversion, retention window, side-channel file

A shallow embedding of the conversion code of `src/modes/binary2binary.cpp`,
of the retention window `GenericKeepFifo` and the writer `write_to_file` of
`src/modes/binary2sapphire.h`, of the extraction of heterozygous calls of
`src/modes/binary2sapphire.cpp`, and of the merge-back of
`src/modes/binarysapphire2binary.cpp`, followed by the properties established
about them.

Conventions of the embedding:

* a `bitvector` of `n` bits is a `List Bool` of length `n`; `get i` is
  `getD i false` and `set i b` is `List.set`;
* the scratch vector `sparse_int_buf` is a `List Nat`, each entry the unsigned
  32-bit pattern of the stored `int32_t`;
* a `float` is its IEEE-754 binary32 bit pattern (`F32`), compared and
  subtracted exactly as the hardware does in round-to-nearest-even mode;
* `vrb.error` ends the conversion, in every function alike: the step that
  calls it returns `Except.error` with the message, and the statements behind
  the call (in the merge-back, the `errors++` that follows each call) are not
  reached;
* the bytes of the side-channel file are a `List Nat`, each below 256, in
  little-endian order;
* an access at an index outside a buffer is outside the embedding: `List.set`
  leaves the list as it is and `getD` gives `false` or `0`; the general
  statements below only use indices inside, and where a concrete run reaches
  an index outside, its comment says so and what is concluded from the run does
  not rest on the value of that access.
-/

namespace XcfTools

/-! ## Binary32 floats -/

/-- A `float`, given by its IEEE-754 binary32 bit pattern (taken modulo `2^32`). -/
structure F32 where
  bits : Nat
deriving DecidableEq, Repr

namespace F32

/-- Sign bit. -/
def sign (x : F32) : Nat := x.bits / 2 ^ 31 % 2

/-- Biased exponent field. -/
def expo (x : F32) : Nat := x.bits / 2 ^ 23 % 256

/-- Fraction field. -/
def mant (x : F32) : Nat := x.bits % 2 ^ 23

/-- The test `std::isnan`. -/
def isNaN (x : F32) : Bool := x.expo == 255 && x.mant != 0

/-- Infinite values. -/
def isInf (x : F32) : Bool := x.expo == 255 && x.mant == 0

/-- Magnitude of a finite value, in units of `2^-149`. -/
def mag (x : F32) : Nat :=
  if x.expo = 0 then x.mant else (2 ^ 23 + x.mant) * 2 ^ (x.expo - 1)

/-- Exact value of a finite float, in units of `2^-149`. -/
def toScaled (x : F32) : Int :=
  if x.sign = 1 then -(x.mag : Int) else (x.mag : Int)

/-- Order key of a value that is not NaN: the sign-magnitude reading of the
bit pattern, under which both zeros are equal. -/
def key (x : F32) : Int :=
  if x.sign = 1 then -((x.bits % 2 ^ 31 : Nat) : Int) else ((x.bits % 2 ^ 31 : Nat) : Int)

/-- The comparison `x < y` of two floats (false when either is NaN). -/
def lt (x y : F32) : Bool := !x.isNaN && !y.isNaN && decide (x.key < y.key)

/-- The comparison `x >= y` of two floats (false when either is NaN). -/
def ge (x y : F32) : Bool := !x.isNaN && !y.isNaN && decide (y.key ≤ x.key)

/-- The comparison `x > y` of two floats (false when either is NaN). -/
def gt (x y : F32) : Bool := lt y x

/-- The function `std::min(a, b)`, which is `(b < a) ? b : a`. -/
def min (a b : F32) : F32 := if lt b a then b else a

/-- Number of binary digits of `n`, for `n < 2^fuel`. -/
def bitLength : Nat → Nat → Nat
  | 0, _ => 0
  | fuel + 1, n => if n = 0 then 0 else bitLength fuel (n / 2) + 1

/-- Bit pattern (without sign) of the float nearest to `n * 2^-149`, ties to
even; `n` is below `2^300`. -/
def roundMag (n : Nat) : Nat :=
  if n < 2 ^ 24 then n
  else
    let s := bitLength 300 n - 24
    let q := n / 2 ^ s
    let r := n % 2 ^ s
    let half := 2 ^ (s - 1)
    let q1 := if half < r ∨ (r = half ∧ q % 2 = 1) then q + 1 else q
    let b := s * 2 ^ 23 + q1
    if 255 * 2 ^ 23 ≤ b then 255 * 2 ^ 23 else b

/-- The quiet NaN produced by an invalid operation. -/
def qNaN : F32 := ⟨0x7FC00000⟩

/-- The value with the opposite sign. -/
def neg (x : F32) : F32 :=
  if x.sign = 1 then ⟨x.bits % 2 ^ 31⟩ else ⟨x.bits % 2 ^ 31 + 2 ^ 31⟩

/-- The float subtraction `x - y`, rounded to nearest, ties to even. -/
def sub (x y : F32) : F32 :=
  if x.isNaN || y.isNaN then qNaN
  else if x.isInf then (if y.isInf && x.sign == y.sign then qNaN else ⟨x.bits % 2 ^ 32⟩)
  else if y.isInf then neg y
  else
    let d : Int := x.toScaled - y.toScaled
    if d = 0 then (if x.sign = 1 ∧ y.sign = 0 then ⟨2 ^ 31⟩ else ⟨0⟩)
    else if d < 0 then ⟨2 ^ 31 + roundMag d.natAbs⟩
    else ⟨roundMag d.natAbs⟩

/-- The constant `1.0f`. -/
def one : F32 := ⟨0x3F800000⟩

/-- The constant `0.5f`. -/
def half : F32 := ⟨0x3F000000⟩

/-- The constant `NAN`. -/
def nan : F32 := ⟨0x7FC00000⟩

end F32

/-! ## Heterozygous calls and the confidence predicate -/

/-- The class `HetInfo`: line number, the two encoded alleles, and the
phasing confidence. -/
structure HetInfo where
  vcf_line : Int
  a0 : Int
  a1 : Int
  pp : F32
deriving DecidableEq, Repr

/-- The predicate `PPPred(pp_threshold)`, applied to a call. -/
def PPPred (pp_threshold : F32) (hi : HetInfo) : Bool :=
  !hi.pp.isNaN && F32.lt hi.pp pp_threshold

/-! ## The retention window `GenericKeepFifo` -/

/-- The nested class `FIFOItem`: an item and its "already kept" flag. -/
structure FIFOItem (T : Type) where
  item : T
  kept : Bool
deriving DecidableEq, Repr

/-- The class `GenericKeepFifo<T, Pred>`. -/
structure GenericKeepFifo (T : Type) where
  size : Nat
  mid : Nat
  items : List (FIFOItem T)
  kept_items : List T
  p : T → Bool

namespace GenericKeepFifo

variable {T : Type}

/-- The constructor: an even size is incremented, and the centre recomputed. -/
def new (size : Nat) (p : T → Bool) : GenericKeepFifo T :=
  if size % 2 = 0 then
    { size := size + 1, mid := (size + 1) / 2, items := [], kept_items := [], p := p }
  else
    { size := size, mid := size / 2, items := [], kept_items := [], p := p }

/-- The loop shared by `keep_end` and `keep`: running index `i` over the
remaining window `its`; every item at an index `start` or later that is not yet
kept is appended to `kept` and flagged. Returns the new window part and the new
kept-list. -/
def keepLoop (start : Nat) : Nat → List (FIFOItem T) → List T → List (FIFOItem T) × List T
  | _, [], kept => ([], kept)
  | i, it :: rest, kept =>
    if start ≤ i ∧ it.kept = false then
      let r := keepLoop start (i + 1) rest (kept ++ [it.item])
      ({ item := it.item, kept := true } :: r.1, r.2)
    else
      let r := keepLoop start (i + 1) rest kept
      (it :: r.1, r.2)

/-- The method `keep_end(start)`. -/
def keep_end (f : GenericKeepFifo T) (start : Nat) : GenericKeepFifo T :=
  let r := keepLoop start 0 f.items f.kept_items
  { f with items := r.1, kept_items := r.2 }

/-- The method `keep()`. -/
def keep (f : GenericKeepFifo T) : GenericKeepFifo T :=
  let r := keepLoop 0 0 f.items f.kept_items
  { f with items := r.1, kept_items := r.2 }

/-- The method `insert(item)`. The branch for a window shorter than `mid + 1`
is never taken by a fifo built by `new`. -/
def insert (f : GenericKeepFifo T) (item : T) : GenericKeepFifo T :=
  let filled :=
    if f.items.length = 0 then List.replicate f.size { item := item, kept := true }
    else f.items
  let pushed := filled ++ [{ item := item, kept := false }]
  let f1 : GenericKeepFifo T := { f with items := pushed.tail }
  match f1.items[f1.mid]? with
  | some c => if f1.p c.item then f1.keep else f1
  | none => f1

/-- The loop of `finalize`: running index `i` over the window from `mid + 1`
on; at the first item satisfying the predicate, `keep_end(i - mid)` and stop. -/
def finalizeLoop (f : GenericKeepFifo T) : Nat → List (FIFOItem T) → GenericKeepFifo T
  | _, [] => f
  | i, it :: rest =>
    if f.p it.item then f.keep_end (i - f.mid) else finalizeLoop f (i + 1) rest

/-- The method `finalize()`. -/
def finalize (f : GenericKeepFifo T) : GenericKeepFifo T :=
  finalizeLoop f (f.mid + 1) (f.items.drop (f.mid + 1))

/-- A fresh fifo after inserting the calls of `xs` in order. -/
def run (size : Nat) (p : T → Bool) (xs : List T) : GenericKeepFifo T :=
  xs.foldl insert (new size p)

end GenericKeepFifo

/-! ## Record tags, conversion modes and the packed sparse genotype -/

/-- The record types returned by `typeRecord`; `unrecognized` stands for every
other value. -/
inductive RecordType
  | bcfvcfGenotype
  | binaryGenotype
  | binaryHaplotype
  | sparseGenotype
  | sparseHaplotype
  | unrecognized
deriving DecidableEq, Repr

/-- The conversion modes `CONV_BCF_BG`, `CONV_BCF_BH`, `CONV_BCF_SG` and
`CONV_BCF_SH`; `other` stands for every other value of the `int` field. -/
inductive ConvMode
  | BG
  | BH
  | SG
  | SH
  | other
deriving DecidableEq, Repr

/-- Genotype family against haplotype family. -/
inductive Family
  | genotype
  | haplotype
deriving DecidableEq, Repr

/-- Family of a record tag, for the four XCF tags. -/
def RecordType.family : RecordType → Option Family
  | .binaryGenotype => some .genotype
  | .sparseGenotype => some .genotype
  | .binaryHaplotype => some .haplotype
  | .sparseHaplotype => some .haplotype
  | _ => none

/-- Family of a target mode, for the four modes. -/
def ConvMode.family : ConvMode → Option Family
  | .BG => some .genotype
  | .SG => some .genotype
  | .BH => some .haplotype
  | .SH => some .haplotype
  | .other => none

/-- Modelled from the spec: the class `sparse_genotype` of
`objects/sparse_genotype.h`, which is not among the sources. The spec gives the
fields sample index, missing flag, allele0, allele1 and a phase bit, packed in
one fixed-width integer; the constructor call in `binary2binary.cpp` gives the
field order `(idx, het, mis, al0, al1, pha)`. -/
structure sparse_genotype where
  idx : Nat
  het : Bool
  mis : Bool
  al0 : Bool
  al1 : Bool
  pha : Bool
deriving DecidableEq, Repr

namespace sparse_genotype

/-- Modelled from the spec: the packing `get()` of `sparse_genotype`, a 27-bit
sample index above the five flag bits, in constructor order. -/
def get (g : sparse_genotype) : Nat :=
  (g.idx % 2 ^ 27) * 32 + g.het.toNat * 16 + g.mis.toNat * 8 + g.al0.toNat * 4
    + g.al1.toNat * 2 + g.pha.toNat

/-- Modelled from the spec: the unpacking `set(value)` of `sparse_genotype`,
inverse of `get`. -/
def set (value : Nat) : sparse_genotype :=
  { idx := value / 32 % 2 ^ 27
    het := value / 16 % 2 == 1
    mis := value / 8 % 2 == 1
    al0 := value / 4 % 2 == 1
    al1 := value / 2 % 2 == 1
    pha := value % 2 == 1 }

end sparse_genotype

/-! ## Plain conversion: `binary2binary::convert(finput, foutput)` -/

/-- The two scratch buffers of `binary2binary`, kept from record to record. -/
structure Buffers where
  binary_bit_buf : List Bool
  sparse_int_buf : List Nat
deriving DecidableEq, Repr

/-- The scratch buffers as allocated before the first record:
`binary_bit_buf.allocate(2 * nsamples)` and `sparse_int_buf.resize(2 * nsamples, 0)`. -/
def Buffers.fresh (nsamples : Nat) : Buffers :=
  { binary_bit_buf := List.replicate (2 * nsamples) false
    sparse_int_buf := List.replicate (2 * nsamples) 0 }

/-- One record of the input file, as the reader hands it over: its type, its
allele frequency `getAF()`, and its payload (the bits of a binary record, or the
integers of a sparse or BCF record). -/
structure XcfRecord where
  type : RecordType
  af : F32
  bits : List Bool
  ints : List Nat
deriving DecidableEq, Repr

/-- What `writeRecord` receives: either the bytes of the bit buffer, or the
first `n_elements` integers of the sparse buffer. -/
inductive Payload
  | dense (bits : List Bool)
  | sparse (ints : List Nat)
deriving DecidableEq, Repr

/-- One call of `XW.writeRecord(tag, data, size)`. -/
structure Written where
  tag : RecordType
  payload : Payload
deriving DecidableEq, Repr

/-- The call `readRecord(idx_file, &sparse_int_buf)`: the payload overwrites the
front of the vector, the rest keeps its contents. -/
def readInts (ints buf : List Nat) : List Nat :=
  ints ++ buf.drop ints.length

/-- The method `parse_genotypes`: loads the payload in the scratch buffer of its
type and returns `n_elements`. -/
def parse_genotypes (nsamples : Nat) (st : Buffers) (rec : XcfRecord) : Buffers × Nat :=
  match rec.type with
  | .bcfvcfGenotype =>
    ({ st with sparse_int_buf := readInts rec.ints st.sparse_int_buf }, nsamples)
  | .binaryGenotype => ({ st with binary_bit_buf := rec.bits }, nsamples)
  | .binaryHaplotype => ({ st with binary_bit_buf := rec.bits }, nsamples)
  | .sparseGenotype =>
    ({ st with sparse_int_buf := readInts rec.ints st.sparse_int_buf }, rec.ints.length)
  | .sparseHaplotype =>
    ({ st with sparse_int_buf := readInts rec.ints st.sparse_int_buf }, rec.ints.length)
  | .unrecognized => (st, nsamples)

/-- Lines 103-109: binary genotype to sparse, one code per sample, written at
the front of `sparse_int_buf`. Returns the buffer and `n_elements`. -/
def binaryGenotypeToSparse (nsamples : Nat) (bits : List Bool) (buf : List Nat) :
    List Nat × Nat :=
  (List.range nsamples).foldl
    (fun (acc : List Nat × Nat) i =>
      let a0 := bits.getD (2 * i + 0) false
      let a1 := bits.getD (2 * i + 1) false
      (acc.1.set acc.2
          (sparse_genotype.get
            { idx := i, het := (a0 != a1), mis := (a0 && !a1), al0 := a0, al1 := a1,
              pha := false }),
        acc.2 + 1))
    (buf, 0)

/-- Lines 121-126: binary haplotype to sparse; the loop runs over
`i < nsamples_input`. Returns the buffer and `n_elements`. -/
def binaryHaplotypeToSparse (nsamples : Nat) (bits : List Bool) (buf : List Nat) :
    List Nat × Nat :=
  (List.range nsamples).foldl
    (fun (acc : List Nat × Nat) i =>
      if bits.getD i false = true then (acc.1.set acc.2 i, acc.2 + 1) else acc)
    (buf, 0)

/-- Lines 137-149: sparse genotype to binary; the buffer is cleared and the
loop runs over every entry of `sparse_int_buf`. -/
def sparseGenotypeToBinary (bits : List Bool) (buf : List Nat) : List Bool :=
  buf.foldl
    (fun (b : List Bool) gt =>
      let rg := sparse_genotype.set gt
      if rg.mis then b.set (2 * rg.idx + 0) true
      else (b.set (2 * rg.idx + 0) rg.al0).set (2 * rg.idx + 1) rg.al1)
    (List.replicate bits.length false)

/-- Lines 161-163: sparse haplotype to binary; the buffer is filled with the
major value and the loop runs over every entry of `sparse_int_buf`. -/
def sparseHaplotypeToBinary (minor : Bool) (bits : List Bool) (buf : List Nat) : List Bool :=
  buf.foldl (fun (b : List Bool) index => b.set index minor)
    (List.replicate bits.length (!minor))

deriving instance DecidableEq for Except

/-- Lines 95-167: the write step of one record. Returns what is written and
the scratch buffers afterwards, or the error raised by `vrb.error`. -/
def writeStep (mode : ConvMode) (rare minor : Bool) (type : RecordType) (nsamples : Nat)
    (n_elements : Nat) (st : Buffers) : Except String (Written × Buffers) :=
  if mode = .SG ∧ rare = true then
    if type = .sparseGenotype then
      .ok (⟨.sparseGenotype, .sparse (st.sparse_int_buf.take n_elements)⟩, st)
    else if type = .binaryGenotype then
      let r := binaryGenotypeToSparse nsamples st.binary_bit_buf st.sparse_int_buf
      .ok (⟨.sparseGenotype, .sparse (r.1.take r.2)⟩, { st with sparse_int_buf := r.1 })
    else .error "Converting non-genotype type to genotype type!"
  else if mode = .SH ∧ rare = true then
    if type = .sparseHaplotype then
      .ok (⟨.sparseHaplotype, .sparse (st.sparse_int_buf.take n_elements)⟩, st)
    else if type = .binaryHaplotype then
      let r := binaryHaplotypeToSparse nsamples st.binary_bit_buf st.sparse_int_buf
      .ok (⟨.sparseHaplotype, .sparse (r.1.take r.2)⟩, { st with sparse_int_buf := r.1 })
    else .error "Converting non-haplotype type to haplotype type!"
  else if mode = .SG ∨ mode = .BG then
    if type = .binaryGenotype then
      .ok (⟨.binaryGenotype, .dense st.binary_bit_buf⟩, st)
    else if type = .sparseGenotype then
      let b := sparseGenotypeToBinary st.binary_bit_buf st.sparse_int_buf
      .ok (⟨.binaryGenotype, .dense b⟩, { st with binary_bit_buf := b })
    else .error "Converting non-genotype type to genotype type!"
  else
    if type = .binaryHaplotype then
      .ok (⟨.binaryHaplotype, .dense st.binary_bit_buf⟩, st)
    else if type = .sparseHaplotype then
      let b := sparseHaplotypeToBinary minor st.binary_bit_buf st.sparse_int_buf
      .ok (⟨.binaryGenotype, .dense b⟩, { st with binary_bit_buf := b })
    else .error "Converting non-haplotype type to haplotype type!"

/-- The rarity decision of lines 82-85: `maf = std::min(af, 1.0f - af)`. -/
def mafOf (af : F32) : F32 := F32.min af (F32.sub F32.one af)

/-- Lines 82-167: the body of the record loop of the plain conversion. -/
def convertRecord (mode : ConvMode) (minmaf : F32) (nsamples : Nat) (st : Buffers)
    (rec : XcfRecord) : Except String (Written × Buffers) :=
  let af := rec.af
  let maf := mafOf af
  let minor := F32.lt af F32.half
  let rare := F32.lt maf minmaf
  let r := parse_genotypes nsamples st rec
  writeStep mode rare minor rec.type nsamples r.2 r.1

/-! ## Float conversion and division -/

namespace F32

/-- Bit pattern (without sign) of the float nearest to `num / den`, ties to
even, for `den > 0` and a quotient below `2^450`. -/
def roundQuot (num den : Nat) : Nat :=
  let a := num * 2 ^ 149
  let n := a / den
  let s := if n < 2 ^ 24 then 0 else bitLength 600 n - 24
  let d := den * 2 ^ s
  let q := a / d
  let r := a % d
  let q1 := if d < 2 * r ∨ (2 * r = d ∧ q % 2 = 1) then q + 1 else q
  let b := s * 2 ^ 23 + q1
  if 255 * 2 ^ 23 ≤ b then 255 * 2 ^ 23 else b

/-- The conversion `(float) n` of an unsigned integer. -/
def ofNat (n : Nat) : F32 := ⟨roundQuot n 1⟩

/-- The float division `x / y`, rounded to nearest, ties to even. -/
def div (x y : F32) : F32 :=
  let sgn := if x.sign = y.sign then 0 else 2 ^ 31
  if x.isNaN || y.isNaN then qNaN
  else if x.isInf then (if y.isInf then qNaN else ⟨sgn + 255 * 2 ^ 23⟩)
  else if y.isInf then ⟨sgn⟩
  else if y.mag = 0 then (if x.mag = 0 then qNaN else ⟨sgn + 255 * 2 ^ 23⟩)
  else ⟨sgn + roundQuot x.mag y.mag⟩

end F32

/-! ## The record loop of the plain conversion -/

/-- The sample vectors of the input file: `ind_names`, `ind_fathers`,
`ind_mothers` and `ind_pops` of the reader. -/
structure SampleVectors where
  ind_names : List String
  ind_fathers : List String
  ind_mothers : List String
  ind_pops : List String
deriving DecidableEq, Repr

/-- The header call of a run: `writeHeader` / `writeHeaderClone` with all the
sample names, or `writeHeaderSubsample` with `subs2full`. -/
inductive HeaderCall
  | all (names : List String)
  | subsample (subs2full : List Int)
deriving DecidableEq, Repr

/-- What a conversion run leaves behind: the header call made (if it got that
far), the records written, in order, and the error that ended the run, if any. -/
structure Output where
  header : Option HeaderCall
  records : List Written
  error : Option String
deriving DecidableEq, Repr

/-- Lines 79-177: the record loop of the plain conversion. Returns the records
written and the error that stopped the loop, if any. -/
def plainLoop (mode : ConvMode) (minmaf : F32) (nsamples : Nat) :
    Buffers → List XcfRecord → List Written × Option String
  | _, [] => ([], none)
  | st, rec :: rest =>
    match convertRecord mode minmaf nsamples st rec with
    | .error e => ([], some e)
    | .ok (w, st') =>
      let r := plainLoop mode minmaf nsamples st' rest
      (w :: r.1, r.2)

/-- Lines 46-185: `binary2binary::convert(finput, foutput)` on an XCF file with
the sample vectors `hdr` and the records `records`. -/
def convertPlain (mode : ConvMode) (minmaf : F32) (hdr : SampleVectors)
    (records : List XcfRecord) : Output :=
  let r := plainLoop mode minmaf hdr.ind_names.length (Buffers.fresh hdr.ind_names.length) records
  { header := some (.all hdr.ind_names), records := r.1, error := r.2 }

/-! ## Subsetting: sample selection and index maps -/

/-- A `std::map<std::string, int32_t>`: the value stored under each key. -/
abbrev StrMap := String → Option Int

/-- The assignment `m[k] = v`. -/
def mapAssign (m : StrMap) (k : String) (v : Int) : StrMap :=
  fun s => if s = k then some v else m s

/-- Lines 209-210 and 252-253: `map_str2int_inc[ind_names[i]] = i` for every
sample index `i`. -/
def mapNames (names : List String) : StrMap :=
  (List.range names.length).foldl
    (fun m i => mapAssign m (names.getD i "") (i : Int)) (fun _ => none)

/-- The vectors built by sample selection: the retained samples and the two
index maps. -/
structure SubsetMaps where
  sample_names : List String
  sample_fathers : List String
  sample_mothers : List String
  sample_pops : List String
  subs2full : List Int
  full2subs : List Int
deriving DecidableEq, Repr

/-- The state before selection: no sample, `full2subs(2 * nsamples_input, -1)`. -/
def SubsetMaps.init (nsamples : Nat) : SubsetMaps :=
  { sample_names := [], sample_fathers := [], sample_mothers := [], sample_pops := [],
    subs2full := [], full2subs := List.replicate (2 * nsamples) (-1) }

/-- The four `push_back` calls that retain the sample of index `i`. -/
def pushSample (hdr : SampleVectors) (acc : SubsetMaps) (i : Nat) : SubsetMaps :=
  { acc with
    sample_names := acc.sample_names ++ [hdr.ind_names.getD i ""]
    sample_fathers := acc.sample_fathers ++ [hdr.ind_fathers.getD i ""]
    sample_mothers := acc.sample_mothers ++ [hdr.ind_mothers.getD i ""]
    sample_pops := acc.sample_pops ++ [hdr.ind_pops.getD i ""] }

/-- Lines 212-223: the exclusion list marks its names with `-1`; a name that
is not in the map is an error unless `isforce`. -/
def excludeMark (isforce : Bool) : StrMap → List String → Except String StrMap
  | m, [] => .ok m
  | m, s :: rest =>
    if m s = none ∧ isforce = false then
      .error "Exclude called for sample that does not exist in header"
    else excludeMark isforce (mapAssign m s (-1)) rest

/-- Lines 227-244: the body of the exclude loop for the sample index `i`. A
name absent from the map reads as `0`, as `operator[]` does. -/
def excludeBody (mode : ConvMode) (hdr : SampleVectors) (m : StrMap) (acc : SubsetMaps)
    (i : Nat) : SubsetMaps :=
  if (m (hdr.ind_names.getD i "")).getD 0 < 0 then acc
  else
    let a := pushSample hdr acc i
    if mode = .BG ∨ mode = .SG then
      let s := a.subs2full ++ [(i : Int)]
      { a with subs2full := s, full2subs := a.full2subs.set i ((s.length - 1 : Nat) : Int) }
    else
      let s1 := a.subs2full ++ [(i : Int) * 2 + 0]
      let f1 := a.full2subs.set (i * 2 + 0) ((s1.length - 1 : Nat) : Int)
      let s2 := s1 ++ [(i : Int) * 2 + 1]
      let f2 := f1.set (i * 2 + 1) ((s2.length - 1 : Nat) : Int)
      { a with subs2full := s2, full2subs := f2 }

/-- The method `insert` of `std::set<int32_t>`: the elements are kept in
ascending order, without repetition. -/
def setInsert : List Int → Int → List Int
  | [], v => [v]
  | a :: l, v => if v < a then v :: a :: l else if v = a then a :: l else a :: setInsert l v

/-- Lines 255-269: the indices of the requested names are collected in the
set; a name that is not in the map is an error unless `isforce`. -/
def includeCollect (isforce : Bool) (m : StrMap) : List Int → List String → Except String (List Int)
  | set, [] => .ok set
  | set, s :: rest =>
    match m s with
    | none =>
      if isforce then includeCollect isforce m set rest
      else .error "Exclude called for sample that does not exist in header"
    | some val => includeCollect isforce m (setInsert set val) rest

/-- Lines 273-288: the body of the include loop for the set element `it`. -/
def includeBody (mode : ConvMode) (hdr : SampleVectors) (acc : SubsetMaps) (it : Int) :
    SubsetMaps :=
  let a := pushSample hdr acc it.toNat
  if mode = .BG ∨ mode = .SG then
    let s := a.subs2full ++ [it]
    { a with subs2full := s, full2subs := a.full2subs.set it.toNat ((s.length - 1 : Nat) : Int) }
  else
    let s := a.subs2full ++ [it]
    let f1 := a.full2subs.set (it * 2 + 0).toNat (2 * ((s.length - 1 : Nat) : Int) + 0)
    let f2 := f1.set (it * 2 + 1).toNat (2 * ((s.length - 1 : Nat) : Int) + 1)
    { a with subs2full := s, full2subs := f2 }

/-- Lines 198-290: sample selection and index maps of the subsetting overload. -/
def selectSamples (mode : ConvMode) (hdr : SampleVectors) (exclude isforce : Bool)
    (smpls : List String) : Except String SubsetMaps :=
  if exclude then
    match excludeMark isforce (mapNames hdr.ind_names) smpls with
    | .error e => .error e
    | .ok m =>
      .ok ((List.range hdr.ind_names.length).foldl (excludeBody mode hdr m)
        (SubsetMaps.init hdr.ind_names.length))
  else
    match includeCollect isforce (mapNames hdr.ind_names) [] smpls with
    | .error e => .error e
    | .ok set => .ok (set.foldl (includeBody mode hdr) (SubsetMaps.init hdr.ind_names.length))

/-! ## Subsetting: the record loop -/

/-- The call `set(idx, value)` of a `bitvector` with an `int32_t` index. An
index outside the buffer, a negative one included, is outside the embedding:
the list stays as it is. -/
def bitSet (b : List Bool) (idx : Int) (v : Bool) : List Bool :=
  if idx < 0 then b else b.set idx.toNat v

/-- The unsigned 32-bit pattern of an `int32_t` value. -/
def pattern32 (v : Int) : Nat := (v % 2 ^ 32).toNat

/-- The `int32_t` value of an unsigned 32-bit pattern. -/
def signed32 (n : Nat) : Int :=
  if n % 2 ^ 32 < 2 ^ 31 then ((n % 2 ^ 32 : Nat) : Int) else ((n % 2 ^ 32 : Nat) : Int) - 2 ^ 32

/-- Lines 303-313: the bitmask `subsample_bit` over the full slot space. -/
def subsampleBits (mode : ConvMode) (nsamples : Nat) (subs2full : List Int) : List Bool :=
  subs2full.foldl
    (fun b v =>
      if mode = .BG ∨ mode = .SG then bitSet b v true
      else bitSet (bitSet b (2 * v + 0) true) (2 * v + 1) true)
    (List.replicate (2 * nsamples) false)

/-- The buffers of the subsetting record loop: the two scratch buffers of the
object and the two subset buffers allocated before the loop. -/
structure SubsetBuffers where
  full : Buffers
  binary_bit_buf_subs : List Bool
  sparse_int_buf_subs : List Nat
deriving DecidableEq, Repr

/-- Lines 333-337: the buffers as allocated before the first record, for `m`
retained samples. -/
def SubsetBuffers.fresh (nsamples m : Nat) : SubsetBuffers :=
  { full := Buffers.fresh nsamples
    binary_bit_buf_subs := List.replicate (2 * m) false
    sparse_int_buf_subs := List.replicate (2 * m) 0 }

/-- The outcome of the subsampling of one record (lines 350-406): the buffers,
`n_elements_subs` and the recomputed allele count `ac`. -/
structure Subsampled where
  st : SubsetBuffers
  n_elements_subs : Nat
  ac : Nat
deriving DecidableEq, Repr

/-- Lines 353-362: subsampling of a sparse genotype record. The bitmask is
read at the stored code, the new index is `full2subs[rg.idx]` cut to the 27 bits
of the field, and the new code is stored in `sparse_int_buf`. -/
def subsetSparseGenotype (subsample_bit : List Bool) (full2subs : List Int) (n_full : Nat)
    (buf : List Nat) : List Nat × Nat × Nat :=
  (List.range n_full).foldl
    (fun (acc : List Nat × Nat × Nat) i =>
      let code := acc.1.getD i 0
      if subsample_bit.getD code false = true then
        let rg0 := sparse_genotype.set code
        let rg : sparse_genotype :=
          { rg0 with idx := ((full2subs.getD rg0.idx (-1)) % 2 ^ 27).toNat }
        (acc.1.set acc.2.1 rg.get, acc.2.1 + 1,
          if rg.mis then acc.2.2 else acc.2.2 + rg.al0.toNat + rg.al1.toNat)
      else acc)
    (buf, 0, 0)

/-- Lines 366-372: subsampling of a sparse haplotype record, into
`sparse_int_buf_subs`. Returns the buffer and `n_elements_subs`. -/
def subsetSparseHaplotype (subsample_bit : List Bool) (full2subs : List Int) (n_full : Nat)
    (buf subs : List Nat) : List Nat × Nat :=
  (List.range n_full).foldl
    (fun (acc : List Nat × Nat) i =>
      let v := buf.getD i 0
      if subsample_bit.getD v false = true then
        (acc.1.set acc.2 (pattern32 (full2subs.getD v (-1))), acc.2 + 1)
      else acc)
    (subs, 0)

/-- Lines 378-388: subsampling of a binary genotype record. Returns the subset
bit buffer and `ac`. -/
def subsetBinaryGenotype (subsample_bit : List Bool) (full2subs : List Int) (n_full : Nat)
    (bits subs : List Bool) : List Bool × Nat :=
  (List.range n_full).foldl
    (fun (acc : List Bool × Nat) i =>
      if subsample_bit.getD i false = true then
        let a0 := bits.getD (2 * i + 0) false
        let a1 := bits.getD (2 * i + 1) false
        (bitSet (bitSet acc.1 (full2subs.getD (2 * i + 0) (-1)) a0)
            (full2subs.getD (2 * i + 1) (-1)) a1,
          if (!a0 || a1) then acc.2 + a0.toNat + a1.toNat else acc.2)
      else acc)
    (subs, 0)

/-- Lines 394-404: subsampling of a binary haplotype record. Returns the subset
bit buffer and `ac`. -/
def subsetBinaryHaplotype (subsample_bit : List Bool) (full2subs : List Int) (n_full : Nat)
    (bits subs : List Bool) : List Bool × Nat :=
  (List.range n_full).foldl
    (fun (acc : List Bool × Nat) i =>
      if subsample_bit.getD (2 * i) false = true then
        let a0 := bits.getD (2 * i + 0) false
        let a1 := bits.getD (2 * i + 1) false
        (bitSet (bitSet acc.1 (full2subs.getD (2 * i + 0) (-1)) a0)
            (full2subs.getD (2 * i + 1) (-1)) a1,
          acc.2 + a0.toNat + a1.toNat)
      else acc)
    (subs, 0)

/-- Lines 350-406: the subsampling of one record, after `parse_genotypes`. -/
def subsample (subsample_bit : List Bool) (full2subs : List Int) (m : Nat) (minor_full : Bool)
    (type : RecordType) (n_elements_full : Nat) (st : SubsetBuffers) : Subsampled :=
  match type with
  | .sparseGenotype =>
    let r := subsetSparseGenotype subsample_bit full2subs n_elements_full st.full.sparse_int_buf
    { st := { st with full := { st.full with sparse_int_buf := r.1 } }
      n_elements_subs := r.2.1, ac := r.2.2 }
  | .sparseHaplotype =>
    let r := subsetSparseHaplotype subsample_bit full2subs n_elements_full
      st.full.sparse_int_buf st.sparse_int_buf_subs
    { st := { st with sparse_int_buf_subs := r.1 }
      n_elements_subs := r.2, ac := if minor_full then r.2 else 2 * m - r.2 }
  | .binaryGenotype =>
    let r := subsetBinaryGenotype subsample_bit full2subs n_elements_full
      st.full.binary_bit_buf st.binary_bit_buf_subs
    { st := { st with binary_bit_buf_subs := r.1 }, n_elements_subs := 2 * m, ac := r.2 }
  | .binaryHaplotype =>
    let r := subsetBinaryHaplotype subsample_bit full2subs n_elements_full
      st.full.binary_bit_buf st.binary_bit_buf_subs
    { st := { st with binary_bit_buf_subs := r.1 }, n_elements_subs := 2 * m, ac := r.2 }
  | _ => { st := st, n_elements_subs := 0, ac := 0 }

/-- Lines 471-475: subset binary haplotype to sparse, the slots whose bit
equals `minor`. Returns the buffer and `n_elements_subs`. -/
def binaryHaplotypeToSparseMinor (minor : Bool) (n_buf : Nat) (bits : List Bool)
    (buf : List Nat) : List Nat × Nat :=
  (List.range n_buf).foldl
    (fun (acc : List Nat × Nat) i =>
      if bits.getD i false = minor then (acc.1.set acc.2 i, acc.2 + 1) else acc)
    (buf, 0)

/-- Lines 510-512: subset sparse haplotype to binary; the loop runs over the
first `n` entries of `sparse_int_buf_subs`. -/
def sparseHaplotypeToBinaryN (minor_full : Bool) (n : Nat) (bits : List Bool)
    (buf : List Nat) : List Bool :=
  (List.range n).foldl (fun (b : List Bool) i => b.set (buf.getD i 0) minor_full)
    (List.replicate bits.length (!minor_full))

/-- The inner `while` loops of lines 450-461: the values `lo, lo + 1, ..` below
`hi` are stored from position `acc.2` on. -/
def emitRange (acc : List Nat × Nat) (lo hi : Int) : List Nat × Nat :=
  (List.range (hi - lo).toNat).foldl
    (fun (a : List Nat × Nat) k => (a.1.set a.2 (pattern32 (lo + k)), a.2 + 1)) acc

/-- Lines 444-462: the list of the first `n` entries of the buffer is replaced
by its complement in `[0, 2 * m)`. Returns the buffer and `n_elements_subs`. -/
def complementSparse (m n : Nat) (buf : List Nat) : List Nat × Nat :=
  let rev := buf.take n
  let r := (List.range n).foldl
    (fun (acc : (List Nat × Nat) × Int) j =>
      let v := signed32 (rev.getD j 0)
      (emitRange acc.1 acc.2 v, (if acc.2 < v then v else acc.2) + 1))
    ((buf, 0), 0)
  emitRange r.1 r.2 (2 * (m : Int))

/-- Lines 418-516: the write step of one record of the subsetting loop. -/
def writeStepSubset (mode : ConvMode) (rare minor minor_full : Bool) (type : RecordType)
    (n_elements_subs : Nat) (m : Nat) (st : SubsetBuffers) :
    Except String (Written × SubsetBuffers) :=
  if mode = .SG ∧ rare = true then
    if type = .sparseGenotype then
      .ok (⟨.sparseGenotype, .sparse (st.sparse_int_buf_subs.take n_elements_subs)⟩, st)
    else if type = .binaryGenotype then
      let r := binaryGenotypeToSparse n_elements_subs st.binary_bit_buf_subs
        st.sparse_int_buf_subs
      .ok (⟨.sparseGenotype, .sparse (r.1.take r.2)⟩, { st with sparse_int_buf_subs := r.1 })
    else .error "Converting non-genotype type to genotype type!"
  else if mode = .SH ∧ rare = true then
    if type = .sparseHaplotype then
      let r := if minor ≠ minor_full then complementSparse m n_elements_subs
          st.sparse_int_buf_subs
        else (st.sparse_int_buf_subs, n_elements_subs)
      .ok (⟨.sparseHaplotype, .sparse (r.1.take r.2)⟩, { st with sparse_int_buf_subs := r.1 })
    else if type = .binaryHaplotype then
      let r := binaryHaplotypeToSparseMinor minor n_elements_subs st.binary_bit_buf_subs
        st.sparse_int_buf_subs
      .ok (⟨.sparseHaplotype, .sparse (r.1.take r.2)⟩, { st with sparse_int_buf_subs := r.1 })
    else .error "Converting non-haplotype type to haplotype type!"
  else if mode = .SG ∨ mode = .BG then
    if type = .binaryGenotype then
      .ok (⟨.binaryGenotype, .dense st.binary_bit_buf_subs⟩, st)
    else if type = .sparseGenotype then
      let b := sparseGenotypeToBinary st.binary_bit_buf_subs st.sparse_int_buf_subs
      .ok (⟨.binaryGenotype, .dense b⟩, { st with binary_bit_buf_subs := b })
    else .error "Converting non-genotype type to genotype type!"
  else
    if type = .binaryHaplotype then
      .ok (⟨.binaryHaplotype, .dense st.binary_bit_buf_subs⟩, st)
    else if type = .sparseHaplotype then
      let b := sparseHaplotypeToBinaryN minor_full n_elements_subs st.binary_bit_buf_subs
        st.sparse_int_buf_subs
      .ok (⟨.binaryHaplotype, .dense b⟩, { st with binary_bit_buf_subs := b })
    else .error "Converting non-haplotype type to haplotype type!"

/-- Lines 343-516: the body of the record loop of the subsetting overload, for
`m` retained samples. -/
def subsetRecord (mode : ConvMode) (minmaf : F32) (nsamples m : Nat) (subsample_bit : List Bool)
    (full2subs : List Int) (st : SubsetBuffers) (rec : XcfRecord) :
    Except String (Written × SubsetBuffers) :=
  let minor_full := F32.lt rec.af F32.half
  let r := parse_genotypes nsamples st.full rec
  let s := subsample subsample_bit full2subs m minor_full rec.type r.2 { st with full := r.1 }
  let af := F32.div (F32.ofNat s.ac) (F32.ofNat (2 * m))
  let maf := mafOf af
  let rare := F32.lt maf minmaf
  let minor := F32.lt af F32.half
  writeStepSubset mode rare minor minor_full rec.type s.n_elements_subs m s.st

/-- Lines 341-526: the record loop of the subsetting overload. Returns the
records written and the error that stopped the loop, if any. -/
def subsetLoop (mode : ConvMode) (minmaf : F32) (nsamples m : Nat) (subsample_bit : List Bool)
    (full2subs : List Int) : SubsetBuffers → List XcfRecord → List Written × Option String
  | _, [] => ([], none)
  | st, rec :: rest =>
    match subsetRecord mode minmaf nsamples m subsample_bit full2subs st rec with
    | .error e => ([], some e)
    | .ok (w, st') =>
      let r := subsetLoop mode minmaf nsamples m subsample_bit full2subs st' rest
      (w :: r.1, r.2)

/-- Lines 187-534: `binary2binary::convert(finput, foutput, exclude, isforce,
smpls)` on an XCF file with the sample vectors `hdr` and the records `records`.
The `assert(!smpls.empty())` of line 189 is a precondition, not part of the
function. -/
def convertSubset (mode : ConvMode) (minmaf : F32) (hdr : SampleVectors)
    (records : List XcfRecord) (exclude isforce : Bool) (smpls : List String) : Output :=
  match selectSamples mode hdr exclude isforce smpls with
  | .error e => { header := none, records := [], error := some e }
  | .ok maps =>
    if maps.sample_names.length = 0 then
      { header := none, records := [], error := some "Subsetting has removed all samples" }
    else if maps.sample_names.length = hdr.ind_names.length then
      convertPlain mode minmaf hdr records
    else
      let subsample_bit := subsampleBits mode hdr.ind_names.length maps.subs2full
      let r := subsetLoop mode minmaf hdr.ind_names.length maps.sample_names.length
        subsample_bit maps.full2subs
        (SubsetBuffers.fresh hdr.ind_names.length maps.sample_names.length) records
      { header := some (.subsample maps.subs2full), records := r.1, error := r.2 }

/-! ## Merge-back: the worklist of `binarysapphire2binary.cpp` -/

/-- The conversion of an `int` to `size_t`. -/
def sizeT (v : Int) : Nat := (v % 2 ^ 64).toNat

/-- The assignment `m[k] = v` of a `std::map` with `size_t` keys, held as the
list of its pairs in ascending key order. -/
def mapPut {V : Type} : List (Nat × V) → Nat → V → List (Nat × V)
  | [], k, v => [(k, v)]
  | (k1, v1) :: m, k, v =>
    if k < k1 then (k, v) :: (k1, v1) :: m
    else if k = k1 then (k, v) :: m
    else (k1, v1) :: mapPut m k v

/-- The method `find` of a `std::map` with `size_t` keys. -/
def mapGet {V : Type} : List (Nat × V) → Nat → Option V
  | [], _ => none
  | (k1, v1) :: m, k => if k = k1 then some v1 else mapGet m k

/-- The class `VCFLineWork`: a line number and the corrected calls of that
line, keyed by sample. -/
structure VCFLineWork where
  vcf_line_num : Nat
  updated_data : List (Nat × HetInfo)
deriving DecidableEq, Repr

/-- Lines 46-52: `insert_in_work`. -/
def insert_in_work (work : List (Nat × VCFLineWork)) (hi : HetInfo) (id : Nat) :
    List (Nat × VCFLineWork) :=
  match mapGet work (sizeT hi.vcf_line) with
  | some w => mapPut work (sizeT hi.vcf_line) { w with updated_data := mapPut w.updated_data id hi }
  | none => mapPut work (sizeT hi.vcf_line) ⟨sizeT hi.vcf_line, mapPut [] id hi⟩

/-- The inner loop of lines 62-68, for the calls `his` of sample `i`: a call
enters the worklist when its confidence is not NaN and greater than `1.0`. -/
def fillSample (work : List (Nat × VCFLineWork)) (his : List HetInfo) (i : Nat) :
    List (Nat × VCFLineWork) :=
  his.foldl
    (fun w hi => if (!hi.pp.isNaN && F32.gt hi.pp F32.one) = true then insert_in_work w hi i else w)
    work

/-- Lines 54-70: `fill_work_from_himm`. The memory map of the side-channel
file is given by its blocks: `blocks[i]` is what `himm.fill_het_info(his, i)`
returns and `blocks.length` is `himm.num_samples`. -/
def fill_work_from_himm (work : List (Nat × VCFLineWork)) (blocks : List (List HetInfo)) :
    List (Nat × VCFLineWork) :=
  (List.range blocks.length).foldl (fun w i => fillSample w (blocks.getD i []) i) work

/-- The corrected call stored in a worklist for the line `line` and the sample
`i`, if there is one. -/
def workEntry (work : List (Nat × VCFLineWork)) (line i : Nat) : Option HetInfo :=
  (mapGet work line).bind (fun w => mapGet w.updated_data i)

/-! ## Merge-back: the record loop of `binarysapphire2binary::convert` -/

/-- The state of the merge loop: the two scratch buffers and the counters
`errors` and `updated_gts`. Every `errors++` of the loop follows a call of
`vrb.error`, which ends the run, so the counter is carried but never raised. -/
structure MergeState where
  bufs : Buffers
  errors : Nat
  updated_gts : Nat
deriving DecidableEq, Repr

/-- The call `std::find(sparse_int_buf.begin(), sparse_int_buf.end(), v)` with a
`size_t` value: the position of the first entry of the whole vector that equals
`v` after conversion to `size_t`, if there is one. -/
def stdFind (v : Nat) : List Nat → Option Nat
  | [] => none
  | x :: l => if sizeT (signed32 x) = v then some 0 else (stdFind v l).map (· + 1)

/-- Lines 201-219: the merge of one corrected call into a sparse haplotype
record. The two calls of `vrb.error` (lines 208 and 212) end the run. -/
def mergeSparseHaplotype (st : MergeState) (idx : Nat) (hi : HetInfo) :
    Except String MergeState :=
  let minor_idx0 := (2 * idx) % 2 ^ 64
  let minor_idx1 := (2 * idx + 1) % 2 ^ 64
  let it0 := stdFind minor_idx0 st.bufs.sparse_int_buf
  let it1 := stdFind minor_idx1 st.bufs.sparse_int_buf
  if it0 ≠ none ∧ it1 ≠ none then .error "Sample is hom alt, cannot rephase)"
  else if it0 = none ∧ it1 = none then .error "Sample is hom ref, cannot rephase"
  else
    match (if it0 = none then it1 else it0) with
    | none => .ok st
    | some pos =>
      .ok { st with
        bufs := { st.bufs with
          sparse_int_buf := st.bufs.sparse_int_buf.set pos
            ((if hi.a0 ≠ 0 then minor_idx0 else minor_idx1) % 2 ^ 32) } }

/-- Lines 190-196: the merge of one corrected call into a binary haplotype
record. The stored bit is compared with the `int` field `a0`, and the two `int`
fields are passed to the `bool` parameter of `set`. -/
def mergeBinaryHaplotype (st : MergeState) (idx : Nat) (hi : HetInfo) : MergeState :=
  let minor_idx0 := (2 * idx) % 2 ^ 64
  let minor_idx1 := (2 * idx + 1) % 2 ^ 64
  if ((st.bufs.binary_bit_buf.getD minor_idx0 false).toNat : Int) ≠ hi.a0 then
    { st with
      updated_gts := st.updated_gts + 1
      bufs := { st.bufs with
        binary_bit_buf :=
          (st.bufs.binary_bit_buf.set minor_idx0 (decide (hi.a0 ≠ 0))).set minor_idx1
            (decide (hi.a1 ≠ 0)) } }
  else st

/-- Lines 181-221: the body of the loop over the corrected calls of a line. For
a record of a genotype type the call of `vrb.error` (lines 187 and 198) ends the
run. -/
def mergeEntry (type : RecordType) (st : MergeState) (todo : Nat × HetInfo) :
    Except String MergeState :=
  match type with
  | .binaryGenotype => .error "Binary genotype is for unphased data"
  | .binaryHaplotype => .ok (mergeBinaryHaplotype st todo.1 todo.2)
  | .sparseGenotype => .error "Binary genotype is for unphased data"
  | .sparseHaplotype => mergeSparseHaplotype st todo.1 todo.2
  | _ => .ok st

/-- Line 180: the loop `for (auto todo : work_line->second.updated_data)`, over
the corrected calls of a line in the order of the sample index. -/
def mergeAll (type : RecordType) : MergeState → List (Nat × HetInfo) → Except String MergeState
  | st, [] => .ok st
  | st, todo :: rest =>
    match mergeEntry type st todo with
    | .error e => .error e
    | .ok st1 => mergeAll type st1 rest

/-- Lines 174-223: the corrections of the line `line_counter` are applied to
the record just parsed. A found entry whose `vcf_line_num` is not the line
counter ends the conversion. -/
def applyWork (work : List (Nat × VCFLineWork)) (line_counter : Nat) (type : RecordType)
    (st : MergeState) : Except String MergeState :=
  match mapGet work line_counter with
  | none => .ok st
  | some w =>
    if w.vcf_line_num ≠ line_counter then .error "Work line is different from line counter !"
    else mergeAll type st w.updated_data

/-- Lines 85-109: `binarysapphire2binary::parse_genotypes`; a BCF record is an
error. -/
def parseGenotypesSapphire (nsamples : Nat) (st : Buffers) (rec : XcfRecord) :
    Except String (Buffers × Nat) :=
  if rec.type = .bcfvcfGenotype then .error "BCF/VCF record in binary2binary mode !"
  else .ok (parse_genotypes nsamples st rec)

/-- Lines 225-297: the write step of one record of the merge loop. The binary
haplotype to sparse conversion (252-256) runs over all `2 * nsamples_input`
slots. -/
def writeStepSapphire (mode : ConvMode) (rare minor : Bool) (type : RecordType) (nsamples : Nat)
    (n_elements : Nat) (st : Buffers) : Except String (Written × Buffers) :=
  if mode = .SG ∧ rare = true then
    if type = .sparseGenotype then
      .ok (⟨.sparseGenotype, .sparse (st.sparse_int_buf.take n_elements)⟩, st)
    else if type = .binaryGenotype then
      let r := binaryGenotypeToSparse nsamples st.binary_bit_buf st.sparse_int_buf
      .ok (⟨.sparseGenotype, .sparse (r.1.take r.2)⟩, { st with sparse_int_buf := r.1 })
    else .error "Converting non-genotype type to genotype type!"
  else if mode = .SH ∧ rare = true then
    if type = .sparseHaplotype then
      .ok (⟨.sparseHaplotype, .sparse (st.sparse_int_buf.take n_elements)⟩, st)
    else if type = .binaryHaplotype then
      let r := binaryHaplotypeToSparse (2 * nsamples) st.binary_bit_buf st.sparse_int_buf
      .ok (⟨.sparseHaplotype, .sparse (r.1.take r.2)⟩, { st with sparse_int_buf := r.1 })
    else .error "Converting non-haplotype type to haplotype type!"
  else if mode = .SG ∨ mode = .BG then
    if type = .binaryGenotype then
      .ok (⟨.binaryGenotype, .dense st.binary_bit_buf⟩, st)
    else if type = .sparseGenotype then
      let b := sparseGenotypeToBinary st.binary_bit_buf st.sparse_int_buf
      .ok (⟨.binaryGenotype, .dense b⟩, { st with binary_bit_buf := b })
    else .error "Converting non-genotype type to genotype type!"
  else
    if type = .binaryHaplotype then
      .ok (⟨.binaryHaplotype, .dense st.binary_bit_buf⟩, st)
    else if type = .sparseHaplotype then
      let b := sparseHaplotypeToBinary minor st.binary_bit_buf st.sparse_int_buf
      .ok (⟨.binaryGenotype, .dense b⟩, { st with binary_bit_buf := b })
    else .error "Converting non-haplotype type to haplotype type!"

/-- Lines 157-301: the body of the record loop of the merge-back conversion,
for the record of line `line_counter`. -/
def sapphireRecord (mode : ConvMode) (minmaf : F32) (nsamples : Nat)
    (work : List (Nat × VCFLineWork)) (line_counter : Nat) (st : MergeState) (rec : XcfRecord) :
    Except String (Written × MergeState) :=
  let af := rec.af
  let maf := mafOf af
  let minor := F32.lt af F32.half
  let rare := F32.lt maf minmaf
  match parseGenotypesSapphire nsamples st.bufs rec with
  | .error e => .error e
  | .ok r =>
    match applyWork work line_counter rec.type { st with bufs := r.1 } with
    | .error e => .error e
    | .ok st1 =>
      match writeStepSapphire mode rare minor rec.type nsamples r.2 st1.bufs with
      | .error e => .error e
      | .ok (w, b) => .ok (w, { st1 with bufs := b })

/-- What a merge-back run leaves behind: the output of the run and the two
counters. -/
structure MergeOutput where
  out : Output
  errors : Nat
  updated_gts : Nat
deriving DecidableEq, Repr

/-- Lines 157-308: the record loop of the merge-back conversion, from the line
`line_counter` on. Returns the records written, the error that stopped the loop,
if any, and the last state. -/
def sapphireLoop (mode : ConvMode) (minmaf : F32) (nsamples : Nat)
    (work : List (Nat × VCFLineWork)) :
    Nat → MergeState → List XcfRecord → List Written × Option String × MergeState
  | _, st, [] => ([], none, st)
  | line_counter, st, rec :: rest =>
    match sapphireRecord mode minmaf nsamples work line_counter st rec with
    | .error e => ([], some e, st)
    | .ok (w, st1) =>
      let r := sapphireLoop mode minmaf nsamples work (line_counter + 1) st1 rest
      (w :: r.1, r.2.1, r.2.2)

/-- Lines 111-317: `binarysapphire2binary::convert(finput, foutput, fsapphire)`
on an XCF file with the sample vectors `hdr` and the records `records`, with an
empty region, and a side-channel file with the blocks `blocks`. -/
def convertSapphire (mode : ConvMode) (minmaf : F32) (hdr : SampleVectors)
    (records : List XcfRecord) (blocks : List (List HetInfo)) : MergeOutput :=
  let work := fill_work_from_himm [] blocks
  let r := sapphireLoop mode minmaf hdr.ind_names.length work 0
    ⟨Buffers.fresh hdr.ind_names.length, 0, 0⟩ records
  { out := { header := some (.all hdr.ind_names), records := r.1, error := r.2.1 }
    errors := r.2.2.errors, updated_gts := r.2.2.updated_gts }

/-! ## The side-channel file: `write_to_file` of `binary2sapphire.h` -/

/-- The macro `bcf_gt_phased(idx)` of the htslib header `vcf.h`,
`((idx + 1) << 1 | 1)`, applied to an allele bit as in lines 146-147 of
`binary2sapphire.cpp`. -/
def bcf_gt_phased (a : Bool) : Int := ((a.toNat : Int) + 1) * 2 + 1

/-- The macro `bcf_gt_allele(val)` of the htslib header `vcf.h`,
`((val >> 1) - 1)`. -/
def bcf_gt_allele (val : Int) : Int := val / 2 - 1

/-- The four bytes of a 32-bit value in the byte order of the host, taken
little-endian. -/
def le32 (v : Nat) : List Nat := [v % 256, v / 2 ^ 8 % 256, v / 2 ^ 16 % 256, v / 2 ^ 24 % 256]

/-- The eight bytes of a 64-bit value, little-endian. -/
def le64 (v : Nat) : List Nat := le32 v ++ le32 (v / 2 ^ 32)

/-- A `std::fstream` opened for output: the bytes of the file and the put
position. -/
structure OStream where
  bytes : List Nat
  pos : Nat
deriving DecidableEq, Repr

/-- The call `ofs.write(data, size)`: the bytes are stored from the put position
on, over what the file holds there, and the put position moves behind them. -/
def OStream.write (s : OStream) (d : List Nat) : OStream :=
  { bytes := s.bytes.take s.pos ++ d ++ s.bytes.drop (s.pos + d.length)
    pos := s.pos + d.length }

/-- The call `ofs.seekp(p)`. -/
def OStream.seekp (s : OStream) (p : Nat) : OStream := { s with pos := p }

/-- Lines 150-155: `HetInfo::to_stream`. -/
def HetInfo.to_stream (s : OStream) (hi : HetInfo) : OStream :=
  (((s.write (le32 (pattern32 hi.vcf_line))).write (le32 (pattern32 hi.a0))).write
    (le32 (pattern32 hi.a1))).write (le32 hi.pp.bits)

/-- Lines 177-190: `SampleBlock::write_to_stream`. -/
def SampleBlock.write_to_stream (s : OStream) (his : List HetInfo) (id : Nat) : OStream :=
  his.foldl HetInfo.to_stream
    (((s.write (le32 0xd00dc0de)).write (le32 id)).write (le32 his.length))

/-- Lines 351-388: `write_to_file`, for the kept-lists `kept` of the windows
(`kept[idx]` is `fifos[idx].get_kept_items_ref()`). Returns the bytes of the
file. -/
def write_to_file (start_id stop_id : Nat) (kept : List (List HetInfo)) : List Nat :=
  let s0 := (OStream.write ⟨[], 0⟩ (le32 0xaabbccdd)).write (le32 (stop_id - start_id))
  let table_seek := s0.pos
  let s1 := (List.range' start_id (stop_id - start_id)).foldl
    (fun (s : OStream) _ => s.write (le64 0xdeadc0dedeadc0de)) s0
  let r := (List.range' start_id (stop_id - start_id)).foldl
    (fun (acc : OStream × List Nat) i =>
      let idx := i - start_id
      (SampleBlock.write_to_stream acc.1 (kept.getD idx []) i, acc.2.set idx acc.1.pos))
    (s1, List.replicate (stop_id - start_id) 0)
  let s3 := (List.range' start_id (stop_id - start_id)).foldl
    (fun (s : OStream) i => s.write (le64 (r.2.getD (i - start_id) 0)))
    (r.1.seekp table_seek)
  s3.bytes

/-- A 32-bit value read at the front of a byte sequence, little-endian. -/
def rd32 (s : List Nat) : Nat :=
  s.getD 0 0 + 2 ^ 8 * s.getD 1 0 + 2 ^ 16 * s.getD 2 0 + 2 ^ 24 * s.getD 3 0

/-- A 64-bit value read at the front of a byte sequence, little-endian. -/
def rd64 (s : List Nat) : Nat := rd32 s + 2 ^ 32 * rd32 (s.drop 4)

/-- Lines 157-162: `HetInfo::from_stream`, on the bytes from the get position
on. -/
def HetInfo.from_stream (s : List Nat) : HetInfo :=
  { vcf_line := signed32 (rd32 s), a0 := signed32 (rd32 (s.drop 4)),
    a1 := signed32 (rd32 (s.drop 8)), pp := ⟨rd32 (s.drop 12)⟩ }

/-- Reading `count` entries of 16 bytes one after the other. -/
def readEntries : Nat → List Nat → List HetInfo
  | 0, _ => []
  | count + 1, s => HetInfo.from_stream s :: readEntries count (s.drop 16)

/-- Modelled from the spec: the reader of the side-channel file, which is in
`utils/sapphire/het_info_loader.hpp`, not among the sources. Following the
layout of the spec, the block of the `k`-th sample is found through the `k`-th
entry of the offset table, which starts at byte 8; the block is its marker, the
sample id, the entry count and the entries. Returns the sample id and the
calls, or nothing when the marker is not there. -/
def readBlock (file : List Nat) (k : Nat) : Option (Nat × List HetInfo) :=
  let s := file.drop (rd64 (file.drop (8 + 8 * k)))
  if rd32 s = 0xd00dc0de then
    some (rd32 (s.drop 4), readEntries (rd32 (s.drop 8)) (s.drop 12))
  else none

/-- The bytes of one call in the file. -/
def HetInfo.encode (hi : HetInfo) : List Nat :=
  le32 (pattern32 hi.vcf_line) ++ le32 (pattern32 hi.a0) ++ le32 (pattern32 hi.a1)
    ++ le32 hi.pp.bits

/-- The bytes of a list of calls, one after the other. -/
def encodeAll : List HetInfo → List Nat
  | [] => []
  | hi :: his => hi.encode ++ encodeAll his

/-- The bytes of one sample block in the file. -/
def blockBytes (his : List HetInfo) (id : Nat) : List Nat :=
  le32 0xd00dc0de ++ le32 id ++ le32 his.length ++ encodeAll his

/-- The position `8 + 8 * n + sum over j < k of (12 + 16 * c_j)` of the block of
the `k`-th sample, where `c_j` is the length of the `j`-th kept-list. -/
def blockStart (n : Nat) (kept : List (List HetInfo)) (k : Nat) : Nat :=
  8 + 8 * n + ((List.range k).map (fun j => 12 + 16 * (kept.getD j []).length)).sum

/-- The first `k` entries of the offset table, as bytes. -/
def tablePrefix (n : Nat) (kept : List (List HetInfo)) : Nat → List Nat
  | 0 => []
  | k + 1 => tablePrefix n kept k ++ le64 (blockStart n kept k)

/-- The first `k` sample blocks, as bytes. -/
def blocksPrefix (start_id : Nat) (kept : List (List HetInfo)) : Nat → List Nat
  | 0 => []
  | k + 1 => blocksPrefix start_id kept k ++ blockBytes (kept.getD k []) (start_id + k)

/-- A call whose three integers are `int32_t` values and whose confidence is
a 32-bit pattern. -/
def HetInfo.inRange (hi : HetInfo) : Prop :=
  (-2 ^ 31 ≤ hi.vcf_line ∧ hi.vcf_line < 2 ^ 31) ∧ (-2 ^ 31 ≤ hi.a0 ∧ hi.a0 < 2 ^ 31) ∧
    (-2 ^ 31 ≤ hi.a1 ∧ hi.a1 < 2 ^ 31) ∧ hi.pp.bits < 2 ^ 32

instance (hi : HetInfo) : Decidable hi.inRange := by
  unfold HetInfo.inRange
  infer_instance

/-! ## The extraction of heterozygous calls: `binary2sapphire::convert` -/

/-- The macro `bcf_gt_unphased(idx)` of the htslib header `vcf.h`,
`((idx + 1) << 1)`, applied to an allele bit as in lines 135-136 of
`binary2sapphire.cpp`. -/
def bcf_gt_unphased (a : Bool) : Int := ((a.toNat : Int) + 1) * 2

/-- The macro `bcf_gt_missing` of the htslib header `vcf.h`, `0`. -/
def bcf_gt_missing : Int := 0

/-- Lines 125-138 of `binary2sapphire.cpp`: a binary genotype record, read into
`binary_buffer`, is decoded into `output_buffer`; the pair `(1,0)` gives two
missing alleles. -/
def decodeBinaryGenotype (nsamples : Nat) (binary_buffer : List Bool) (output_buffer : List Int) :
    List Int :=
  (List.range nsamples).foldl
    (fun (o : List Int) i =>
      let a0 := binary_buffer.getD (2 * i + 0) false
      let a1 := binary_buffer.getD (2 * i + 1) false
      if a0 = true ∧ a1 = false then
        (o.set (2 * i + 0) bcf_gt_missing).set (2 * i + 1) bcf_gt_missing
      else
        (o.set (2 * i + 0) (bcf_gt_unphased a0)).set (2 * i + 1) (bcf_gt_unphased a1))
    output_buffer

/-- The float nearest to `0.97`, the confidence given to a singleton in line
232. -/
def pp097 : F32 := ⟨0x3F7851EC⟩

/-- Lines 212-234: the call built for sample `i` from `output_buffer`, if its
two alleles differ. `pp` is the confidence before the singleton rule: `has_pp`
is `false` throughout, so it is `NAN` or the synthetic value of lines 190-207;
`ac` is the value of `XR.getAC()`. -/
def hetCall (pp_threshold : F32) (line_counter ac : Nat) (pp : F32) (output_buffer : List Int)
    (i : Nat) : Option HetInfo :=
  let encoded_a0 := output_buffer.getD (i * 2) 0
  let encoded_a1 := output_buffer.getD (i * 2 + 1) 0
  let a0 := bcf_gt_allele encoded_a0
  let a1 := bcf_gt_allele encoded_a1
  if a0 ≠ a1 then
    some ⟨signed32 line_counter, encoded_a0, encoded_a1,
      if ac = 1 ∧ F32.ge pp pp_threshold = true then pp097 else pp⟩
  else none

/-- Lines 211-250: the extraction loop of one record over the samples
`start_id .. stop_id - 1`; the call of sample `i` is inserted into the window
`fifos[i - start_id]`. The counters of the loop, which the windows do not
depend on, are left out. -/
def extractHets (pp_threshold : F32) (line_counter ac : Nat) (pp : F32) (start_id stop_id : Nat)
    (output_buffer : List Int) (fifos : List (GenericKeepFifo HetInfo)) :
    List (GenericKeepFifo HetInfo) :=
  (List.range' start_id (stop_id - start_id)).foldl
    (fun (fs : List (GenericKeepFifo HetInfo)) i =>
      match hetCall pp_threshold line_counter ac pp output_buffer i with
      | some hi =>
        match fs[i - start_id]? with
        | some f => fs.set (i - start_id) (f.insert hi)
        | none => fs
      | none => fs)
    fifos

/-! ## The symmetric context of the calls that satisfy the predicate -/

/-- The stream `xs` filtered, in order, to the positions `j` for which some
position `k` of the stream with `p (xs[k])` has `|j - k| ≤ mid`. -/
def contextFilter {T : Type} (mid : Nat) (p : T → Bool) (xs : List T) : List T :=
  ((List.range xs.length).filter (fun j =>
      (List.range xs.length).any (fun k =>
        (match xs[k]? with
          | some c => p c
          | none => false) && decide (j ≤ k + mid) && decide (k ≤ j + mid)))).filterMap
    (fun j => xs[j]?)

/-- Whether position `j` of a stream of positions was flagged by one of the
first `n` inserts into a window of `size` items: at the `t`-th insert
(`1 ≤ t ≤ n`) position `j` was in the window (`j < t ≤ j + size`) and the centre
of the window, which holds position `t - 1 - mid` (position `0` while the centre
is still a copy of the first call), satisfied `q`. -/
def keptAt (size mid : Nat) (q : Nat → Bool) (n j : Nat) : Bool :=
  (List.range (n + 1)).any (fun t => decide (j < t) && decide (t ≤ j + size) && q (t - 1 - mid))

/-- A window over a stream of positions: `d` flagged copies of position `0`
followed by the positions `lo, .., lo + cnt - 1` with the flags `S`. -/
def winItems (d lo cnt : Nat) (S : Nat → Bool) : List (FIFOItem Nat) :=
  List.replicate d (FIFOItem.mk 0 true) ++ (List.range' lo cnt).map (fun j => FIFOItem.mk j (S j))

/-! ## Example data -/

/-- The threshold `0.9f`. -/
def pp090 : F32 := ⟨0x3F666666⟩

/-- The confidence `0.85f`. -/
def pp085 : F32 := ⟨0x3F59999A⟩

/-- The allele frequency `0.1f`. -/
def af010 : F32 := ⟨0x3DCCCCCD⟩

/-- The allele frequency `0.25f`. -/
def af025 : F32 := ⟨0x3E800000⟩

/-- The allele frequency `0.75f`. -/
def af075 : F32 := ⟨0x3F400000⟩

/-- The confidence `2.0f`, a value above `1.0`. -/
def ppTwo : F32 := ⟨0x40000000⟩

/-- Two calls of one sample, with phased allele codes. -/
def twoCalls : List HetInfo := [⟨4, 3, 5, pp085⟩, ⟨9, 5, 3, F32.nan⟩]

/-- Five calls of one sample, with phased allele codes. -/
def fiveCalls : List HetInfo :=
  [⟨0, 5, 3, F32.one⟩, ⟨2, 3, 5, ppTwo⟩, ⟨3, 3, 5, pp090⟩, ⟨7, 5, 3, F32.nan⟩, ⟨11, 3, 5, pp085⟩]

/-- A cohort of two samples. -/
def twoSamples : SampleVectors :=
  { ind_names := ["s0", "s1"], ind_fathers := ["f0", "f1"], ind_mothers := ["m0", "m1"],
    ind_pops := ["p0", "p1"] }

/-- A cohort of four samples. -/
def fourSamples : SampleVectors :=
  { ind_names := ["s0", "s1", "s2", "s3"], ind_fathers := ["f0", "f1", "f2", "f3"],
    ind_mothers := ["m0", "m1", "m2", "m3"], ind_pops := ["p0", "p1", "p2", "p3"] }

/-- A cohort of three samples in which the first and the last have the same
name. -/
def repeatedName : SampleVectors :=
  { ind_names := ["a", "b", "a"], ind_fathers := ["f0", "f1", "f2"],
    ind_mothers := ["m0", "m1", "m2"], ind_pops := ["p0", "p1", "p2"] }

/-- A cohort without samples. -/
def noSamples : SampleVectors :=
  { ind_names := [], ind_fathers := [], ind_mothers := [], ind_pops := [] }

/-- Six calls with confidences `[1.0, 1.0, 0.85, 1.0, 1.0, 1.0]`; the other
fields are those of `h1 .. h6`. -/
def sixCalls (h1 h2 h3 h4 h5 h6 : HetInfo) : List HetInfo :=
  [{ h1 with pp := F32.one }, { h2 with pp := F32.one }, { h3 with pp := pp085 },
   { h4 with pp := F32.one }, { h5 with pp := F32.one }, { h6 with pp := F32.one }]

/-- Five calls of one sample, lines 1 to 5, with confidences
`[1.0, 1.0, 1.0, 1.0, 0.85]`: the only low-confidence call is the last one. -/
def tailCalls : List HetInfo :=
  [⟨1, 2, 5, F32.one⟩, ⟨2, 2, 5, F32.one⟩, ⟨3, 4, 3, F32.one⟩, ⟨4, 2, 5, F32.one⟩,
   ⟨5, 4, 3, pp085⟩]

/-! ## Invariant of the retention window -/

/-- The not-yet-kept items of a window part, in window order. -/
def unkeptItems {T : Type} (its : List (FIFOItem T)) : List T :=
  (its.filter (fun it => !it.kept)).map (fun it => it.item)

/-- A window part with every item flagged as kept. -/
def flagAll {T : Type} (its : List (FIFOItem T)) : List (FIFOItem T) :=
  its.map (fun it => { item := it.item, kept := true })

/-- Shape of a running window after the calls `xs` were inserted: the window
is a part `pre` of flagged items followed by the unflagged calls `l2`, which are
the last calls of the stream `xs = l1 ++ l2`; the kept-list is a subsequence of
`l1`; and a flagged item is in the kept-list, unless nothing was kept yet and it
is a copy of the first call. -/
structure WindowCore {T : Type} (f : GenericKeepFifo T) (xs : List T)
    (pre : List (FIFOItem T)) (l1 l2 : List T) : Prop where
  items_eq : f.items = pre ++ l2.map (fun x => { item := x, kept := false })
  len : f.items.length = f.size
  odd : f.size = 2 * f.mid + 1
  pre_kept : ∀ it ∈ pre, it.kept = true
  stream : xs = l1 ++ l2
  sub : f.kept_items.Sublist l1
  pre_val : ∀ it ∈ pre, it.item ∈ f.kept_items ∨ (l1 = [] ∧ xs.head? = some it.item)

/-- Invariant of a fifo after the calls `xs` were inserted: either nothing was
inserted, or the window has the shape `WindowCore` and every call satisfying the
predicate is in the kept-list or still behind the centre of the window. -/
def WindowInv {T : Type} (p : T → Bool) (f : GenericKeepFifo T) (xs : List T) : Prop :=
  f.p = p ∧ f.size = 2 * f.mid + 1 ∧
  ((f.items = [] ∧ xs = [] ∧ f.kept_items = []) ∨
   ((∃ pre l1 l2, WindowCore f xs pre l1 l2) ∧
    ∀ x ∈ xs, p x = true →
      x ∈ f.kept_items ∨ ∃ it ∈ f.items.drop (f.mid + 1), it.item = x))

/-- The image of a window item under a relabelling `g` of the calls. -/
def FIFOItem.relabel {A B : Type} (g : A → B) (it : FIFOItem A) : FIFOItem B :=
  { item := g it.item, kept := it.kept }

/-- Two fifos in step: `fb` is `fa` with every call relabelled by `g`, and the
predicate of `fa` is the predicate of `fb` on the relabelled call. -/
structure FifoRel {A B : Type} (g : A → B) (fa : GenericKeepFifo A) (fb : GenericKeepFifo B) :
    Prop where
  size_eq : fb.size = fa.size
  mid_eq : fb.mid = fa.mid
  items_eq : fb.items = fa.items.map (FIFOItem.relabel g)
  kept_eq : fb.kept_items = fa.kept_items.map g
  p_eq : ∀ a, fa.p a = fb.p (g a)

/-! ## Shape of the index maps -/

/-- The four retained sample vectors hold the entries of the retained sample
indices `sel`, in that order. -/
structure RetainedSamples (hdr : SampleVectors) (sel : List Nat) (r : SubsetMaps) : Prop where
  names : r.sample_names = sel.map (fun i => hdr.ind_names.getD i "")
  fathers : r.sample_fathers = sel.map (fun i => hdr.ind_fathers.getD i "")
  mothers : r.sample_mothers = sel.map (fun i => hdr.ind_mothers.getD i "")
  pops : r.sample_pops = sel.map (fun i => hdr.ind_pops.getD i "")

/-- A map `full2subs` indexed by sample: the sample `sel[k]` is sent to `k`,
every other index below `2 * n` to `-1`. -/
structure SampleMap (n : Nat) (sel : List Nat) (full2subs : List Int) : Prop where
  len : full2subs.length = 2 * n
  fwd : ∀ (k i : Nat), sel[k]? = some i → full2subs[i]? = some (k : Int)
  bwd : ∀ j : Nat, j < 2 * n → j ∉ sel → full2subs[j]? = some (-1)

/-- A map `full2subs` indexed by allele slot: the two slots of the sample
`sel[k]` are sent to `2 * k` and `2 * k + 1`, every other slot below `2 * n` to
`-1`. -/
structure SlotMap (n : Nat) (sel : List Nat) (full2subs : List Int) : Prop where
  len : full2subs.length = 2 * n
  fwd : ∀ (k i : Nat), sel[k]? = some i →
    full2subs[2 * i]? = some (2 * (k : Int)) ∧ full2subs[2 * i + 1]? = some (2 * (k : Int) + 1)
  bwd : ∀ j : Nat, j < 2 * n → j / 2 ∉ sel → full2subs[j]? = some (-1)

/-- The sample index `i` is retained under the sample list `smpls`: in exclude
mode its name is not listed, in include mode it is the index stored in the name
map under a listed name. -/
def retainedIndex (hdr : SampleVectors) (exclude : Bool) (smpls : List String) (i : Nat) : Prop :=
  i < hdr.ind_names.length ∧
    if exclude = true then hdr.ind_names.getD i "" ∉ smpls
    else ∃ s ∈ smpls, mapNames hdr.ind_names s = some (i : Int)

/-- Outcome of sample selection: `sel` is the ascending list of the retained
sample indices; the sample vectors follow it; in a genotype mode `subs2full`
is `sel` and `full2subs` is indexed by sample; in a haplotype mode `full2subs`
is indexed by slot, and `subs2full` holds the two slots of each retained sample
in exclude mode but the sample index itself in include mode. -/
structure Selection (mode : ConvMode) (hdr : SampleVectors) (exclude : Bool)
    (smpls : List String) (sel : List Nat) (maps : SubsetMaps) : Prop where
  sorted : sel.Pairwise (· < ·)
  mem : ∀ i, i ∈ sel ↔ retainedIndex hdr exclude smpls i
  samples : RetainedSamples hdr sel maps
  geno : (mode = .BG ∨ mode = .SG) →
    maps.subs2full = sel.map Int.ofNat ∧ SampleMap hdr.ind_names.length sel maps.full2subs
  hap : ¬ (mode = .BG ∨ mode = .SG) → SlotMap hdr.ind_names.length sel maps.full2subs
  hap_exclude : ¬ (mode = .BG ∨ mode = .SG) → exclude = true →
    maps.subs2full.length = 2 * sel.length ∧
    ∀ (k i : Nat), sel[k]? = some i →
      maps.subs2full[2 * k]? = some (2 * (i : Int)) ∧
      maps.subs2full[2 * k + 1]? = some (2 * (i : Int) + 1)
  hap_include : ¬ (mode = .BG ∨ mode = .SG) → exclude = false →
    maps.subs2full = sel.map Int.ofNat

/-! ## Properties of the plain conversion -/

theorem F32.lt_false_of_ge {a b : F32} (h : F32.ge a b = true) : F32.lt a b = false := by
  simp only [F32.ge, Bool.and_eq_true, Bool.not_eq_true', decide_eq_true_eq] at h
  simp only [F32.lt, Bool.and_eq_false_iff, Bool.not_eq_false', decide_eq_false_iff_not]
  right; omega

/-- C6: for a record whose tag is of the family of the target mode, with
`maf = min(af, 1 - af)` (the float minimum of `af` and the float difference
`1.0f - af`): if `maf >= minmaf` the record is written with a dense tag (binary
genotype or binary haplotype) in each of the four modes; if `maf < minmaf`, mode
SG writes the sparse genotype tag and mode SH the sparse haplotype tag. -/
theorem convert_rarity_policy (mode : ConvMode) (minmaf : F32) (nsamples : Nat)
    (st : Buffers) (rec : XcfRecord) (fam : Family)
    (hm : mode.family = some fam) (ht : rec.type.family = some fam) :
    (F32.ge (F32.min rec.af (F32.sub F32.one rec.af)) minmaf = true →
      ∃ w st', convertRecord mode minmaf nsamples st rec = .ok (w, st') ∧
        (w.tag = .binaryGenotype ∨ w.tag = .binaryHaplotype)) ∧
    (F32.lt (F32.min rec.af (F32.sub F32.one rec.af)) minmaf = true → mode = .SG →
      ∃ w st', convertRecord mode minmaf nsamples st rec = .ok (w, st') ∧
        w.tag = .sparseGenotype) ∧
    (F32.lt (F32.min rec.af (F32.sub F32.one rec.af)) minmaf = true → mode = .SH →
      ∃ w st', convertRecord mode minmaf nsamples st rec = .ok (w, st') ∧
        w.tag = .sparseHaplotype) := by
  obtain ⟨type, af, bits, ints⟩ := rec
  refine ⟨fun hge => ?_, fun hlt hmode => ?_, fun hlt hmode => ?_⟩
  · have hlt := F32.lt_false_of_ge hge
    simp only at hlt
    cases mode <;> cases type <;> simp [ConvMode.family, RecordType.family] at hm ht <;>
      subst hm <;> simp at ht <;>
      simp [convertRecord, writeStep, mafOf, hlt]
  · subst hmode
    simp only at hlt
    cases type <;> simp [ConvMode.family, RecordType.family] at hm ht <;>
      subst hm <;> simp at ht <;>
      simp [convertRecord, writeStep, mafOf, hlt]
  · subst hmode
    simp only at hlt
    cases type <;> simp [ConvMode.family, RecordType.family] at hm ht <;>
      subst hm <;> simp at ht <;>
      simp [convertRecord, writeStep, mafOf, hlt]

/-- C8: for each of the four modes, each rarity outcome and each of the four
XCF tags, the write step raises an error exactly when the family of the input
tag differs from the family of the target mode. -/
theorem write_step_error_iff (mode : ConvMode) (rare minor : Bool) (type : RecordType)
    (nsamples n_elements : Nat) (st : Buffers) (fm ft : Family)
    (hm : mode.family = some fm) (ht : type.family = some ft) :
    (∃ e, writeStep mode rare minor type nsamples n_elements st = .error e) ↔ ft ≠ fm := by
  cases mode <;> cases type <;> cases rare <;>
    simp [ConvMode.family, RecordType.family] at hm ht <;>
    subst hm <;> subst ht <;> simp [writeStep]

set_option maxRecDepth 100000 in
theorem convert_rarity_policy_witness :
    (ConvMode.SG.family = some Family.genotype ∧
      RecordType.binaryGenotype.family = some Family.genotype ∧
      F32.lt (F32.min af010 (F32.sub F32.one af010)) af025 = true ∧
      ∃ w st', convertRecord .SG af025 1 (Buffers.fresh 1)
          ⟨.binaryGenotype, af010, [true, true], []⟩ = .ok (w, st') ∧
        w.tag = .sparseGenotype) ∧
    (F32.ge (F32.min af025 (F32.sub F32.one af025)) af010 = true ∧
      ∃ w st', convertRecord .SG af010 1 (Buffers.fresh 1)
          ⟨.sparseGenotype, af025, [], [6]⟩ = .ok (w, st') ∧
        (w.tag = .binaryGenotype ∨ w.tag = .binaryHaplotype)) ∧
    (F32.sub F32.one af075 = af025 ∧ F32.min af075 (F32.sub F32.one af075) = af025 ∧
      F32.lt af075 F32.half = false ∧
      F32.lt (F32.min af075 (F32.sub F32.one af075)) F32.half = true ∧
      ∃ w st', convertRecord .SG F32.half 2 (Buffers.fresh 2)
          ⟨.binaryGenotype, af075, [true, true, false, true], []⟩ = .ok (w, st') ∧
        w.tag = .sparseGenotype) ∧
    (ConvMode.SH.family = some Family.haplotype ∧
      RecordType.binaryHaplotype.family = some Family.haplotype ∧
      F32.lt (F32.min af075 (F32.sub F32.one af075)) F32.half = true ∧
      ∃ w st', convertRecord .SH F32.half 2 (Buffers.fresh 2)
          ⟨.binaryHaplotype, af075, [true, true, false, true], []⟩ = .ok (w, st') ∧
        w.tag = .sparseHaplotype) ∧
    (F32.ge (F32.min af075 (F32.sub F32.one af075)) af025 = true ∧
      ∃ w st', convertRecord .SH af025 2 (Buffers.fresh 2)
          ⟨.binaryHaplotype, af075, [true, true, false, true], []⟩ = .ok (w, st') ∧
        (w.tag = .binaryGenotype ∨ w.tag = .binaryHaplotype)) :=
  ⟨⟨rfl, rfl, by decide,
      (convert_rarity_policy .SG af025 1 (Buffers.fresh 1)
        ⟨.binaryGenotype, af010, [true, true], []⟩ .genotype rfl rfl).2.1 (by decide) rfl⟩,
    ⟨by decide,
      (convert_rarity_policy .SG af010 1 (Buffers.fresh 1)
        ⟨.sparseGenotype, af025, [], [6]⟩ .genotype rfl rfl).1 (by decide)⟩,
    ⟨by decide, by decide, by decide, by decide,
      (convert_rarity_policy .SG F32.half 2 (Buffers.fresh 2)
        ⟨.binaryGenotype, af075, [true, true, false, true], []⟩ .genotype rfl rfl).2.1
        (by decide) rfl⟩,
    ⟨rfl, rfl, by decide,
      (convert_rarity_policy .SH F32.half 2 (Buffers.fresh 2)
        ⟨.binaryHaplotype, af075, [true, true, false, true], []⟩ .haplotype rfl rfl).2.2
        (by decide) rfl⟩,
    ⟨by decide,
      (convert_rarity_policy .SH af025 2 (Buffers.fresh 2)
        ⟨.binaryHaplotype, af075, [true, true, false, true], []⟩ .haplotype rfl rfl).1
        (by decide)⟩⟩

theorem write_step_error_iff_witness :
    ConvMode.BH.family = some Family.haplotype ∧
    RecordType.sparseGenotype.family = some Family.genotype ∧
    ((∃ e, writeStep .BH true false .sparseGenotype 1 1 (Buffers.fresh 1) = .error e) ↔
      Family.genotype ≠ Family.haplotype) :=
  ⟨rfl, rfl,
    write_step_error_iff .BH true false .sparseGenotype 1 1 (Buffers.fresh 1)
      .haplotype .genotype rfl rfl⟩

set_option maxRecDepth 100000 in
/-- C1: two samples with the pairs `(0,1)` and `(0,0)`, `af = 0.25`. The
dense-to-sparse conversion (mode SG, threshold 0.5, so the record is rare)
writes the two codes `[18, 32]`; the sparse-to-dense conversion (mode BG) of
that record, read into freshly allocated buffers, writes `(0,0)` for the first
sample: the loop also decodes the entries of `sparse_int_buf` behind the two
codes. -/
theorem genotype_roundtrip_loses_first_sample :
    convertRecord .SG F32.half 2 (Buffers.fresh 2)
        ⟨.binaryGenotype, af025, [false, true, false, false], []⟩
      = .ok (⟨.sparseGenotype, .sparse [18, 32]⟩,
          ⟨[false, true, false, false], [18, 32, 0, 0]⟩) ∧
    convertRecord .BG F32.half 2 (Buffers.fresh 2) ⟨.sparseGenotype, af025, [], [18, 32]⟩
      = .ok (⟨.binaryGenotype, .dense [false, false, false, false]⟩,
          ⟨[false, false, false, false], [18, 32, 0, 0]⟩) := by
  decide

set_option maxRecDepth 100000 in
/-- C7: in mode BH, a sparse haplotype record is written with the tag
`RECORD_BINARY_GENOTYPE`, not with the binary haplotype tag. -/
theorem sparse_haplotype_written_with_genotype_tag :
    (convertRecord .BH F32.half 2 (Buffers.fresh 2) ⟨.sparseHaplotype, af025, [], [3]⟩).map
      (fun r => r.1.tag) = .ok RecordType.binaryGenotype := by
  decide

set_option maxRecDepth 100000 in
/-- C9: two samples with haplotype bits `(0,0)` and `(0,1)`, `af = 0.25`, mode
SH, threshold 0.5 (a rare record). The emitted list is empty, although slot `3`
is true: the loop stops at `nsamples_input`, not at twice that. -/
theorem binary_haplotype_to_sparse_misses_slots :
    (convertRecord .SH F32.half 2 (Buffers.fresh 2)
        ⟨.binaryHaplotype, af025, [false, false, false, true], []⟩).map (fun r => r.1)
      = .ok ⟨.sparseHaplotype, .sparse []⟩ := by
  decide

set_option maxRecDepth 100000 in
/-- C10: two samples, sparse haplotype record with the list `[3]`, `af = 0.25`
(so `minor` is true), mode BH, freshly allocated buffers. The dense buffer
written has slot `0` equal to the minor value although `0` is not in the list:
the loop runs over the whole of `sparse_int_buf`, whose entries behind the list
are still `0`. -/
theorem sparse_haplotype_to_binary_reads_tail :
    F32.lt af025 F32.half = true ∧ 0 ∉ [3] ∧
    (convertRecord .BH F32.half 2 (Buffers.fresh 2)
        ⟨.sparseHaplotype, af025, [], [3]⟩).map (fun r => r.1.payload)
      = .ok (Payload.dense [true, false, false, true]) := by
  decide

theorem sparse_genotype.set_get (g : sparse_genotype) (h : g.idx < 2 ^ 27) :
    sparse_genotype.set g.get = g := by
  obtain ⟨idx, het, mis, al0, al1, pha⟩ := g
  simp only at h
  have h' : idx < 134217728 := by simpa using h
  cases het <;> cases mis <;> cases al0 <;> cases al1 <;> cases pha <;>
    simp [sparse_genotype.set, sparse_genotype.get, Bool.toNat] <;> omega

theorem set_append_drop {α : Type} (codes buf : List α) (c : α) (n : Nat)
    (h1 : codes.length = n) (h2 : n < buf.length) :
    (codes ++ buf.drop n).set n c = (codes ++ [c]) ++ buf.drop (n + 1) := by
  rw [List.set_append]
  have : ¬ n < codes.length := by omega
  rw [if_neg this, h1, Nat.sub_self, List.drop_eq_getElem_cons h2, List.set_cons_zero]
  simp

theorem binaryGenotypeToSparse_eq (bits : List Bool) (buf : List Nat) :
    ∀ (n : Nat), n ≤ buf.length →
      binaryGenotypeToSparse n bits buf =
        ((List.range n).map (fun i =>
            sparse_genotype.get
              { idx := i, het := (bits.getD (2 * i + 0) false != bits.getD (2 * i + 1) false),
                mis := (bits.getD (2 * i + 0) false && !bits.getD (2 * i + 1) false),
                al0 := bits.getD (2 * i + 0) false, al1 := bits.getD (2 * i + 1) false,
                pha := false }) ++ buf.drop n, n) := by
  intro n
  induction n with
  | zero => intro _; simp [binaryGenotypeToSparse]
  | succ n ih =>
    intro hn
    have ih' := ih (by omega)
    unfold binaryGenotypeToSparse at ih' ⊢
    rw [List.range_succ, List.foldl_append, ih']
    simp only [List.foldl_cons, List.foldl_nil, List.map_append, List.map_cons, List.map_nil]
    rw [set_append_drop _ _ _ _ (by simp) (by omega)]

theorem getD_eq_some (bits : List Bool) (i : Nat) (h : i < bits.length) :
    bits[i]? = some (bits.getD i false) := by
  simp [List.getElem?_eq_getElem h]

theorem sparseGenotypeToBinary_codes (N : Nat) (bits : List Bool) (hlen : bits.length = 2 * N)
    (hN : N ≤ 2 ^ 27) :
    ∀ k, k ≤ N →
      (sparseGenotypeToBinary bits ((List.range k).map (fun i =>
            sparse_genotype.get
              { idx := i, het := (bits.getD (2 * i + 0) false != bits.getD (2 * i + 1) false),
                mis := (bits.getD (2 * i + 0) false && !bits.getD (2 * i + 1) false),
                al0 := bits.getD (2 * i + 0) false, al1 := bits.getD (2 * i + 1) false,
                pha := false }))).length = 2 * N ∧
      ∀ j, (sparseGenotypeToBinary bits ((List.range k).map (fun i =>
            sparse_genotype.get
              { idx := i, het := (bits.getD (2 * i + 0) false != bits.getD (2 * i + 1) false),
                mis := (bits.getD (2 * i + 0) false && !bits.getD (2 * i + 1) false),
                al0 := bits.getD (2 * i + 0) false, al1 := bits.getD (2 * i + 1) false,
                pha := false })))[j]? =
        if j < 2 * k then bits[j]? else if j < 2 * N then some false else none := by
  intro k
  induction k with
  | zero =>
    intro _
    simp [sparseGenotypeToBinary, hlen, List.getElem?_replicate]
  | succ k ih =>
    intro hk
    obtain ⟨hl, hget⟩ := ih (by omega)
    unfold sparseGenotypeToBinary at hl hget ⊢
    rw [List.range_succ, List.map_append, List.foldl_append]
    simp only [List.map_cons, List.map_nil, List.foldl_cons, List.foldl_nil]
    rw [sparse_genotype.set_get _ (by show k < 2 ^ 27; omega)]
    have h0 := getD_eq_some bits (2 * k + 0) (by omega)
    have h1 := getD_eq_some bits (2 * k + 1) (by omega)
    generalize bits.getD (2 * k + 0) false = a0 at h0 ⊢
    generalize bits.getD (2 * k + 1) false = a1 at h1 ⊢
    generalize (List.foldl _ _ _) = g at hl hget ⊢
    have hcase : ∀ (b0 b1 : Bool) (j : Nat), bits[2 * k + 0]? = some b0 → bits[2 * k + 1]? = some b1 →
        ((g.set (2 * k + 0) b0).set (2 * k + 1) b1)[j]? =
          if j < 2 * (k + 1) then bits[j]? else if j < 2 * N then some false else none := by
      intro b0 b1 j hb0 hb1
      rw [List.getElem?_set]
      by_cases e1 : 2 * k + 1 = j
      · subst e1
        rw [if_pos rfl, List.length_set, hl, if_pos (by omega), if_pos (by omega), hb1]
      · rw [if_neg e1, List.getElem?_set]
        by_cases e0 : 2 * k + 0 = j
        · subst e0
          rw [if_pos rfl, hl, if_pos (by omega), if_pos (by omega), hb0]
        · rw [if_neg e0, hget j]
          by_cases hj : j < 2 * k
          · rw [if_pos hj, if_pos (by omega)]
          · rw [if_neg hj, if_neg (show ¬ j < 2 * (k + 1) by omega)]
    cases a0 <;> cases a1
    · refine ⟨by simp [hl], fun j => ?_⟩
      simpa using hcase false false j h0 h1
    · refine ⟨by simp [hl], fun j => ?_⟩
      simpa using hcase false true j h0 h1
    · refine ⟨by simp [hl], fun j => ?_⟩
      have hg1 : (g.set (2 * k + 0) true).set (2 * k + 1) false = g.set (2 * k + 0) true := by
        apply List.ext_getElem?
        intro i
        rw [List.getElem?_set]
        by_cases e : 2 * k + 1 = i
        · subst e
          rw [if_pos rfl, List.length_set, hl, if_pos (by omega), List.getElem?_set,
            if_neg (by omega), hget, if_neg (by omega), if_pos (by omega)]
        · rw [if_neg e]
      have := hcase true false j h0 h1
      rw [hg1] at this
      simpa using this
    · refine ⟨by simp [hl], fun j => ?_⟩
      simpa using hcase true true j h0 h1

/-- On the list of codes alone, the dense-to-sparse genotype loop followed by
the sparse-to-dense genotype loop gives back the dense buffer, missing pairs
`(1,0)` included. -/
theorem genotype_roundtrip_on_codes (N : Nat) (bits : List Bool) (buf : List Nat)
    (hlen : bits.length = 2 * N) (hN : N ≤ 2 ^ 27) (hbuf : N ≤ buf.length) :
    sparseGenotypeToBinary bits
      ((binaryGenotypeToSparse N bits buf).1.take (binaryGenotypeToSparse N bits buf).2)
      = bits := by
  rw [binaryGenotypeToSparse_eq bits buf N hbuf]
  simp only
  rw [List.take_left' (by simp)]
  obtain ⟨_, hget⟩ := sparseGenotypeToBinary_codes N bits hlen hN N (Nat.le_refl N)
  apply List.ext_getElem?
  intro j
  rw [hget j]
  by_cases hj : j < 2 * N
  · rw [if_pos hj]
  · rw [if_neg hj, if_neg hj]
    exact (List.getElem?_eq_none (by omega)).symm

/-! ## Properties of the retention window -/

theorem window_example_aux {T : Type} (p : T → Bool) (c1 c2 c3 c4 c5 c6 : T)
    (e1 : p c1 = false) (e2 : p c2 = false) (e3 : p c3 = true) (e4 : p c4 = false)
    (e5 : p c5 = false) (e6 : p c6 = false) :
    (∀ n, 1 ≤ n → n ≤ 4 →
      (GenericKeepFifo.run 5 p ([c1, c2, c3, c4, c5, c6].take n)).kept_items = []) ∧
    (GenericKeepFifo.run 5 p ([c1, c2, c3, c4, c5, c6].take 5)).kept_items
      = [c1, c2, c3, c4, c5] ∧
    (GenericKeepFifo.run 5 p [c1, c2, c3, c4, c5, c6]).kept_items = [c1, c2, c3, c4, c5] ∧
    (GenericKeepFifo.run 5 p [c1, c2, c3, c4, c5, c6]).finalize.kept_items
      = [c1, c2, c3, c4, c5] := by
  refine ⟨?_, ?_, ?_, ?_⟩
  · intro n h1 h4
    have : n = 1 ∨ n = 2 ∨ n = 3 ∨ n = 4 := by omega
    rcases this with h | h | h | h <;> subst h <;>
      simp [GenericKeepFifo.run, GenericKeepFifo.new, GenericKeepFifo.insert,
        List.replicate, e1, e2]
  · simp [GenericKeepFifo.run, GenericKeepFifo.new, GenericKeepFifo.insert,
      List.replicate, e1, e2, e3, GenericKeepFifo.keep, GenericKeepFifo.keepLoop]
  · simp [GenericKeepFifo.run, GenericKeepFifo.new, GenericKeepFifo.insert,
      List.replicate, e1, e2, e3, e4, GenericKeepFifo.keep, GenericKeepFifo.keepLoop]
  · have hrun : GenericKeepFifo.run 5 p [c1, c2, c3, c4, c5, c6] =
        { size := 5, mid := 2,
          items := [⟨c2, true⟩, ⟨c3, true⟩, ⟨c4, true⟩, ⟨c5, true⟩, ⟨c6, false⟩],
          kept_items := [c1, c2, c3, c4, c5], p := p } := by
      simp [GenericKeepFifo.run, GenericKeepFifo.new, GenericKeepFifo.insert,
        List.replicate, e1, e2, e3, e4, GenericKeepFifo.keep, GenericKeepFifo.keepLoop]
    rw [hrun]
    simp [GenericKeepFifo.finalize, GenericKeepFifo.finalizeLoop, e5, e6]

/-- C4: window size 5 (centre index 2), threshold 0.9, six calls with
confidences `[1.0, 1.0, 0.85, 1.0, 1.0, 1.0]`: the kept-list is empty after each
of the inserts 1 to 4, is exactly the calls 1 to 5 in stream order after the
5th insert, and is unchanged by the 6th insert and by `finalize`. -/
theorem window_example (h1 h2 h3 h4 h5 h6 : HetInfo) :
    (GenericKeepFifo.new 5 (PPPred pp090)).size = 5 ∧
    (GenericKeepFifo.new 5 (PPPred pp090)).mid = 2 ∧
    (∀ n, 1 ≤ n → n ≤ 4 →
      (GenericKeepFifo.run 5 (PPPred pp090) ((sixCalls h1 h2 h3 h4 h5 h6).take n)).kept_items
        = []) ∧
    (GenericKeepFifo.run 5 (PPPred pp090) ((sixCalls h1 h2 h3 h4 h5 h6).take 5)).kept_items
      = (sixCalls h1 h2 h3 h4 h5 h6).take 5 ∧
    (GenericKeepFifo.run 5 (PPPred pp090) (sixCalls h1 h2 h3 h4 h5 h6)).kept_items
      = (sixCalls h1 h2 h3 h4 h5 h6).take 5 ∧
    (GenericKeepFifo.run 5 (PPPred pp090) (sixCalls h1 h2 h3 h4 h5 h6)).finalize.kept_items
      = (sixCalls h1 h2 h3 h4 h5 h6).take 5 := by
  have a1 : (!F32.one.isNaN && F32.lt F32.one pp090) = false := by decide
  have a2 : (!pp085.isNaN && F32.lt pp085 pp090) = true := by decide
  exact ⟨rfl, rfl,
    window_example_aux (PPPred pp090) _ _ _ _ _ _ a1 a1 a2 a1 a1 a1⟩

section Window

variable {T : Type}

theorem keepLoop_eq (start : Nat) (its : List (FIFOItem T)) :
    ∀ (i : Nat) (kept : List T),
      GenericKeepFifo.keepLoop start i its kept =
        (its.take (start - i) ++ flagAll (its.drop (start - i)),
          kept ++ unkeptItems (its.drop (start - i))) := by
  induction its with
  | nil => intro i kept; simp [GenericKeepFifo.keepLoop, flagAll, unkeptItems]
  | cons it rest ih =>
    intro i kept
    unfold GenericKeepFifo.keepLoop
    by_cases hs : start ≤ i
    · have h0 : start - i = 0 := by omega
      have h1 : start - (i + 1) = 0 := by omega
      by_cases hk : it.kept = false
      · simp [hs, hk, ih, h0, h1, flagAll, unkeptItems]
      · have hk' : it.kept = true := by simpa using hk
        have hit : it = { item := it.item, kept := true } := by
          cases it; simp_all
        simp [hs, hk', ih, h0, h1, flagAll, unkeptItems]
        exact hit
    · have h1 : start - i = (start - (i + 1)) + 1 := by omega
      simp [hs, ih]
      rw [h1]
      simp

theorem unkeptItems_flagged (pre : List (FIFOItem T)) (h : ∀ it ∈ pre, it.kept = true) :
    unkeptItems pre = [] := by
  unfold unkeptItems
  rw [List.map_eq_nil_iff, List.filter_eq_nil_iff]
  intro it hit
  simp [h it hit]

theorem unkeptItems_fresh (l : List T) :
    unkeptItems (l.map (fun x => ({ item := x, kept := false } : FIFOItem T))) = l := by
  induction l with
  | nil => rfl
  | cons a l ih =>
    unfold unkeptItems at ih ⊢
    simp only [List.map_cons, Bool.not_false, List.filter_cons_of_pos, List.cons.injEq, true_and]
    exact ih

theorem unkeptItems_drop (pre : List (FIFOItem T)) (l2 : List T) (s : Nat)
    (h : ∀ it ∈ pre, it.kept = true) :
    unkeptItems ((pre ++ l2.map (fun x => ({ item := x, kept := false } : FIFOItem T))).drop s)
      = l2.drop (s - pre.length) := by
  rw [List.drop_append_eq_append_drop]
  have h1 : unkeptItems (pre.drop s) = [] :=
    unkeptItems_flagged _ (fun it hit => h it (List.mem_of_mem_drop hit))
  unfold unkeptItems at h1 ⊢
  rw [List.filter_append, List.map_append, h1, List.nil_append, ← List.map_drop]
  exact unkeptItems_fresh _

theorem keep_end_kept_items (f : GenericKeepFifo T) (s : Nat) :
    (f.keep_end s).kept_items = f.kept_items ++ unkeptItems (f.items.drop s) := by
  simp [GenericKeepFifo.keep_end, keepLoop_eq]

theorem keep_end_items (f : GenericKeepFifo T) (s : Nat) :
    (f.keep_end s).items = f.items.take s ++ flagAll (f.items.drop s) := by
  simp [GenericKeepFifo.keep_end, keepLoop_eq]

theorem keep_kept_items (f : GenericKeepFifo T) :
    f.keep.kept_items = f.kept_items ++ unkeptItems f.items := by
  simp [GenericKeepFifo.keep, keepLoop_eq]

theorem keep_items (f : GenericKeepFifo T) : f.keep.items = flagAll f.items := by
  simp [GenericKeepFifo.keep, keepLoop_eq]

theorem flagAll_fresh (l : List T) :
    flagAll (l.map (fun x => ({ item := x, kept := false } : FIFOItem T)))
      = l.map (fun x => ({ item := x, kept := true } : FIFOItem T)) := by
  simp [flagAll]

theorem flagAll_flagged (pre : List (FIFOItem T)) (h : ∀ it ∈ pre, it.kept = true) :
    flagAll pre = pre := by
  unfold flagAll
  conv_rhs => rw [← List.map_id pre]
  apply List.map_congr_left
  intro it hit
  have := h it hit
  cases it
  simp_all

/-- After `keep()`, the window is all flagged, the kept-list has gained the
unflagged calls, and every value of the window is in the kept-list. -/
theorem keep_core (f : GenericKeepFifo T) (xs : List T) (pre : List (FIFOItem T))
    (l1 l2 : List T) (h : WindowCore f xs pre l1 l2) :
    WindowCore f.keep xs
        (pre ++ l2.map (fun x => ({ item := x, kept := true } : FIFOItem T))) xs [] ∧
      f.keep.kept_items = f.kept_items ++ l2 ∧
      ∀ it ∈ f.items, it.item ∈ f.keep.kept_items := by
  have hk : f.keep.kept_items = f.kept_items ++ l2 := by
    rw [keep_kept_items, h.items_eq]
    have := unkeptItems_drop pre l2 0 h.pre_kept
    simpa using this
  have hval : ∀ it ∈ pre, it.item ∈ f.keep.kept_items := by
    intro it hit
    rw [hk]
    rcases h.pre_val it hit with hv | ⟨hl1, hhead⟩
    · exact List.mem_append_left _ hv
    · apply List.mem_append_right
      have hx : xs = l2 := by rw [h.stream, hl1]; rfl
      rw [hx] at hhead
      exact List.mem_of_mem_head? hhead
  refine ⟨?_, hk, ?_⟩
  · refine ⟨?_, ?_, ?_, ?_, ?_, ?_, ?_⟩
    · rw [keep_items, h.items_eq]
      have e1 : flagAll (pre ++ l2.map (fun x => ({ item := x, kept := false } : FIFOItem T)))
          = flagAll pre
            ++ flagAll (l2.map (fun x => ({ item := x, kept := false } : FIFOItem T))) := by
        simp [flagAll]
      rw [e1, flagAll_flagged pre h.pre_kept, flagAll_fresh]
      simp
    · rw [keep_items]
      simp only [flagAll, List.length_map]
      exact h.len
    · exact h.odd
    · intro it hit
      rcases List.mem_append.1 hit with hp | hp
      · exact h.pre_kept it hp
      · obtain ⟨x, _, rfl⟩ := List.mem_map.1 hp
        rfl
    · simp
    · rw [hk, h.stream]
      exact List.Sublist.append h.sub (List.Sublist.refl _)
    · intro it hit
      left
      rcases List.mem_append.1 hit with hp | hp
      · exact hval it hp
      · obtain ⟨x, hx, rfl⟩ := List.mem_map.1 hp
        rw [hk]
        exact List.mem_append_right _ hx
  · intro it hit
    rw [h.items_eq] at hit
    rcases List.mem_append.1 hit with hp | hp
    · exact hval it hp
    · obtain ⟨x, hx, rfl⟩ := List.mem_map.1 hp
      rw [hk]
      exact List.mem_append_right _ hx

theorem insert_def (f : GenericKeepFifo T) (x : T) (its : List (FIFOItem T))
    (h : ((if f.items.length = 0 then List.replicate f.size (FIFOItem.mk x true)
            else f.items) ++ [FIFOItem.mk x false]).tail = its) :
    f.insert x =
      match ({ f with items := its } : GenericKeepFifo T).items[f.mid]? with
      | some c =>
        if f.p c.item then ({ f with items := its } : GenericKeepFifo T).keep
        else { f with items := its }
      | none => { f with items := its } := by
  subst h
  rfl

/-- The centre test of `insert`, on a window of the shape `WindowCore` in
which every call satisfying the predicate is kept or at the centre or behind. -/
theorem insert_centre (p : T → Bool) (f1 : GenericKeepFifo T) (xs : List T)
    (pre : List (FIFOItem T)) (l1 l2 : List T) (hc : WindowCore f1 xs pre l1 l2)
    (hp : f1.p = p)
    (hpend : ∀ y ∈ xs, p y = true →
      y ∈ f1.kept_items ∨ ∃ it ∈ f1.items.drop f1.mid, it.item = y) :
    WindowInv p
      (match f1.items[f1.mid]? with
        | some c => if f1.p c.item then f1.keep else f1
        | none => f1) xs := by
  have hlt : f1.mid < f1.items.length := by
    have h1 := hc.len
    have h2 := hc.odd
    omega
  rw [List.getElem?_eq_getElem hlt]
  simp only
  by_cases hpc : f1.p (f1.items[f1.mid]).item = true
  · rw [if_pos hpc]
    obtain ⟨hcore, hk, hall⟩ := keep_core f1 xs pre l1 l2 hc
    refine ⟨hp, hc.odd, Or.inr ⟨⟨_, _, _, hcore⟩, ?_⟩⟩
    intro y hy hpy
    left
    rcases hpend y hy hpy with hkept | ⟨it, hit, rfl⟩
    · rw [hk]
      exact List.mem_append_left _ hkept
    · exact hall it (List.mem_of_mem_drop hit)
  · rw [if_neg hpc]
    refine ⟨hp, hc.odd, Or.inr ⟨⟨_, _, _, hc⟩, ?_⟩⟩
    intro y hy hpy
    rcases hpend y hy hpy with hkept | ⟨it, hit, rfl⟩
    · exact Or.inl hkept
    · right
      rw [List.drop_eq_getElem_cons hlt] at hit
      rcases List.mem_cons.1 hit with heq | hmem
      · subst heq
        rw [hp] at hpc
        exact absurd hpy hpc
      · exact ⟨it, hmem, rfl⟩

theorem insert_window (p : T → Bool) (f : GenericKeepFifo T) (xs : List T) (x : T)
    (its pre : List (FIFOItem T)) (l1 l2 : List T)
    (hf1 : ((if f.items.length = 0 then List.replicate f.size (FIFOItem.mk x true)
            else f.items) ++ [FIFOItem.mk x false]).tail = its)
    (hcore : WindowCore ({ f with items := its } : GenericKeepFifo T) (xs ++ [x]) pre l1 l2)
    (hp : f.p = p)
    (hpend : ∀ y ∈ xs ++ [x], p y = true →
      y ∈ f.kept_items ∨ ∃ it ∈ its.drop f.mid, it.item = y) :
    WindowInv p (f.insert x) (xs ++ [x]) := by
  rw [insert_def f x its hf1]
  exact insert_centre p ({ f with items := its } : GenericKeepFifo T) _ _ _ _ hcore hp hpend

/-- One `insert` preserves the invariant of the window. -/
theorem insert_inv (p : T → Bool) (f : GenericKeepFifo T) (xs : List T) (x : T)
    (h : WindowInv p f xs) : WindowInv p (f.insert x) (xs ++ [x]) := by
  obtain ⟨hp, hodd, hcase⟩ := h
  rcases hcase with ⟨hitems, hxs, hkept⟩ | ⟨⟨pre, l1, l2, hc⟩, hpend⟩
  · -- first insert: the window is primed with flagged copies of `x`
    subst hxs
    refine insert_window p f [] x
      (List.replicate (2 * f.mid) (FIFOItem.mk x true) ++ [FIFOItem.mk x false])
      (List.replicate (2 * f.mid) (FIFOItem.mk x true)) [] [x] ?_ ?_ hp ?_
    · rw [hitems, hodd]
      simp [List.replicate_succ]
    · refine ⟨by simp, by simp [hodd], hodd, ?_, by simp, by simp [hkept], ?_⟩
      · intro it hit
        rw [List.eq_of_mem_replicate hit]
      · intro it hit
        right
        rw [List.eq_of_mem_replicate hit]
        simp
    · intro y hy hpy
      right
      refine ⟨FIFOItem.mk x false, ?_, ?_⟩
      · rw [List.drop_append_of_le_length (by simp; omega)]
        simp
      · simp at hy
        exact hy.symm
  · -- later inserts: push at the end, pop the oldest
    have hlen := hc.len
    have hne : f.items.length ≠ 0 := by omega
    have hf1 : ((if f.items.length = 0 then List.replicate f.size (FIFOItem.mk x true)
            else f.items) ++ [FIFOItem.mk x false]).tail
        = (f.items ++ [FIFOItem.mk x false]).tail := by
      rw [if_neg hne]
    have hdrop : ((f.items ++ [FIFOItem.mk x false]).tail).drop f.mid
        = f.items.drop (f.mid + 1) ++ [FIFOItem.mk x false] := by
      rw [List.drop_tail, List.drop_append_of_le_length (by omega)]
    have hpend1 : ∀ y ∈ xs ++ [x], p y = true →
        y ∈ f.kept_items ∨
          ∃ it ∈ ((f.items ++ [FIFOItem.mk x false]).tail).drop f.mid, it.item = y := by
      intro y hy hpy
      rw [hdrop]
      rcases List.mem_append.1 hy with hy1 | hy1
      · rcases hpend y hy1 hpy with hk | ⟨it, hit, hv⟩
        · exact Or.inl hk
        · exact Or.inr ⟨it, List.mem_append_left _ hit, hv⟩
      · right
        refine ⟨FIFOItem.mk x false, by simp, ?_⟩
        simp at hy1
        exact hy1.symm
    cases pre with
    | nil =>
      cases l2 with
      | nil =>
        have := hc.items_eq
        simp [this] at hne
      | cons y l2t =>
        refine insert_window p f xs x _ [] (l1 ++ [y]) (l2t ++ [x]) hf1 ?_ hp hpend1
        refine ⟨?_, ?_, hc.odd, by simp, ?_, ?_, by simp⟩
        · show (f.items ++ [FIFOItem.mk x false]).tail = _
          rw [hc.items_eq]
          simp
        · show ((f.items ++ [FIFOItem.mk x false]).tail).length = _
          simp
          omega
        · rw [hc.stream]
          simp
        · exact hc.sub.trans (List.sublist_append_left _ _)
    | cons a pt =>
      refine insert_window p f xs x _ pt l1 (l2 ++ [x]) hf1 ?_ hp hpend1
      refine ⟨?_, ?_, hc.odd, ?_, ?_, hc.sub, ?_⟩
      · show (f.items ++ [FIFOItem.mk x false]).tail = _
        rw [hc.items_eq]
        simp
      · show ((f.items ++ [FIFOItem.mk x false]).tail).length = _
        simp
        omega
      · intro it hit
        exact hc.pre_kept it (List.mem_cons_of_mem _ hit)
      · rw [hc.stream]
        simp
      · intro it hit
        rcases hc.pre_val it (List.mem_cons_of_mem _ hit) with hv | ⟨hl1, hh⟩
        · exact Or.inl hv
        · right
          refine ⟨hl1, ?_⟩
          rw [List.head?_append, hh]
          rfl

/-- The invariant holds after any stream of inserts into a fresh fifo. -/
theorem run_inv (size : Nat) (p : T → Bool) (xs : List T) :
    WindowInv p (GenericKeepFifo.run size p xs) xs := by
  have base : WindowInv p (GenericKeepFifo.new size p) ([] : List T) := by
    unfold GenericKeepFifo.new
    split
    · refine ⟨rfl, ?_, Or.inl ⟨rfl, rfl, rfl⟩⟩
      show size + 1 = 2 * ((size + 1) / 2) + 1
      omega
    · refine ⟨rfl, ?_, Or.inl ⟨rfl, rfl, rfl⟩⟩
      show size = 2 * (size / 2) + 1
      omega
  have gen : ∀ (ys : List T) (f : GenericKeepFifo T) (done : List T),
      WindowInv p f done → WindowInv p (ys.foldl GenericKeepFifo.insert f) (done ++ ys) := by
    intro ys
    induction ys with
    | nil => intro f done h; simpa using h
    | cons y ys ih =>
      intro f done h
      have := ih (f.insert y) (done ++ [y]) (insert_inv p f done y h)
      simpa using this
  simpa [GenericKeepFifo.run] using gen xs _ [] base

theorem finalizeLoop_none (f : GenericKeepFifo T) :
    ∀ (rest : List (FIFOItem T)) (i : Nat), (∀ it ∈ rest, f.p it.item = false) →
      GenericKeepFifo.finalizeLoop f i rest = f := by
  intro rest
  induction rest with
  | nil => intro i _; rfl
  | cons a rest ih =>
    intro i h
    unfold GenericKeepFifo.finalizeLoop
    have ha : f.p a.item = false := h a (List.mem_cons_self _ _)
    simp only [ha, Bool.false_eq_true, if_false]
    exact ih (i + 1) (fun it hit => h it (List.mem_cons_of_mem _ hit))

theorem finalizeLoop_first (f : GenericKeepFifo T) :
    ∀ (rest : List (FIFOItem T)) (i0 k : Nat) (it : FIFOItem T),
      rest[k]? = some it → f.p it.item = true →
      (∀ j jt, j < k → rest[j]? = some jt → f.p jt.item = false) →
      GenericKeepFifo.finalizeLoop f i0 rest = f.keep_end (i0 + k - f.mid) := by
  intro rest
  induction rest with
  | nil => intro i0 k it h; simp at h
  | cons a rest ih =>
    intro i0 k it hk hp hfirst
    unfold GenericKeepFifo.finalizeLoop
    cases k with
    | zero =>
      simp at hk
      subst hk
      simp [hp]
    | succ k =>
      have ha : f.p a.item = false := hfirst 0 a (by omega) (by simp)
      simp only [ha, Bool.false_eq_true, if_false]
      have hk1 : rest[k]? = some it := by simpa using hk
      have := ih (i0 + 1) k it hk1 hp
        (fun j jt hj hjt => hfirst (j + 1) jt (by omega) (by simpa using hjt))
      rw [this]
      congr 1
      omega

theorem exists_first_index {α : Type} (q : α → Bool) :
    ∀ (rest : List α), (∃ it ∈ rest, q it = true) →
      ∃ (k : Nat) (it : α), rest[k]? = some it ∧ q it = true ∧
        ∀ (j : Nat) (jt : α), j < k → rest[j]? = some jt → q jt = false := by
  intro rest
  induction rest with
  | nil => intro h; obtain ⟨it, hit, _⟩ := h; simp at hit
  | cons a rest ih =>
    intro h
    by_cases ha : q a = true
    · exact ⟨0, a, by simp, ha, fun j jt hj _ => absurd hj (by omega)⟩
    · have ha' : q a = false := by simpa using ha
      obtain ⟨it, hit, hq⟩ := h
      have hrest : ∃ it ∈ rest, q it = true := by
        rcases List.mem_cons.1 hit with heq | hmem
        · subst heq; exact absurd hq ha
        · exact ⟨it, hmem, hq⟩
      obtain ⟨k, kt, hk, hqk, hfirst⟩ := ih hrest
      refine ⟨k + 1, kt, by simpa using hk, hqk, ?_⟩
      intro j jt hj hjt
      cases j with
      | zero =>
        simp at hjt
        subst hjt
        exact ha'
      | succ j => exact hfirst j jt (by omega) (by simpa using hjt)

/-- The two outcomes of `finalize`. -/
theorem finalize_cases (f : GenericKeepFifo T) :
    ((∀ it ∈ f.items.drop (f.mid + 1), f.p it.item = false) ∧ f.finalize = f) ∨
    ∃ k it, (f.items.drop (f.mid + 1))[k]? = some it ∧ f.p it.item = true ∧
      (∀ j jt, j < k → (f.items.drop (f.mid + 1))[j]? = some jt → f.p jt.item = false) ∧
      f.finalize = f.keep_end (k + 1) := by
  by_cases h : ∃ it ∈ f.items.drop (f.mid + 1), f.p it.item = true
  · right
    obtain ⟨k, it, hk, hp, hfirst⟩ := exists_first_index (fun it => f.p it.item) _ h
    refine ⟨k, it, hk, hp, hfirst, ?_⟩
    unfold GenericKeepFifo.finalize
    rw [finalizeLoop_first f _ (f.mid + 1) k it hk hp hfirst]
    congr 1
    omega
  · left
    have hall : ∀ it ∈ f.items.drop (f.mid + 1), f.p it.item = false := by
      intro it hit
      by_contra hc
      exact h ⟨it, hit, by simpa using hc⟩
    exact ⟨hall, finalizeLoop_none f _ _ hall⟩

/-- C5 (amended): when `i` is the first window position after the centre whose
element satisfies the predicate, `finalize` appends to the kept-list exactly the
not-yet-kept window elements at the positions from `i - mid` on, in window
order, and flags them; the elements before position `i - mid` are left as they
are. -/
theorem finalize_keeps_context (f : GenericKeepFifo T) (i : Nat) (it : FIFOItem T)
    (hmid : f.mid < i) (hit : f.items[i]? = some it) (hp : f.p it.item = true)
    (hfirst : ∀ j jt, f.mid < j → j < i → f.items[j]? = some jt → f.p jt.item = false) :
    f.finalize.kept_items = f.kept_items ++ unkeptItems (f.items.drop (i - f.mid)) ∧
    f.finalize.items = f.items.take (i - f.mid) ++ flagAll (f.items.drop (i - f.mid)) := by
  have hk : (f.items.drop (f.mid + 1))[i - (f.mid + 1)]? = some it := by
    rw [List.getElem?_drop]
    have : f.mid + 1 + (i - (f.mid + 1)) = i := by omega
    rw [this]
    exact hit
  have hf : ∀ j jt, j < i - (f.mid + 1) → (f.items.drop (f.mid + 1))[j]? = some jt →
      f.p jt.item = false := by
    intro j jt hj hjt
    rw [List.getElem?_drop] at hjt
    exact hfirst (f.mid + 1 + j) jt (by omega) (by omega) hjt
  have hfin : f.finalize = f.keep_end (i - f.mid) := by
    unfold GenericKeepFifo.finalize
    rw [finalizeLoop_first f _ (f.mid + 1) (i - (f.mid + 1)) it hk hp hf]
    congr 1
    omega
  rw [hfin]
  exact ⟨keep_end_kept_items f _, keep_end_items f _⟩

theorem finalize_keeps_context_witness :
    (GenericKeepFifo.run 5 (PPPred pp090) tailCalls).mid < 4 ∧
    (GenericKeepFifo.run 5 (PPPred pp090) tailCalls).items[4]?
      = some ⟨⟨5, 4, 3, pp085⟩, false⟩ ∧
    (GenericKeepFifo.run 5 (PPPred pp090) tailCalls).finalize.kept_items
      = [⟨3, 4, 3, F32.one⟩, ⟨4, 2, 5, F32.one⟩, ⟨5, 4, 3, pp085⟩] := by
  refine ⟨by decide, by decide, ?_⟩
  have h := (finalize_keeps_context (GenericKeepFifo.run 5 (PPPred pp090) tailCalls) 4
    ⟨⟨5, 4, 3, pp085⟩, false⟩ (by decide) (by decide) (by decide) (by
      intro j jt h1 h2 hj
      have h3 : j = 3 := by
        have : (GenericKeepFifo.run 5 (PPPred pp090) tailCalls).mid = 2 := by decide
        omega
      subst h3
      have h4 : (GenericKeepFifo.run 5 (PPPred pp090) tailCalls).items[3]?
          = some ⟨⟨4, 2, 5, F32.one⟩, false⟩ := by decide
      rw [h4] at hj
      cases hj
      decide)).1
  rw [h]
  decide

/-- C5 (as stated, refuted): with window size 5 and the stream `tailCalls`, the
first position after the centre whose element satisfies the predicate is `4`,
but `finalize` appends more than the not-yet-kept elements at positions `>= 4`:
it also appends those at positions 2 and 3. -/
theorem finalize_appends_before_first_match :
    ∃ i it, (GenericKeepFifo.run 5 (PPPred pp090) tailCalls).mid < i ∧
      (GenericKeepFifo.run 5 (PPPred pp090) tailCalls).items[i]? = some it ∧
      PPPred pp090 it.item = true ∧
      (∀ j, (GenericKeepFifo.run 5 (PPPred pp090) tailCalls).mid < j → j < i →
        ((GenericKeepFifo.run 5 (PPPred pp090) tailCalls).items[j]?).map
          (fun jt => PPPred pp090 jt.item) = some false) ∧
      (GenericKeepFifo.run 5 (PPPred pp090) tailCalls).finalize.kept_items ≠
        (GenericKeepFifo.run 5 (PPPred pp090) tailCalls).kept_items ++
          unkeptItems ((GenericKeepFifo.run 5 (PPPred pp090) tailCalls).items.drop i) := by
  refine ⟨4, ⟨⟨5, 4, 3, pp085⟩, false⟩, by decide, by decide, by decide, ?_, by decide⟩
  intro j h1 h2
  have h3 : j = 3 := by
    have : (GenericKeepFifo.run 5 (PPPred pp090) tailCalls).mid = 2 := by decide
    omega
  subst h3
  decide

theorem inv_sublist (p : T → Bool) (f : GenericKeepFifo T) (xs : List T)
    (h : WindowInv p f xs) : f.kept_items.Sublist xs := by
  obtain ⟨_, _, hcase⟩ := h
  rcases hcase with ⟨_, _, hkept⟩ | ⟨⟨pre, l1, l2, hc⟩, _⟩
  · rw [hkept]
    exact List.nil_sublist _
  · rw [hc.stream]
    exact hc.sub.trans (List.sublist_append_left _ _)

theorem finalize_sublist (p : T → Bool) (f : GenericKeepFifo T) (xs : List T)
    (h : WindowInv p f xs) : f.finalize.kept_items.Sublist xs := by
  rcases finalize_cases f with ⟨_, hfin⟩ | ⟨k, it, _, _, _, hfin⟩
  · rw [hfin]
    exact inv_sublist p f xs h
  · obtain ⟨_, _, hcase⟩ := h
    rcases hcase with ⟨hitems, _, hkept⟩ | ⟨⟨pre, l1, l2, hc⟩, _⟩
    · rw [hfin, keep_end_kept_items, hitems, hkept]
      simp [unkeptItems]
    · rw [hfin, keep_end_kept_items, hc.items_eq, unkeptItems_drop pre l2 _ hc.pre_kept,
        hc.stream]
      exact List.Sublist.append hc.sub (List.drop_sublist _ _)

theorem finalize_complete (p : T → Bool) (f : GenericKeepFifo T) (xs : List T)
    (h : WindowInv p f xs) : ∀ x ∈ xs, p x = true → x ∈ f.finalize.kept_items := by
  intro x hx hpx
  obtain ⟨hp, _, hcase⟩ := h
  rcases hcase with ⟨_, hxs, _⟩ | ⟨⟨pre, l1, l2, hc⟩, hpend⟩
  · subst hxs
    simp at hx
  · have hmono : ∀ y, y ∈ f.kept_items → y ∈ f.finalize.kept_items := by
      intro y hy
      rcases finalize_cases f with ⟨_, hfin⟩ | ⟨k, it, _, _, _, hfin⟩
      · rw [hfin]; exact hy
      · rw [hfin, keep_end_kept_items]
        exact List.mem_append_left _ hy
    rcases hpend x hx hpx with hk | ⟨it, hit, hv⟩
    · exact hmono x hk
    · subst hv
      rcases finalize_cases f with ⟨hall, _⟩ | ⟨k, kt, hk, hpk, hfirst, hfin⟩
      · have := hall it hit
        rw [hp] at this
        rw [this] at hpx
        cases hpx
      · obtain ⟨n, hn⟩ := List.mem_iff_getElem?.1 hit
        have hkn : k ≤ n := by
          by_contra hlt
          have := hfirst n it (by omega) hn
          rw [hp] at this
          rw [this] at hpx
          cases hpx
        rw [List.getElem?_drop] at hn
        rw [hfin, keep_end_kept_items, hc.items_eq, unkeptItems_drop pre l2 _ hc.pre_kept]
        rw [hc.items_eq] at hn
        by_cases hpre : f.mid + 1 + n < pre.length
        · rw [List.getElem?_append_left hpre] at hn
          have hmem : it ∈ pre := List.mem_iff_getElem?.2 ⟨_, hn⟩
          rcases hc.pre_val it hmem with hv | ⟨hl1, hhead⟩
          · exact List.mem_append_left _ hv
          · apply List.mem_append_right
            have h0 : k + 1 - pre.length = 0 := by omega
            rw [h0, List.drop_zero]
            have hx2 : xs = l2 := by rw [hc.stream, hl1]; rfl
            rw [hx2] at hhead
            exact List.mem_of_mem_head? hhead
        · apply List.mem_append_right
          rw [List.getElem?_append_right (by omega), List.getElem?_map] at hn
          rw [List.mem_iff_getElem?]
          refine ⟨f.mid + 1 + n - pre.length - (k + 1 - pre.length), ?_⟩
          rw [List.getElem?_drop]
          have hidx : k + 1 - pre.length + (f.mid + 1 + n - pre.length - (k + 1 - pre.length))
              = f.mid + 1 + n - pre.length := by omega
          rw [hidx]
          cases hl : l2[f.mid + 1 + n - pre.length]? with
          | none => rw [hl] at hn; simp at hn
          | some v =>
            rw [hl] at hn
            simp at hn
            rw [← hn]

theorem unkeptItems_relabel {A B : Type} (g : A → B) (its : List (FIFOItem A)) :
    unkeptItems (its.map (FIFOItem.relabel g)) = (unkeptItems its).map g := by
  induction its with
  | nil => rfl
  | cons a its ih =>
    unfold unkeptItems at ih ⊢
    cases hk : a.kept <;> simp [List.filter_cons, FIFOItem.relabel, hk] <;> simpa using ih

theorem flagAll_relabel {A B : Type} (g : A → B) (its : List (FIFOItem A)) :
    flagAll (its.map (FIFOItem.relabel g)) = (flagAll its).map (FIFOItem.relabel g) := by
  simp [flagAll, FIFOItem.relabel]

theorem keep_end_rel {A B : Type} (g : A → B) (fa : GenericKeepFifo A) (fb : GenericKeepFifo B)
    (h : FifoRel g fa fb) (s : Nat) : FifoRel g (fa.keep_end s) (fb.keep_end s) := by
  refine ⟨h.size_eq, h.mid_eq, ?_, ?_, h.p_eq⟩
  · rw [keep_end_items, keep_end_items, h.items_eq, ← List.map_drop, flagAll_relabel,
      ← List.map_take, List.map_append]
  · rw [keep_end_kept_items, keep_end_kept_items, h.items_eq, h.kept_eq, ← List.map_drop,
      unkeptItems_relabel, List.map_append]

theorem keep_rel {A B : Type} (g : A → B) (fa : GenericKeepFifo A) (fb : GenericKeepFifo B)
    (h : FifoRel g fa fb) : FifoRel g fa.keep fb.keep := by
  refine ⟨h.size_eq, h.mid_eq, ?_, ?_, h.p_eq⟩
  · rw [keep_items, keep_items, h.items_eq, flagAll_relabel]
  · rw [keep_kept_items, keep_kept_items, h.items_eq, h.kept_eq, unkeptItems_relabel,
      List.map_append]

theorem centre_rel {A B : Type} (g : A → B) (fa : GenericKeepFifo A) (fb : GenericKeepFifo B)
    (h : FifoRel g fa fb) :
    FifoRel g
      (match fa.items[fa.mid]? with
        | some c => if fa.p c.item then fa.keep else fa
        | none => fa)
      (match fb.items[fb.mid]? with
        | some c => if fb.p c.item then fb.keep else fb
        | none => fb) := by
  rw [h.items_eq, h.mid_eq, List.getElem?_map]
  cases hc : fa.items[fa.mid]? with
  | none => exact h
  | some c =>
    simp only [Option.map_some']
    have hpc : fb.p (FIFOItem.relabel g c).item = fa.p c.item := (h.p_eq c.item).symm
    rw [hpc]
    by_cases hp : fa.p c.item = true
    · rw [if_pos hp, if_pos hp]
      exact keep_rel g _ _ h
    · rw [if_neg hp, if_neg hp]
      exact h

theorem insert_rel {A B : Type} (g : A → B) (fa : GenericKeepFifo A) (fb : GenericKeepFifo B)
    (h : FifoRel g fa fb) (a : A) : FifoRel g (fa.insert a) (fb.insert (g a)) := by
  have hits : ((if fb.items.length = 0 then List.replicate fb.size (FIFOItem.mk (g a) true)
        else fb.items) ++ [FIFOItem.mk (g a) false]).tail
      = (((if fa.items.length = 0 then List.replicate fa.size (FIFOItem.mk a true)
        else fa.items) ++ [FIFOItem.mk a false]).tail).map (FIFOItem.relabel g) := by
    rw [h.items_eq, h.size_eq, List.length_map]
    by_cases h0 : fa.items.length = 0
    · simp [h0, FIFOItem.relabel, List.map_tail]
    · simp [h0, FIFOItem.relabel, List.map_tail]
  rw [insert_def fa a _ rfl, insert_def fb (g a) _ hits]
  exact centre_rel g
    ({ fa with items := ((if fa.items.length = 0 then
        List.replicate fa.size (FIFOItem.mk a true) else fa.items)
          ++ [FIFOItem.mk a false]).tail } : GenericKeepFifo A)
    ({ fb with items := (((if fa.items.length = 0 then
        List.replicate fa.size (FIFOItem.mk a true) else fa.items)
          ++ [FIFOItem.mk a false]).tail).map (FIFOItem.relabel g) } : GenericKeepFifo B)
    ⟨h.size_eq, h.mid_eq, rfl, h.kept_eq, h.p_eq⟩

theorem finalizeLoop_rel {A B : Type} (g : A → B) (fa : GenericKeepFifo A)
    (fb : GenericKeepFifo B) (h : FifoRel g fa fb) :
    ∀ (rest : List (FIFOItem A)) (i : Nat),
      FifoRel g (GenericKeepFifo.finalizeLoop fa i rest)
        (GenericKeepFifo.finalizeLoop fb i (rest.map (FIFOItem.relabel g))) := by
  intro rest
  induction rest with
  | nil => intro i; exact h
  | cons c rest ih =>
    intro i
    rw [List.map_cons]
    unfold GenericKeepFifo.finalizeLoop
    have hpc : fb.p (FIFOItem.relabel g c).item = fa.p c.item := (h.p_eq c.item).symm
    rw [hpc, h.mid_eq]
    by_cases hp : fa.p c.item = true
    · rw [if_pos hp, if_pos hp]
      exact keep_end_rel g fa fb h _
    · rw [if_neg hp, if_neg hp]
      exact ih (i + 1)

theorem finalize_rel {A B : Type} (g : A → B) (fa : GenericKeepFifo A) (fb : GenericKeepFifo B)
    (h : FifoRel g fa fb) : FifoRel g fa.finalize fb.finalize := by
  unfold GenericKeepFifo.finalize
  rw [h.items_eq, h.mid_eq, ← List.map_drop]
  exact finalizeLoop_rel g fa fb h _ _

theorem new_rel {A B : Type} (g : A → B) (size : Nat) (p : B → Bool) :
    FifoRel g (GenericKeepFifo.new size (fun a => p (g a))) (GenericKeepFifo.new size p) := by
  unfold GenericKeepFifo.new
  split <;> exact ⟨rfl, rfl, rfl, rfl, fun _ => rfl⟩

/-- Relabelling the calls of a stream relabels the run: the fifo treats its
items as opaque values. -/
theorem run_rel {A B : Type} (g : A → B) (size : Nat) (p : B → Bool) (xs : List A) :
    FifoRel g (GenericKeepFifo.run size (fun a => p (g a)) xs)
      (GenericKeepFifo.run size p (xs.map g)) := by
  have gen : ∀ (ys : List A) (fa : GenericKeepFifo A) (fb : GenericKeepFifo B),
      FifoRel g fa fb →
        FifoRel g (ys.foldl GenericKeepFifo.insert fa)
          ((ys.map g).foldl GenericKeepFifo.insert fb) := by
    intro ys
    induction ys with
    | nil => intro fa fb h; exact h
    | cons y ys ih =>
      intro fa fb h
      exact ih _ _ (insert_rel g fa fb h y)
  exact gen xs _ _ (new_rel g size p)

/-- The run on the stream in which every call carries its position is the
run on the plain stream, call by call. -/
theorem run_enum_rel (size : Nat) (p : T → Bool) (xs : List T) :
    FifoRel Prod.snd (GenericKeepFifo.run size (fun c : Nat × T => p c.2) xs.enum)
      (GenericKeepFifo.run size p xs) := by
  have h := run_rel (Prod.snd : Nat × T → T) size p xs.enum
  rw [List.enum_map_snd] at h
  exact h

/-- C2: after all inserts followed by one `finalize`, every inserted call that
satisfies the predicate is in the kept-list, for every predicate, configured
window size and stream. By position: the kept-list consists of calls taken at
stream positions, and every position whose call satisfies the predicate is
among them, the last position included. -/
theorem finalize_exports_every_match (size : Nat) (p : T → Bool) (xs : List T) :
    (∀ x ∈ xs, p x = true → x ∈ (GenericKeepFifo.run size p xs).finalize.kept_items) ∧
    ∃ tagged : List (Nat × T),
      tagged.map Prod.snd = (GenericKeepFifo.run size p xs).finalize.kept_items ∧
      (∀ c ∈ tagged, xs[c.1]? = some c.2) ∧
      ∀ (i : Nat) (x : T), xs[i]? = some x → p x = true → (i, x) ∈ tagged := by
  refine ⟨finalize_complete p _ xs (run_inv size p xs), ?_⟩
  refine ⟨(GenericKeepFifo.run size (fun c : Nat × T => p c.2) xs.enum).finalize.kept_items,
    ?_, ?_, ?_⟩
  · exact (finalize_rel Prod.snd _ _ (run_enum_rel size p xs)).kept_eq.symm
  · intro c hc
    have hsub := finalize_sublist _ _ _ (run_inv size (fun c : Nat × T => p c.2) xs.enum)
    exact List.mem_enum_iff_getElem?.1 (hsub.subset hc)
  · intro i x hi hpx
    exact finalize_complete (fun c : Nat × T => p c.2) _ xs.enum
      (run_inv size (fun c : Nat × T => p c.2) xs.enum) (i, x)
      (List.mk_mem_enum_iff_getElem?.2 hi) hpx

theorem finalize_exports_every_match_witness :
    (⟨5, 4, 3, pp085⟩ : HetInfo) ∈ tailCalls ∧ PPPred pp090 ⟨5, 4, 3, pp085⟩ = true ∧
    ⟨5, 4, 3, pp085⟩ ∈ (GenericKeepFifo.run 5 (PPPred pp090) tailCalls).finalize.kept_items :=
  ⟨by decide, by decide,
    (finalize_exports_every_match 5 (PPPred pp090) tailCalls).1 _ (by decide) (by decide)⟩

/-- C3: for every configured window size, predicate and stream of inserts,
followed by `finalize` or not, the kept-list is a subsequence of the inserted
calls: it consists of the calls at strictly increasing stream positions, so
every kept element is a call that was inserted and no inserted call appears
twice. -/
theorem kept_list_is_subsequence (size : Nat) (p : T → Bool) (xs : List T) (fin : Bool) :
    (if fin then (GenericKeepFifo.run size p xs).finalize
      else GenericKeepFifo.run size p xs).kept_items.Sublist xs ∧
    ∃ tagged : List (Nat × T),
      tagged.map Prod.snd =
        (if fin then (GenericKeepFifo.run size p xs).finalize
          else GenericKeepFifo.run size p xs).kept_items ∧
      (tagged.map Prod.fst).Pairwise (· < ·) ∧
      ∀ c ∈ tagged, xs[c.1]? = some c.2 := by
  have key : ∀ (ks : List (Nat × T)), ks.Sublist xs.enum →
      (ks.map Prod.fst).Pairwise (· < ·) ∧ ∀ c ∈ ks, xs[c.1]? = some c.2 := by
    intro ks hsub
    refine ⟨?_, fun c hc => List.mem_enum_iff_getElem?.1 (hsub.subset hc)⟩
    have h1 := hsub.map Prod.fst
    rw [List.enum_map_fst] at h1
    exact List.Pairwise.sublist h1 (List.pairwise_lt_range _)
  cases fin with
  | false =>
    refine ⟨inv_sublist p _ xs (run_inv size p xs),
      (GenericKeepFifo.run size (fun c : Nat × T => p c.2) xs.enum).kept_items, ?_, ?_⟩
    · exact (run_enum_rel size p xs).kept_eq.symm
    · exact key _ (inv_sublist _ _ _ (run_inv size (fun c : Nat × T => p c.2) xs.enum))
  | true =>
    refine ⟨finalize_sublist p _ xs (run_inv size p xs),
      (GenericKeepFifo.run size (fun c : Nat × T => p c.2) xs.enum).finalize.kept_items,
      ?_, ?_⟩
    · exact (finalize_rel Prod.snd _ _ (run_enum_rel size p xs)).kept_eq.symm
    · exact key _ (finalize_sublist _ _ _ (run_inv size (fun c : Nat × T => p c.2) xs.enum))

end Window

/-! ## Properties of the plain conversion over a run -/

set_option maxRecDepth 100000 in
/-- C11: two samples, a sparse genotype record with `af = 0.75` (the major
allele is the alternate one) whose list holds the code `18` of sample 0 alone,
mode BG. Sample 1 is not in the list, and both of its slots are written `0`,
not the major value `1`: the buffer is cleared with `set(false)` whatever the
allele frequency. -/
theorem sparse_genotype_fill_ignores_major :
    F32.lt af075 F32.half = false ∧
    (sparse_genotype.set 18).idx = 0 ∧
    (convertRecord .BG F32.half 2 (Buffers.fresh 2)
        ⟨.sparseGenotype, af075, [], [18]⟩).map (fun r => r.1.payload)
      = .ok (Payload.dense [false, false, false, false]) := by
  decide

set_option maxRecDepth 100000 in
/-- C12: two samples, mode BG, the sparse genotype record `[18]`. Converted as
the first record of a run it is written as `(0,0),(0,0)`; converted after the
sparse genotype record `[18, 50]` it is written as `(0,0),(0,1)`: the code `50`
left at position 1 of `sparse_int_buf` by the earlier record is decoded again. -/
theorem sparse_genotype_payload_depends_on_tail :
    (convertPlain .BG F32.half twoSamples [⟨.sparseGenotype, af025, [], [18]⟩]).records
      = [⟨.binaryGenotype, .dense [false, false, false, false]⟩] ∧
    (convertPlain .BG F32.half twoSamples
        [⟨.sparseGenotype, F32.half, [], [18, 50]⟩, ⟨.sparseGenotype, af025, [], [18]⟩]).records
      = [⟨.binaryGenotype, .dense [false, false, false, true]⟩,
         ⟨.binaryGenotype, .dense [false, false, false, true]⟩] := by
  decide

/-! ## Properties of the subsetting overload: concrete runs -/

set_option maxRecDepth 100000 in
/-- C15: two samples, haplotype mode BH, exclusion of `s0`, a binary haplotype
record with the bits `(0,0),(1,1)`. The retained sample `s1` has two true bits,
but the recomputed `ac` is `0`: in exclude mode `subs2full` holds the slot
indices `[2, 3]`, the bitmask loop doubles them again, and no sample passes the
test `subsample_bit.get(2 * i)`. In include mode the same selection gives
`ac = 2`. -/
theorem exclude_haplotype_allele_count_lost :
    selectSamples .BH twoSamples true false ["s0"]
      = .ok ⟨["s1"], ["f1"], ["m1"], ["p1"], [2, 3], [-1, -1, 0, 1]⟩ ∧
    subsampleBits .BH 2 [2, 3] = [false, false, false, false] ∧
    (subsample (subsampleBits .BH 2 [2, 3]) [-1, -1, 0, 1] 1 false .binaryHaplotype 2
        { SubsetBuffers.fresh 2 1 with
          full := { binary_bit_buf := [false, false, true, true],
                    sparse_int_buf := [0, 0, 0, 0] } }).ac = 0 ∧
    selectSamples .BH twoSamples false false ["s1"]
      = .ok ⟨["s1"], ["f1"], ["m1"], ["p1"], [1], [-1, -1, 0, 1]⟩ ∧
    (subsample (subsampleBits .BH 2 [1]) [-1, -1, 0, 1] 1 false .binaryHaplotype 2
        { SubsetBuffers.fresh 2 1 with
          full := { binary_bit_buf := [false, false, true, true],
                    sparse_int_buf := [0, 0, 0, 0] } }).ac = 2 := by
  decide

set_option maxRecDepth 100000 in
/-- C13 (as stated, refuted): two samples, haplotype mode BH, inclusion of
`s1`. The subset has one entry, `subs2full[0] = 1`, and
`full2subs[subs2full[0]] = full2subs[1] = -1`, not `0`. -/
theorem include_haplotype_maps_not_inverse :
    ∃ maps, selectSamples .BH twoSamples false false ["s1"] = .ok maps ∧
      maps.subs2full = [1] ∧ maps.full2subs[1]? = some (-1) ∧
      ¬ (∀ (k : Nat) (v : Int), maps.subs2full[k]? = some v →
          maps.full2subs[v.toNat]? = some (k : Int)) := by
  refine ⟨⟨["s1"], ["f1"], ["m1"], ["p1"], [1], [-1, -1, 0, 1]⟩, by decide, rfl, by decide, ?_⟩
  intro h
  have := h 0 1 rfl
  revert this
  decide

set_option maxRecDepth 100000 in
/-- C17 (as stated, refuted): in a cohort whose first and last sample are both
named `a`, the inclusion of `a` retains the last sample only, not the two
header samples of that name. -/
theorem include_repeated_name_keeps_last :
    ∃ maps, selectSamples .BG repeatedName false false ["a"] = .ok maps ∧
      maps.subs2full = [2] ∧ maps.sample_fathers = ["f2"] ∧
      maps.sample_names ≠ repeatedName.ind_names.filter (fun s => decide (s ∈ ["a"])) := by
  refine ⟨⟨["a"], ["f2"], ["m2"], ["p2"], [2], [-1, -1, 0, -1, -1, -1]⟩, by decide, rfl, rfl, ?_⟩
  decide

set_option maxRecDepth 100000 in
/-- C20 (as stated, refuted): for a cohort without samples the retained
sample set equals the full cohort, but the subsetting overload ends with the
error of the empty subset and writes nothing, while the plain conversion writes
its header. -/
theorem empty_cohort_no_fallback :
    ∃ maps, selectSamples .BG noSamples true true ["zz"] = .ok maps ∧
      maps.sample_names = noSamples.ind_names ∧
      convertSubset .BG F32.half noSamples [] true true ["zz"]
        ≠ convertPlain .BG F32.half noSamples [] := by
  refine ⟨⟨[], [], [], [], [], []⟩, by decide, rfl, ?_⟩
  decide

/-! ## Properties of the subsetting overload: sample selection -/

theorem excludeBody_skip (mode : ConvMode) (hdr : SampleVectors) (m : StrMap) (acc : SubsetMaps)
    (i : Nat) :
    excludeBody mode hdr m acc i =
      if (m (hdr.ind_names.getD i "")).getD 0 < 0 then acc
      else excludeBody mode hdr (fun _ => some 0) acc i := by
  unfold excludeBody
  by_cases h : (m (hdr.ind_names.getD i "")).getD 0 < 0
  · simp [h]
  · simp [h]

theorem retain_genotype (mode : ConvMode) (hdr : SampleVectors) (acc : SubsetMaps) (i : Nat)
    (hmode : mode = .BG ∨ mode = .SG) :
    excludeBody mode hdr (fun _ => some 0) acc i =
      { pushSample hdr acc i with
        subs2full := acc.subs2full ++ [(i : Int)]
        full2subs := acc.full2subs.set i (acc.subs2full.length : Int) } := by
  unfold excludeBody
  simp [hmode, pushSample]

theorem retain_haplotype (mode : ConvMode) (hdr : SampleVectors) (acc : SubsetMaps) (i : Nat)
    (hmode : ¬ (mode = .BG ∨ mode = .SG)) :
    excludeBody mode hdr (fun _ => some 0) acc i =
      { pushSample hdr acc i with
        subs2full := acc.subs2full ++ [(i : Int) * 2 + 0, (i : Int) * 2 + 1]
        full2subs := (acc.full2subs.set (i * 2 + 0) (acc.subs2full.length : Int)).set
          (i * 2 + 1) ((acc.subs2full.length : Int) + 1) } := by
  unfold excludeBody
  simp [hmode, pushSample]

theorem include_genotype (mode : ConvMode) (hdr : SampleVectors) (acc : SubsetMaps) (i : Nat)
    (hmode : mode = .BG ∨ mode = .SG) :
    includeBody mode hdr acc (i : Int) = excludeBody mode hdr (fun _ => some 0) acc i := by
  rw [retain_genotype mode hdr acc i hmode]
  unfold includeBody
  simp [hmode, pushSample]

theorem include_haplotype (mode : ConvMode) (hdr : SampleVectors) (acc : SubsetMaps) (i : Nat)
    (hmode : ¬ (mode = .BG ∨ mode = .SG)) :
    includeBody mode hdr acc (i : Int) =
      { pushSample hdr acc i with
        subs2full := acc.subs2full ++ [(i : Int)]
        full2subs := (acc.full2subs.set (2 * i) (2 * (acc.subs2full.length : Int))).set
          (2 * i + 1) (2 * (acc.subs2full.length : Int) + 1) } := by
  unfold includeBody
  have h0 : ((i : Int) * 2).toNat = 2 * i := by omega
  have h1 : ((i : Int) * 2 + 1).toNat = 2 * i + 1 := by omega
  simp [hmode, pushSample, h0, h1]

theorem foldl_retain_genotype (mode : ConvMode) (hdr : SampleVectors) (n : Nat)
    (hmode : mode = .BG ∨ mode = .SG) :
    ∀ sel : List Nat, sel.Pairwise (· < ·) → (∀ i ∈ sel, i < n) →
      ∀ r, r = sel.foldl (excludeBody mode hdr (fun _ => some 0)) (SubsetMaps.init n) →
        RetainedSamples hdr sel r ∧ r.subs2full = sel.map Int.ofNat ∧
          SampleMap n sel r.full2subs := by
  intro sel
  induction sel using List.reverseRecOn with
  | nil =>
    intro _ _ r hr
    subst hr
    refine ⟨⟨rfl, rfl, rfl, rfl⟩, rfl, ⟨by simp [SubsetMaps.init], ?_, ?_⟩⟩
    · intro k i h
      simp at h
    · intro j hj _
      simp [SubsetMaps.init, List.getElem?_replicate, hj]
  | append_singleton l v ih =>
    intro hp hb r hr
    rw [List.pairwise_append] at hp
    obtain ⟨hpl, _, hlt⟩ := hp
    have hv : v < n := hb v (by simp)
    obtain ⟨hs, hsub, hm⟩ := ih hpl (fun i hi => hb i (List.mem_append_left _ hi)) _ rfl
    rw [List.foldl_append] at hr
    simp only [List.foldl_cons, List.foldl_nil] at hr
    rw [retain_genotype _ _ _ _ hmode] at hr
    subst hr
    refine ⟨⟨?_, ?_, ?_, ?_⟩, ?_, ⟨?_, ?_, ?_⟩⟩
    · simp [pushSample, hs.names]
    · simp [pushSample, hs.fathers]
    · simp [pushSample, hs.mothers]
    · simp [pushSample, hs.pops]
    · simp [hsub]
    · simp [pushSample, hm.len]
    · intro k i hk
      simp only [pushSample]
      rw [hsub, List.length_map]
      by_cases hkl : k < l.length
      · rw [List.getElem?_append_left hkl] at hk
        have hil : i ∈ l := List.mem_iff_getElem?.2 ⟨k, hk⟩
        have hne : v ≠ i := by
          have := hlt i hil v (by simp)
          omega
        rw [List.getElem?_set_ne hne]
        exact hm.fwd k i hk
      · rw [List.getElem?_append_right (by omega)] at hk
        have hk0 : k - l.length = 0 := by
          by_contra hc
          have : ([v] : List Nat)[k - l.length]? = none := by
            apply List.getElem?_eq_none
            simp
            omega
          rw [this] at hk
          cases hk
        rw [hk0] at hk
        simp at hk
        subst hk
        rw [List.getElem?_set, if_pos rfl, if_pos (by rw [hm.len]; omega)]
        congr 1
        omega
    · intro j hj hjn
      simp only [pushSample]
      have hne : v ≠ j := by
        intro h
        apply hjn
        simp [h]
      rw [List.getElem?_set_ne hne]
      exact hm.bwd j hj (fun h => hjn (List.mem_append_left _ h))

theorem getElem?_snoc {α : Type} (l : List α) (v i : α) (k : Nat)
    (h : (l ++ [v])[k]? = some i) : (k < l.length ∧ l[k]? = some i) ∨ (k = l.length ∧ i = v) := by
  by_cases hkl : k < l.length
  · rw [List.getElem?_append_left hkl] at h
    exact Or.inl ⟨hkl, h⟩
  · right
    rw [List.getElem?_append_right (by omega)] at h
    have hk0 : k - l.length = 0 := by
      by_contra hc
      have : ([v] : List α)[k - l.length]? = none := by
        apply List.getElem?_eq_none
        simp
        omega
      rw [this] at h
      cases h
    rw [hk0] at h
    simp at h
    exact ⟨by omega, h.symm⟩

theorem slotMap_snoc (n : Nat) (l : List Nat) (v : Nat) (f : List Int) (h : SlotMap n l f)
    (hlt : ∀ a ∈ l, a < v) (hv : v < n) :
    SlotMap n (l ++ [v])
      ((f.set (2 * v) (2 * (l.length : Int))).set (2 * v + 1) (2 * (l.length : Int) + 1)) := by
  refine ⟨by simp [h.len], ?_, ?_⟩
  · intro k i hk
    rcases getElem?_snoc l v i k hk with ⟨_, hk'⟩ | ⟨hk', hi⟩
    · have hil : i ∈ l := List.mem_iff_getElem?.2 ⟨k, hk'⟩
      have := hlt i hil
      rw [List.getElem?_set_ne (by omega), List.getElem?_set_ne (by omega),
        List.getElem?_set_ne (by omega), List.getElem?_set_ne (by omega)]
      exact h.fwd k i hk'
    · subst hi
      subst hk'
      constructor
      · rw [List.getElem?_set_ne (by omega), List.getElem?_set, if_pos rfl,
          if_pos (by rw [h.len]; omega)]
      · rw [List.getElem?_set, if_pos rfl, if_pos (by rw [List.length_set, h.len]; omega)]
  · intro j hj hjn
    have hne : j / 2 ≠ v := by
      intro hc
      apply hjn
      simp [hc]
    rw [List.getElem?_set_ne (by omega), List.getElem?_set_ne (by omega)]
    exact h.bwd j hj (fun hc => hjn (List.mem_append_left _ hc))

theorem slotMap_init (n : Nat) : SlotMap n [] (SubsetMaps.init n).full2subs := by
  refine ⟨by simp [SubsetMaps.init], ?_, ?_⟩
  · intro k i h
    simp at h
  · intro j hj _
    simp [SubsetMaps.init, List.getElem?_replicate, hj]

theorem foldl_retain_haplotype (mode : ConvMode) (hdr : SampleVectors) (n : Nat)
    (hmode : ¬ (mode = .BG ∨ mode = .SG)) :
    ∀ sel : List Nat, sel.Pairwise (· < ·) → (∀ i ∈ sel, i < n) →
      ∀ r, r = sel.foldl (excludeBody mode hdr (fun _ => some 0)) (SubsetMaps.init n) →
        RetainedSamples hdr sel r ∧ r.subs2full.length = 2 * sel.length ∧
          (∀ (k i : Nat), sel[k]? = some i →
            r.subs2full[2 * k]? = some (2 * (i : Int)) ∧
            r.subs2full[2 * k + 1]? = some (2 * (i : Int) + 1)) ∧
          SlotMap n sel r.full2subs := by
  intro sel
  induction sel using List.reverseRecOn with
  | nil =>
    intro _ _ r hr
    subst hr
    refine ⟨⟨rfl, rfl, rfl, rfl⟩, rfl, ?_, slotMap_init n⟩
    intro k i h
    simp at h
  | append_singleton l v ih =>
    intro hp hb r hr
    rw [List.pairwise_append] at hp
    obtain ⟨hpl, _, hlt⟩ := hp
    have hv : v < n := hb v (by simp)
    have hltv : ∀ a ∈ l, a < v := fun a ha => hlt a ha v (by simp)
    obtain ⟨hs, hlen, hsub, hm⟩ := ih hpl (fun i hi => hb i (List.mem_append_left _ hi)) _ rfl
    rw [List.foldl_append] at hr
    simp only [List.foldl_cons, List.foldl_nil] at hr
    rw [retain_haplotype _ _ _ _ hmode] at hr
    subst hr
    refine ⟨⟨?_, ?_, ?_, ?_⟩, ?_, ?_, ?_⟩
    · simp [pushSample, hs.names]
    · simp [pushSample, hs.fathers]
    · simp [pushSample, hs.mothers]
    · simp [pushSample, hs.pops]
    · simp [hlen]
      omega
    · intro k i hk
      simp only
      rcases getElem?_snoc l v i k hk with ⟨hkl, hk'⟩ | ⟨hk', hi⟩
      · rw [List.getElem?_append_left (by omega), List.getElem?_append_left (by omega)]
        exact hsub k i hk'
      · subst hi
        subst hk'
        rw [List.getElem?_append_right (by omega), List.getElem?_append_right (by omega), hlen]
        have e0 : 2 * l.length - 2 * l.length = 0 := by omega
        have e1 : 2 * l.length + 1 - 2 * l.length = 1 := by omega
        rw [e0, e1]
        constructor
        · simp
          omega
        · simp
          omega
    · simp only [pushSample]
      have := slotMap_snoc n l v _ hm hltv hv
      rw [hlen]
      have e0 : v * 2 + 0 = 2 * v := by omega
      have e1 : v * 2 + 1 = 2 * v + 1 := by omega
      have e2 : ((2 * l.length : Nat) : Int) = 2 * (l.length : Int) := by omega
      rw [e0, e1, e2]
      exact this

theorem foldl_include_haplotype (mode : ConvMode) (hdr : SampleVectors) (n : Nat)
    (hmode : ¬ (mode = .BG ∨ mode = .SG)) :
    ∀ sel : List Nat, sel.Pairwise (· < ·) → (∀ i ∈ sel, i < n) →
      ∀ r, r = sel.foldl (fun (acc : SubsetMaps) (i : Nat) => includeBody mode hdr acc (i : Int))
          (SubsetMaps.init n) →
        RetainedSamples hdr sel r ∧ r.subs2full = sel.map Int.ofNat ∧
          SlotMap n sel r.full2subs := by
  intro sel
  induction sel using List.reverseRecOn with
  | nil =>
    intro _ _ r hr
    subst hr
    exact ⟨⟨rfl, rfl, rfl, rfl⟩, rfl, slotMap_init n⟩
  | append_singleton l v ih =>
    intro hp hb r hr
    rw [List.pairwise_append] at hp
    obtain ⟨hpl, _, hlt⟩ := hp
    have hv : v < n := hb v (by simp)
    have hltv : ∀ a ∈ l, a < v := fun a ha => hlt a ha v (by simp)
    obtain ⟨hs, hsub, hm⟩ := ih hpl (fun i hi => hb i (List.mem_append_left _ hi)) _ rfl
    rw [List.foldl_append] at hr
    simp only [List.foldl_cons, List.foldl_nil] at hr
    rw [include_haplotype _ _ _ _ hmode] at hr
    subst hr
    refine ⟨⟨?_, ?_, ?_, ?_⟩, ?_, ?_⟩
    · simp [pushSample, hs.names]
    · simp [pushSample, hs.fathers]
    · simp [pushSample, hs.mothers]
    · simp [pushSample, hs.pops]
    · simp [hsub]
    · simp only [pushSample]
      have := slotMap_snoc n l v _ hm hltv hv
      rw [hsub, List.length_map]
      exact this

theorem mapNames_aux (names : List String) :
    ∀ n, n ≤ names.length → ∀ s,
      ((List.range n).foldl (fun m i => mapAssign m (names.getD i "") (i : Int))
          (fun _ => none) s = none ↔ ∀ i, i < n → names.getD i "" ≠ s) ∧
      (∀ v, (List.range n).foldl (fun m i => mapAssign m (names.getD i "") (i : Int))
          (fun _ => none) s = some v → ∃ i, i < n ∧ v = (i : Int) ∧ names.getD i "" = s) ∧
      (∀ i, i < n → names.getD i "" = s → (∀ j, j < n → names.getD j "" = s → j ≤ i) →
        (List.range n).foldl (fun m i => mapAssign m (names.getD i "") (i : Int))
          (fun _ => none) s = some (i : Int)) := by
  intro n
  induction n with
  | zero =>
    intro _ s
    refine ⟨by simp, ?_, ?_⟩
    · intro v h
      simp at h
    · intro i hi
      omega
  | succ n ih =>
    intro hn s
    obtain ⟨h1, h2, h3⟩ := ih (by omega) s
    rw [List.range_succ, List.foldl_append]
    simp only [List.foldl_cons, List.foldl_nil, mapAssign]
    by_cases hs : s = names.getD n ""
    · rw [if_pos hs]
      refine ⟨?_, ?_, ?_⟩
      · constructor
        · intro h
          cases h
        · intro h
          exact absurd hs.symm (h n (by omega))
      · intro v hv
        exact ⟨n, by omega, by cases hv; rfl, hs.symm⟩
      · intro i hi his hmax
        have : n ≤ i := hmax n (by omega) hs.symm
        have : i = n := by omega
        rw [this]
    · rw [if_neg hs]
      refine ⟨?_, ?_, ?_⟩
      · rw [h1]
        constructor
        · intro h i hi
          by_cases hin : i = n
          · subst hin
            exact fun hc => hs hc.symm
          · exact h i (by omega)
        · intro h i hi
          exact h i (by omega)
      · intro v hv
        obtain ⟨i, hi, hvi, hsi⟩ := h2 v hv
        exact ⟨i, by omega, hvi, hsi⟩
      · intro i hi his hmax
        have hin : i ≠ n := by
          intro hc
          subst hc
          exact hs his.symm
        exact h3 i (by omega) his (fun j hj hjs => hmax j (by omega) hjs)

theorem getD_eq_iff_getElem? (names : List String) (i : Nat) (hi : i < names.length) (s : String) :
    names.getD i "" = s ↔ names[i]? = some s := by
  simp [List.getElem?_eq_getElem hi]

theorem mapNames_eq_none (names : List String) (s : String) :
    mapNames names s = none ↔ s ∉ names := by
  unfold mapNames
  rw [(mapNames_aux names names.length (Nat.le_refl _) s).1]
  constructor
  · intro h hmem
    obtain ⟨i, hi⟩ := List.mem_iff_getElem?.1 hmem
    have hlt : i < names.length := by
      by_contra hc
      rw [List.getElem?_eq_none (by omega)] at hi
      cases hi
    exact h i hlt ((getD_eq_iff_getElem? names i hlt s).2 hi)
  · intro h i hi hc
    exact h (List.mem_iff_getElem?.2 ⟨i, (getD_eq_iff_getElem? names i hi s).1 hc⟩)

theorem mapNames_eq_some (names : List String) (s : String) (v : Int)
    (h : mapNames names s = some v) :
    ∃ i, i < names.length ∧ v = (i : Int) ∧ names.getD i "" = s :=
  (mapNames_aux names names.length (Nat.le_refl _) s).2.1 v h

theorem mapNames_nodup (names : List String) (hnd : names.Nodup) (i : Nat)
    (hi : i < names.length) : mapNames names (names.getD i "") = some (i : Int) := by
  apply (mapNames_aux names names.length (Nat.le_refl _) (names.getD i "")).2.2 i hi rfl
  intro j hj hjs
  have h1 : names[j]? = some (names.getD i "") := (getD_eq_iff_getElem? names j hj _).1 hjs
  have h2 : names[i]? = some (names.getD i "") := (getD_eq_iff_getElem? names i hi _).1 rfl
  have h3 : names[j] = names[i] := by
    rw [List.getElem?_eq_getElem hj] at h1
    rw [List.getElem?_eq_getElem hi] at h2
    exact Option.some.inj (h1.trans h2.symm)
  have := (List.Nodup.getElem_inj_iff hnd).1 h3
  omega

theorem excludeMark_ok (isforce : Bool) :
    ∀ (smpls : List String) (m : StrMap), (isforce = true ∨ ∀ s ∈ smpls, m s ≠ none) →
      excludeMark isforce m smpls = .ok (fun s => if s ∈ smpls then some (-1) else m s) := by
  intro smpls
  induction smpls with
  | nil => intro m _; simp [excludeMark]
  | cons a rest ih =>
    intro m h
    unfold excludeMark
    have hcond : ¬ (m a = none ∧ isforce = false) := by
      rintro ⟨h1, h2⟩
      rcases h with h | h
      · rw [h] at h2
        cases h2
      · exact h a (List.mem_cons_self _ _) h1
    rw [if_neg hcond, ih]
    · congr 1
      funext t
      by_cases ht : t ∈ rest
      · simp [ht]
      · by_cases hta : t = a
        · simp [hta, mapAssign]
        · simp [ht, hta, mapAssign]
    · rcases h with h | h
      · exact Or.inl h
      · right
        intro t ht
        unfold mapAssign
        by_cases hta : t = a
        · simp [hta]
        · simp only [hta, if_false]
          exact h t (List.mem_cons_of_mem _ ht)

theorem excludeMark_error :
    ∀ (smpls : List String) (m : StrMap), (∃ s ∈ smpls, m s = none) →
      ∃ e, excludeMark false m smpls = .error e := by
  intro smpls
  induction smpls with
  | nil => intro m h; obtain ⟨s, hs, _⟩ := h; simp at hs
  | cons a rest ih =>
    intro m h
    unfold excludeMark
    by_cases ha : m a = none
    · refine ⟨"Exclude called for sample that does not exist in header", ?_⟩
      simp [ha]
    · simp only [ha, false_and, if_false]
      apply ih
      obtain ⟨s, hs, hms⟩ := h
      have hsa : s ≠ a := by
        intro hc
        subst hc
        exact ha hms
      rcases List.mem_cons.1 hs with hc | hc
      · exact absurd hc hsa
      · exact ⟨s, hc, by simp [mapAssign, hsa, hms]⟩

theorem setInsert_mem (v : Int) : ∀ (l : List Int) (x : Int),
    x ∈ setInsert l v ↔ x = v ∨ x ∈ l := by
  intro l
  induction l with
  | nil => intro x; simp [setInsert]
  | cons a l ih =>
    intro x
    unfold setInsert
    by_cases h1 : v < a
    · simp [h1]
    · by_cases h2 : v = a
      · simp [h1, h2]
      · simp only [h1, h2, if_false, List.mem_cons, ih]
        tauto

theorem setInsert_sorted (v : Int) : ∀ (l : List Int), l.Pairwise (· < ·) →
    (setInsert l v).Pairwise (· < ·) := by
  intro l
  induction l with
  | nil => intro _; simp [setInsert]
  | cons a l ih =>
    intro h
    unfold setInsert
    rw [List.pairwise_cons] at h
    by_cases h1 : v < a
    · simp only [h1, if_true]
      rw [List.pairwise_cons]
      refine ⟨?_, List.pairwise_cons.2 h⟩
      intro x hx
      rcases List.mem_cons.1 hx with hc | hc
      · rw [hc]; exact h1
      · have := h.1 x hc
        omega
    · by_cases h2 : v = a
      · subst h2
        simp only [h1, if_false, if_true]
        exact List.pairwise_cons.2 h
      · simp only [h1, h2, if_false]
        rw [List.pairwise_cons]
        refine ⟨?_, ih h.2⟩
        intro x hx
        rcases (setInsert_mem v l x).1 hx with hc | hc
        · rw [hc]; omega
        · exact h.1 x hc

theorem includeCollect_ok (isforce : Bool) (m : StrMap) :
    ∀ (smpls : List String) (set0 : List Int), set0.Pairwise (· < ·) →
      (isforce = true ∨ ∀ s ∈ smpls, m s ≠ none) →
      ∃ set, includeCollect isforce m set0 smpls = .ok set ∧ set.Pairwise (· < ·) ∧
        ∀ x, x ∈ set ↔ x ∈ set0 ∨ ∃ s ∈ smpls, m s = some x := by
  intro smpls
  induction smpls with
  | nil =>
    intro set0 h0 _
    exact ⟨set0, rfl, h0, by simp⟩
  | cons a rest ih =>
    intro set0 h0 h
    have hrest : isforce = true ∨ ∀ s ∈ rest, m s ≠ none := by
      rcases h with h | h
      · exact Or.inl h
      · exact Or.inr (fun s hs => h s (List.mem_cons_of_mem _ hs))
    unfold includeCollect
    cases hma : m a with
    | none =>
      have hf : isforce = true := by
        rcases h with h | h
        · exact h
        · exact absurd hma (h a (List.mem_cons_self _ _))
      simp only [hf, if_true]
      obtain ⟨set, h1, h2, h3⟩ := ih set0 h0 hrest
      rw [hf] at h1
      refine ⟨set, h1, h2, ?_⟩
      intro x
      rw [h3]
      constructor
      · rintro (hx | ⟨s, hs, hms⟩)
        · exact Or.inl hx
        · exact Or.inr ⟨s, List.mem_cons_of_mem _ hs, hms⟩
      · rintro (hx | ⟨s, hs, hms⟩)
        · exact Or.inl hx
        · rcases List.mem_cons.1 hs with hc | hc
          · subst hc
            rw [hma] at hms
            cases hms
          · exact Or.inr ⟨s, hc, hms⟩
    | some val =>
      simp only
      obtain ⟨set, h1, h2, h3⟩ := ih (setInsert set0 val) (setInsert_sorted val set0 h0) hrest
      refine ⟨set, h1, h2, ?_⟩
      intro x
      rw [h3, setInsert_mem]
      constructor
      · rintro ((hx | hx) | ⟨s, hs, hms⟩)
        · exact Or.inr ⟨a, List.mem_cons_self _ _, by rw [hma, hx]⟩
        · exact Or.inl hx
        · exact Or.inr ⟨s, List.mem_cons_of_mem _ hs, hms⟩
      · rintro (hx | ⟨s, hs, hms⟩)
        · exact Or.inl (Or.inr hx)
        · rcases List.mem_cons.1 hs with hc | hc
          · subst hc
            rw [hma] at hms
            cases hms
            exact Or.inl (Or.inl rfl)
          · exact Or.inr ⟨s, hc, hms⟩

theorem includeCollect_error (m : StrMap) :
    ∀ (smpls : List String) (set0 : List Int), (∃ s ∈ smpls, m s = none) →
      ∃ e, includeCollect false m set0 smpls = .error e := by
  intro smpls
  induction smpls with
  | nil => intro _ h; obtain ⟨s, hs, _⟩ := h; simp at hs
  | cons a rest ih =>
    intro set0 h
    unfold includeCollect
    cases hma : m a with
    | none =>
      refine ⟨"Exclude called for sample that does not exist in header", ?_⟩
      simp
    | some val =>
      simp only
      apply ih
      obtain ⟨s, hs, hms⟩ := h
      rcases List.mem_cons.1 hs with hc | hc
      · subst hc
        rw [hma] at hms
        cases hms
      · exact ⟨s, hc, hms⟩

theorem sorted_ext (l1 l2 : List Int) (h1 : l1.Pairwise (· < ·)) (h2 : l2.Pairwise (· < ·))
    (h : ∀ x, x ∈ l1 ↔ x ∈ l2) : l1 = l2 := by
  have n1 : l1.Nodup := List.Pairwise.imp (fun hab => Int.ne_of_lt hab) h1
  have n2 : l2.Nodup := List.Pairwise.imp (fun hab => Int.ne_of_lt hab) h2
  have hp : l1.Perm l2 := (List.perm_ext_iff_of_nodup n1 n2).2 h
  exact List.eq_of_perm_of_sorted hp h1 h2

theorem foldl_excludeBody_filter (mode : ConvMode) (hdr : SampleVectors) (smpls : List String)
    (m : StrMap)
    (hm : ∀ i, i < hdr.ind_names.length →
      ((m (hdr.ind_names.getD i "")).getD 0 < 0 ↔ hdr.ind_names.getD i "" ∈ smpls)) :
    ∀ (l : List Nat) (acc : SubsetMaps), (∀ i ∈ l, i < hdr.ind_names.length) →
      l.foldl (excludeBody mode hdr m) acc =
        (l.filter (fun i => decide (hdr.ind_names.getD i "" ∉ smpls))).foldl
          (excludeBody mode hdr (fun _ => some 0)) acc := by
  intro l
  induction l with
  | nil => intro acc _; rfl
  | cons a l ih =>
    intro acc hb
    have ha := hm a (hb a (List.mem_cons_self _ _))
    have hl : ∀ i ∈ l, i < hdr.ind_names.length := fun i hi => hb i (List.mem_cons_of_mem _ hi)
    rw [List.foldl_cons, excludeBody_skip]
    by_cases hc : hdr.ind_names.getD a "" ∈ smpls
    · rw [if_pos (ha.2 hc), List.filter_cons_of_neg (by simpa using hc)]
      exact ih acc hl
    · rw [if_neg (fun h => hc (ha.1 h)), List.filter_cons_of_pos (by simpa using hc),
        List.foldl_cons]
      exact ih _ hl

theorem known_iff (names smpls : List String) :
    (∀ s ∈ smpls, mapNames names s ≠ none) ↔ ∀ s ∈ smpls, s ∈ names := by
  constructor
  · intro h s hs
    by_contra hc
    exact h s hs ((mapNames_eq_none names s).2 hc)
  · intro h s hs hc
    exact (mapNames_eq_none names s).1 hc (h s hs)

/-- Exclude mode, when no error is raised: the loop retains, in order, the
sample indices whose name is not in the list. -/
theorem selectSamples_exclude_eq (mode : ConvMode) (hdr : SampleVectors) (isforce : Bool)
    (smpls : List String) (h : isforce = true ∨ ∀ s ∈ smpls, s ∈ hdr.ind_names) :
    selectSamples mode hdr true isforce smpls =
      .ok (((List.range hdr.ind_names.length).filter
          (fun i => decide (hdr.ind_names.getD i "" ∉ smpls))).foldl
        (excludeBody mode hdr (fun _ => some 0)) (SubsetMaps.init hdr.ind_names.length)) := by
  unfold selectSamples
  simp only [if_true]
  rw [excludeMark_ok isforce smpls _ (h.imp id (known_iff _ _).2)]
  simp only
  congr 1
  apply foldl_excludeBody_filter
  · intro i hi
    by_cases hc : hdr.ind_names.getD i "" ∈ smpls
    · simp only [hc, if_true, iff_true]
      decide
    · simp only [hc, if_false, iff_false]
      cases hmv : mapNames hdr.ind_names (hdr.ind_names.getD i "") with
      | none =>
        exfalso
        apply (mapNames_eq_none _ _).1 hmv
        rw [List.getD_eq_getElem?_getD, List.getElem?_eq_getElem hi]
        exact List.getElem_mem _
      | some v =>
        obtain ⟨j, _, hv, _⟩ := mapNames_eq_some _ _ _ hmv
        simp [hv]
  · intro i hi
    exact List.mem_range.1 hi

theorem selectSamples_error (mode : ConvMode) (hdr : SampleVectors) (exclude : Bool)
    (smpls : List String) (h : ∃ s ∈ smpls, s ∉ hdr.ind_names) :
    ∃ e, selectSamples mode hdr exclude false smpls = .error e := by
  have h' : ∃ s ∈ smpls, mapNames hdr.ind_names s = none := by
    obtain ⟨s, hs, hn⟩ := h
    exact ⟨s, hs, (mapNames_eq_none _ _).2 hn⟩
  unfold selectSamples
  cases exclude with
  | true =>
    obtain ⟨e, he⟩ := excludeMark_error smpls _ h'
    exact ⟨e, by simp [he]⟩
  | false =>
    obtain ⟨e, he⟩ := includeCollect_error _ smpls [] h'
    exact ⟨e, by simp [he]⟩

/-- Include mode, when no error is raised: the loop runs over the ascending
list of the indices stored in the name map under the listed names. -/
theorem selectSamples_include_eq (mode : ConvMode) (hdr : SampleVectors) (isforce : Bool)
    (smpls : List String) (h : isforce = true ∨ ∀ s ∈ smpls, s ∈ hdr.ind_names) :
    ∃ sel : List Nat, sel.Pairwise (· < ·) ∧
      (∀ i, i ∈ sel ↔ ∃ s ∈ smpls, mapNames hdr.ind_names s = some (i : Int)) ∧
      (∀ i ∈ sel, i < hdr.ind_names.length) ∧
      selectSamples mode hdr false isforce smpls =
        .ok (sel.foldl (fun (acc : SubsetMaps) (i : Nat) => includeBody mode hdr acc (i : Int))
          (SubsetMaps.init hdr.ind_names.length)) := by
  obtain ⟨set, hset, hsorted, hmem⟩ := includeCollect_ok isforce (mapNames hdr.ind_names) smpls []
    List.Pairwise.nil (h.imp id (known_iff _ _).2)
  have hnat : ∀ x ∈ set, ∃ i : Nat, i < hdr.ind_names.length ∧ x = (i : Int) := by
    intro x hx
    rcases (hmem x).1 hx with hc | ⟨s, _, hms⟩
    · simp at hc
    · obtain ⟨i, hi, hv, _⟩ := mapNames_eq_some _ _ _ hms
      exact ⟨i, hi, hv⟩
  have hset_eq : set = (set.map Int.toNat).map (fun (i : Nat) => (i : Int)) := by
    rw [List.map_map]
    conv_lhs => rw [← List.map_id set]
    apply List.map_congr_left
    intro x hx
    obtain ⟨i, _, hxi⟩ := hnat x hx
    simp [hxi]
  refine ⟨set.map Int.toNat, ?_, ?_, ?_, ?_⟩
  · rw [List.pairwise_map]
    refine List.Pairwise.imp_of_mem ?_ hsorted
    intro a b ha hb hab
    obtain ⟨i, _, hai⟩ := hnat a ha
    obtain ⟨j, _, hbj⟩ := hnat b hb
    subst hai
    subst hbj
    simp
    omega
  · intro i
    rw [List.mem_map]
    constructor
    · rintro ⟨x, hx, hxi⟩
      rcases (hmem x).1 hx with hc | ⟨s, hs, hms⟩
      · simp at hc
      · obtain ⟨j, _, hv, _⟩ := mapNames_eq_some _ _ _ hms
        refine ⟨s, hs, ?_⟩
        rw [hms]
        congr 1
        rw [hv] at hxi ⊢
        simp at hxi
        rw [hxi]
    · rintro ⟨s, hs, hms⟩
      exact ⟨(i : Int), (hmem _).2 (Or.inr ⟨s, hs, hms⟩), by simp⟩
  · intro i hi
    obtain ⟨x, hx, hxi⟩ := List.mem_map.1 hi
    obtain ⟨j, hj, hxj⟩ := hnat x hx
    rw [hxj] at hxi
    simp at hxi
    omega
  · unfold selectSamples
    simp only [Bool.false_eq_true, if_false, hset]
    congr 1
    conv_lhs => rw [hset_eq]
    rw [List.foldl_map]

theorem selectSamples_cond (mode : ConvMode) (hdr : SampleVectors) (exclude isforce : Bool)
    (smpls : List String) (maps : SubsetMaps)
    (h : selectSamples mode hdr exclude isforce smpls = .ok maps) :
    isforce = true ∨ ∀ s ∈ smpls, s ∈ hdr.ind_names := by
  cases isforce with
  | true => exact Or.inl rfl
  | false =>
    right
    intro s hs
    by_contra hc
    obtain ⟨e, he⟩ := selectSamples_error mode hdr exclude smpls ⟨s, hs, hc⟩
    rw [he] at h
    cases h

/-- Sample selection, when it raises no error, has the shape `Selection`. -/
theorem selectSamples_selection (mode : ConvMode) (hdr : SampleVectors) (exclude isforce : Bool)
    (smpls : List String) (maps : SubsetMaps)
    (h : selectSamples mode hdr exclude isforce smpls = .ok maps) :
    ∃ sel, Selection mode hdr exclude smpls sel maps := by
  have hcond := selectSamples_cond mode hdr exclude isforce smpls maps h
  cases exclude with
  | true =>
    rw [selectSamples_exclude_eq mode hdr isforce smpls hcond] at h
    have hmaps := (Except.ok.inj h).symm
    have hsorted : ((List.range hdr.ind_names.length).filter
        (fun i => decide (hdr.ind_names.getD i "" ∉ smpls))).Pairwise (· < ·) :=
      List.Pairwise.filter _ (List.pairwise_lt_range _)
    have hbound : ∀ i ∈ (List.range hdr.ind_names.length).filter
        (fun i => decide (hdr.ind_names.getD i "" ∉ smpls)), i < hdr.ind_names.length :=
      fun i hi => List.mem_range.1 (List.mem_filter.1 hi).1
    refine ⟨_, hsorted, ?_, ?_, ?_, ?_, ?_, ?_⟩
    · intro i
      rw [List.mem_filter, List.mem_range]
      simp [retainedIndex]
    · by_cases hmode : mode = .BG ∨ mode = .SG
      · exact (foldl_retain_genotype mode hdr _ hmode _ hsorted hbound maps hmaps).1
      · exact (foldl_retain_haplotype mode hdr _ hmode _ hsorted hbound maps hmaps).1
    · intro hmode
      exact (foldl_retain_genotype mode hdr _ hmode _ hsorted hbound maps hmaps).2
    · intro hmode
      exact (foldl_retain_haplotype mode hdr _ hmode _ hsorted hbound maps hmaps).2.2.2
    · intro hmode _
      obtain ⟨_, h1, h2, _⟩ := foldl_retain_haplotype mode hdr _ hmode _ hsorted hbound maps hmaps
      exact ⟨h1, h2⟩
    · intro _ hc
      cases hc
  | false =>
    obtain ⟨sel, hsorted, hmem, hbound, heq⟩ := selectSamples_include_eq mode hdr isforce smpls hcond
    rw [heq] at h
    have hmaps := (Except.ok.inj h).symm
    refine ⟨sel, hsorted, ?_, ?_, ?_, ?_, ?_, ?_⟩
    · intro i
      rw [hmem]
      simp only [retainedIndex, Bool.false_eq_true, if_false]
      constructor
      · intro hi
        refine ⟨?_, hi⟩
        obtain ⟨s, _, hms⟩ := hi
        obtain ⟨j, hj, hv, _⟩ := mapNames_eq_some _ _ _ hms
        omega
      · intro hi
        exact hi.2
    · by_cases hmode : mode = .BG ∨ mode = .SG
      · have hfun : (fun (acc : SubsetMaps) (i : Nat) => includeBody mode hdr acc (i : Int))
            = excludeBody mode hdr (fun _ => some 0) := by
          funext acc i
          exact include_genotype mode hdr acc i hmode
        rw [hfun] at hmaps
        exact (foldl_retain_genotype mode hdr _ hmode _ hsorted hbound maps hmaps).1
      · exact (foldl_include_haplotype mode hdr _ hmode _ hsorted hbound maps hmaps).1
    · intro hmode
      have hfun : (fun (acc : SubsetMaps) (i : Nat) => includeBody mode hdr acc (i : Int))
          = excludeBody mode hdr (fun _ => some 0) := by
        funext acc i
        exact include_genotype mode hdr acc i hmode
      rw [hfun] at hmaps
      exact (foldl_retain_genotype mode hdr _ hmode _ hsorted hbound maps hmaps).2
    · intro hmode
      exact (foldl_include_haplotype mode hdr _ hmode _ hsorted hbound maps hmaps).2.2
    · intro _ hc
      cases hc
    · intro hmode _
      exact (foldl_include_haplotype mode hdr _ hmode _ hsorted hbound maps hmaps).2.1

theorem sorted_ext_nat (l1 l2 : List Nat) (h1 : l1.Pairwise (· < ·)) (h2 : l2.Pairwise (· < ·))
    (h : ∀ x, x ∈ l1 ↔ x ∈ l2) : l1 = l2 := by
  have n1 : l1.Nodup := List.Pairwise.imp (fun hab => Nat.ne_of_lt hab) h1
  have n2 : l2.Nodup := List.Pairwise.imp (fun hab => Nat.ne_of_lt hab) h2
  have hp : l1.Perm l2 := (List.perm_ext_iff_of_nodup n1 n2).2 h
  exact List.eq_of_perm_of_sorted hp h1 h2

theorem getD_mem (names : List String) (i : Nat) (hi : i < names.length) :
    names.getD i "" ∈ names := by
  rw [List.getD_eq_getElem?_getD, List.getElem?_eq_getElem hi]
  exact List.getElem_mem _

theorem map_getD_range (names : List String) :
    (List.range names.length).map (fun i => names.getD i "") = names := by
  apply List.ext_getElem?
  intro k
  by_cases hk : k < names.length
  · rw [List.getElem?_map, List.getElem?_range hk, List.getElem?_eq_getElem hk]
    simp [List.getElem?_eq_getElem hk]
  · rw [List.getElem?_eq_none (by simpa using hk), List.getElem?_eq_none (by simpa using hk)]

theorem filter_eq_map_filter_range (names : List String) (p : String → Bool) :
    names.filter p =
      ((List.range names.length).filter (fun i => p (names.getD i ""))).map
        (fun i => names.getD i "") := by
  conv_lhs => rw [← map_getD_range names]
  rw [List.filter_map]
  rfl

/-- Two selections of the same samples from the same header are the same
list of indices. -/
theorem Selection.sel_eq {mode : ConvMode} {hdr : SampleVectors} {exclude : Bool}
    {smpls : List String} {sel : List Nat} {maps : SubsetMaps}
    (h : Selection mode hdr exclude smpls sel maps) (l : List Nat) (hl : l.Pairwise (· < ·))
    (hmem : ∀ i, i ∈ l ↔ retainedIndex hdr exclude smpls i) : sel = l :=
  sorted_ext_nat sel l h.sorted hl (fun i => (h.mem i).trans (hmem i).symm)

theorem retainedIndex_exclude_filter (hdr : SampleVectors) (smpls : List String) (i : Nat) :
    i ∈ (List.range hdr.ind_names.length).filter
        (fun i => decide (hdr.ind_names.getD i "" ∉ smpls)) ↔
      retainedIndex hdr true smpls i := by
  rw [List.mem_filter, List.mem_range]
  simp [retainedIndex]

theorem retainedIndex_include_filter (hdr : SampleVectors) (hnd : hdr.ind_names.Nodup)
    (smpls : List String) (i : Nat) :
    i ∈ (List.range hdr.ind_names.length).filter
        (fun i => decide (hdr.ind_names.getD i "" ∈ smpls)) ↔
      retainedIndex hdr false smpls i := by
  rw [List.mem_filter, List.mem_range]
  simp only [retainedIndex, Bool.false_eq_true, if_false, decide_eq_true_eq]
  constructor
  · rintro ⟨hi, hs⟩
    exact ⟨hi, _, hs, mapNames_nodup _ hnd i hi⟩
  · rintro ⟨hi, s, hs, hms⟩
    refine ⟨hi, ?_⟩
    obtain ⟨j, hj, hv, hjs⟩ := mapNames_eq_some _ _ _ hms
    have hij : i = j := by omega
    rw [hij, hjs]
    exact hs

/-- Sample selection depends on the list of names only through the set of
retained sample indices. -/
theorem selectSamples_congr (mode : ConvMode) (hdr : SampleVectors) (exclude isforce isforce' : Bool)
    (smpls smpls' : List String) (maps : SubsetMaps)
    (h : selectSamples mode hdr exclude isforce smpls = .ok maps)
    (hc : isforce' = true ∨ ∀ s ∈ smpls', s ∈ hdr.ind_names)
    (hret : ∀ i, retainedIndex hdr exclude smpls' i ↔ retainedIndex hdr exclude smpls i) :
    selectSamples mode hdr exclude isforce' smpls' = .ok maps := by
  have hcond := selectSamples_cond mode hdr exclude isforce smpls maps h
  cases exclude with
  | true =>
    rw [selectSamples_exclude_eq mode hdr isforce smpls hcond] at h
    rw [selectSamples_exclude_eq mode hdr isforce' smpls' hc, ← h]
    congr 2
    apply sorted_ext_nat
    · exact List.Pairwise.filter _ (List.pairwise_lt_range _)
    · exact List.Pairwise.filter _ (List.pairwise_lt_range _)
    · intro i
      rw [retainedIndex_exclude_filter, retainedIndex_exclude_filter]
      exact hret i
  | false =>
    obtain ⟨sel, hsorted, hmem, hbound, heq⟩ :=
      selectSamples_include_eq mode hdr isforce smpls hcond
    obtain ⟨sel', hsorted', hmem', hbound', heq'⟩ :=
      selectSamples_include_eq mode hdr isforce' smpls' hc
    have hsel : sel' = sel := by
      apply sorted_ext_nat _ _ hsorted' hsorted
      intro i
      rw [hmem, hmem']
      have h1 := hret i
      simp only [retainedIndex, Bool.false_eq_true, if_false] at h1
      constructor
      · intro hi
        have hlt : i < hdr.ind_names.length := by
          obtain ⟨s, _, hms⟩ := hi
          obtain ⟨j, hj, hv, _⟩ := mapNames_eq_some _ _ _ hms
          omega
        exact (h1.1 ⟨hlt, hi⟩).2
      · intro hi
        have hlt : i < hdr.ind_names.length := by
          obtain ⟨s, _, hms⟩ := hi
          obtain ⟨j, hj, hv, _⟩ := mapNames_eq_some _ _ _ hms
          omega
        exact (h1.2 ⟨hlt, hi⟩).2
    rw [heq', hsel, ← heq, h]

/-- Removing the unknown names from the list does not change which samples
are retained. -/
theorem retainedIndex_filter_known (hdr : SampleVectors) (exclude : Bool) (smpls : List String)
    (i : Nat) :
    retainedIndex hdr exclude (smpls.filter (fun s => decide (s ∈ hdr.ind_names))) i ↔
      retainedIndex hdr exclude smpls i := by
  unfold retainedIndex
  cases exclude with
  | true =>
    simp only [if_true, List.mem_filter, decide_eq_true_eq, not_and]
    constructor
    · rintro ⟨hi, hn⟩
      exact ⟨hi, fun hc => hn hc (getD_mem _ i hi)⟩
    · rintro ⟨hi, hn⟩
      exact ⟨hi, fun hc => absurd hc hn⟩
  | false =>
    simp only [Bool.false_eq_true, if_false, List.mem_filter, decide_eq_true_eq]
    constructor
    · rintro ⟨hi, s, ⟨hs, _⟩, hms⟩
      exact ⟨hi, s, hs, hms⟩
    · rintro ⟨hi, s, hs, hms⟩
      refine ⟨hi, s, ⟨hs, ?_⟩, hms⟩
      by_contra hc
      rw [(mapNames_eq_none _ _).2 hc] at hms
      cases hms

/-! ## Properties of the subsetting overload: the allele count -/

theorem filter_mem_range (n : Nat) (sel : List Nat) (hs : sel.Pairwise (· < ·))
    (hb : ∀ v ∈ sel, v < n) (p : Nat → Bool) (hp : ∀ i, p i = decide (i ∈ sel)) :
    (List.range n).filter p = sel := by
  apply sorted_ext_nat _ _ (List.Pairwise.filter _ (List.pairwise_lt_range _)) hs
  intro i
  rw [List.mem_filter, List.mem_range, hp]
  simp only [decide_eq_true_eq]
  exact ⟨fun hi => hi.2, fun hi => ⟨hb i hi, hi⟩⟩

/-- C13 (amended): after the index maps are built, `full2subs` has one entry
per full slot; in a genotype mode (either subsetting mode) and in a haplotype
mode in exclude mode, `full2subs[subs2full[k]] = k` for every subset index `k`;
in a haplotype mode in include mode `subs2full[k]` is a sample index and
`full2subs[2 * subs2full[k] + b] = 2 * k + b` for `b = 0, 1`; and `full2subs[j]`
is `-1` for every full index `j` that is not retained (a sample index in a
genotype mode, the slot of a sample in a haplotype mode). -/
theorem index_maps_relation (mode : ConvMode) (hdr : SampleVectors) (exclude isforce : Bool)
    (smpls : List String) (maps : SubsetMaps)
    (h : selectSamples mode hdr exclude isforce smpls = .ok maps) :
    maps.full2subs.length = 2 * hdr.ind_names.length ∧
    (((mode = .BG ∨ mode = .SG) ∨ exclude = true) →
      ∀ (k : Nat) (v : Int), maps.subs2full[k]? = some v →
        0 ≤ v ∧ maps.full2subs[v.toNat]? = some (k : Int)) ∧
    (¬ (mode = .BG ∨ mode = .SG) → exclude = false →
      ∀ (k : Nat) (v : Int), maps.subs2full[k]? = some v →
        0 ≤ v ∧ maps.full2subs[(2 * v).toNat]? = some (2 * (k : Int)) ∧
          maps.full2subs[(2 * v + 1).toNat]? = some (2 * (k : Int) + 1)) ∧
    ((mode = .BG ∨ mode = .SG) → ∀ j, j < 2 * hdr.ind_names.length →
      ¬ retainedIndex hdr exclude smpls j → maps.full2subs[j]? = some (-1)) ∧
    (¬ (mode = .BG ∨ mode = .SG) → ∀ j, j < 2 * hdr.ind_names.length →
      ¬ retainedIndex hdr exclude smpls (j / 2) → maps.full2subs[j]? = some (-1)) := by
  obtain ⟨sel, hS⟩ := selectSamples_selection mode hdr exclude isforce smpls maps h
  have hmapped : ∀ (k : Nat) (v : Int), (sel.map Int.ofNat)[k]? = some v →
      ∃ i : Nat, sel[k]? = some i ∧ v = (i : Int) := by
    intro k v hk
    rw [List.getElem?_map] at hk
    cases hsk : sel[k]? with
    | none => rw [hsk] at hk; cases hk
    | some i =>
      rw [hsk] at hk
      exact ⟨i, rfl, (Option.some.inj hk).symm⟩
  refine ⟨?_, ?_, ?_, ?_, ?_⟩
  · by_cases hmode : mode = .BG ∨ mode = .SG
    · exact (hS.geno hmode).2.len
    · exact (hS.hap hmode).len
  · intro hc k v hk
    by_cases hmode : mode = .BG ∨ mode = .SG
    · obtain ⟨hsub, hm⟩ := hS.geno hmode
      rw [hsub] at hk
      obtain ⟨i, hi, hv⟩ := hmapped k v hk
      subst hv
      exact ⟨by omega, by simpa using hm.fwd k i hi⟩
    · have hex : exclude = true := by
        rcases hc with hc | hc
        · exact absurd hc hmode
        · exact hc
      obtain ⟨hlen, hsub⟩ := hS.hap_exclude hmode hex
      have hm := hS.hap hmode
      have hklt : k < maps.subs2full.length := by
        by_contra hc2
        rw [List.getElem?_eq_none (by omega)] at hk
        cases hk
      have hq : k / 2 < sel.length := by omega
      obtain ⟨h0, h1⟩ := hsub (k / 2) _ (List.getElem?_eq_getElem hq)
      obtain ⟨f0, f1⟩ := hm.fwd (k / 2) _ (List.getElem?_eq_getElem hq)
      rcases Nat.mod_two_eq_zero_or_one k with hmod | hmod
      · have hk2 : 2 * (k / 2) = k := by omega
        rw [hk2] at h0
        rw [hk] at h0
        have hv := Option.some.inj h0
        subst hv
        refine ⟨by omega, ?_⟩
        have e : (2 * ((sel[k / 2] : Nat) : Int)).toNat = 2 * sel[k / 2] := by omega
        rw [e, f0]
        congr 1
        omega
      · have hk2 : 2 * (k / 2) + 1 = k := by omega
        rw [hk2] at h1
        rw [hk] at h1
        have hv := Option.some.inj h1
        subst hv
        refine ⟨by omega, ?_⟩
        have e : (2 * ((sel[k / 2] : Nat) : Int) + 1).toNat = 2 * sel[k / 2] + 1 := by omega
        rw [e, f1]
        congr 1
        omega
  · intro hmode hex k v hk
    rw [hS.hap_include hmode hex] at hk
    obtain ⟨i, hi, hv⟩ := hmapped k v hk
    subst hv
    obtain ⟨f0, f1⟩ := (hS.hap hmode).fwd k i hi
    have e0 : (2 * (i : Int)).toNat = 2 * i := by omega
    have e1 : (2 * (i : Int) + 1).toNat = 2 * i + 1 := by omega
    rw [e0, e1]
    exact ⟨by omega, f0, f1⟩
  · intro hmode j hj hnot
    exact (hS.geno hmode).2.bwd j hj (fun hc => hnot ((hS.mem j).1 hc))
  · intro hmode j hj hnot
    exact (hS.hap hmode).bwd j hj (fun hc => hnot ((hS.mem _).1 hc))

set_option maxRecDepth 100000 in
theorem index_maps_relation_witness :
    selectSamples .BH fourSamples false false ["s3", "s1"]
      = .ok ⟨["s1", "s3"], ["f1", "f3"], ["m1", "m3"], ["p1", "p3"], [1, 3],
          [-1, -1, 0, 1, -1, -1, 2, 3]⟩ ∧
    (0 : Int) ≤ 3 ∧
    ([-1, -1, 0, 1, -1, -1, 2, 3] : List Int)[(2 * (3 : Int)).toNat]? = some (2 * ((1 : Nat) : Int)) ∧
    ([-1, -1, 0, 1, -1, -1, 2, 3] : List Int)[(2 * (3 : Int) + 1).toNat]?
      = some (2 * ((1 : Nat) : Int) + 1) :=
  ⟨by decide,
    (index_maps_relation .BH fourSamples false false ["s3", "s1"]
      ⟨["s1", "s3"], ["f1", "f3"], ["m1", "m3"], ["p1", "p3"], [1, 3],
        [-1, -1, 0, 1, -1, -1, 2, 3]⟩ (by decide)).2.2.1 (by decide) rfl 1 3 (by decide)⟩

/-- C16: in exclude mode, when the force flag is set or every listed name is
in the header, selection succeeds; the retained names are the header's names
with every listed name removed, in the original order, and the retained
fathers, mothers and populations are those of the same sample indices. This
holds for every header, with distinct sample names or not. -/
theorem exclude_retains_unlisted (mode : ConvMode) (hdr : SampleVectors) (isforce : Bool)
    (smpls : List String) (h : isforce = true ∨ ∀ s ∈ smpls, s ∈ hdr.ind_names) :
    ∃ maps, selectSamples mode hdr true isforce smpls = .ok maps ∧
      maps.sample_names = hdr.ind_names.filter (fun s => decide (s ∉ smpls)) ∧
      RetainedSamples hdr
        ((List.range hdr.ind_names.length).filter
          (fun i => decide (hdr.ind_names.getD i "" ∉ smpls))) maps := by
  refine ⟨_, selectSamples_exclude_eq mode hdr isforce smpls h, ?_⟩
  obtain ⟨sel, hS⟩ := selectSamples_selection mode hdr true isforce smpls _
    (selectSamples_exclude_eq mode hdr isforce smpls h)
  have hsel := hS.sel_eq _ (List.Pairwise.filter _ (List.pairwise_lt_range _))
    (retainedIndex_exclude_filter hdr smpls)
  have hR := hS.samples
  rw [hsel] at hR
  refine ⟨?_, hR⟩
  rw [hR.names]
  exact (filter_eq_map_filter_range hdr.ind_names (fun s => decide (s ∉ smpls))).symm

set_option maxRecDepth 100000 in
theorem exclude_retains_unlisted_witness :
    ∃ maps, selectSamples .SG fourSamples true false ["s2", "s0"] = .ok maps ∧
      maps.sample_names = fourSamples.ind_names.filter (fun s => decide (s ∉ ["s2", "s0"])) ∧
      RetainedSamples fourSamples
        ((List.range fourSamples.ind_names.length).filter
          (fun i => decide (fourSamples.ind_names.getD i "" ∉ ["s2", "s0"]))) maps :=
  exclude_retains_unlisted .SG fourSamples false ["s2", "s0"] (Or.inr (by decide))

/-- C17 (amended): in include mode, for a header with distinct sample names,
the retained names are the header's names that are requested, in ascending
original-index order, with the fathers, mothers and populations of the same
sample indices; and the outcome is the same for every request list with the
same names in it, in particular for a permutation of the list and for the list
with its names repeated. -/
theorem include_retains_requested (mode : ConvMode) (hdr : SampleVectors) (isforce : Bool)
    (smpls : List String) (maps : SubsetMaps) (hnd : hdr.ind_names.Nodup)
    (h : selectSamples mode hdr false isforce smpls = .ok maps) :
    maps.sample_names = hdr.ind_names.filter (fun s => decide (s ∈ smpls)) ∧
    RetainedSamples hdr
      ((List.range hdr.ind_names.length).filter
        (fun i => decide (hdr.ind_names.getD i "" ∈ smpls))) maps ∧
    (∀ smpls2 : List String, (∀ s, s ∈ smpls2 ↔ s ∈ smpls) →
      selectSamples mode hdr false isforce smpls2 = .ok maps) ∧
    (∀ smpls2 : List String, smpls2.Perm smpls →
      selectSamples mode hdr false isforce smpls2 = .ok maps) ∧
    selectSamples mode hdr false isforce (smpls ++ smpls) = .ok maps := by
  obtain ⟨sel, hS⟩ := selectSamples_selection mode hdr false isforce smpls maps h
  have hsel := hS.sel_eq _ (List.Pairwise.filter _ (List.pairwise_lt_range _))
    (retainedIndex_include_filter hdr hnd smpls)
  have hR := hS.samples
  rw [hsel] at hR
  have hcond := selectSamples_cond mode hdr false isforce smpls maps h
  have hinv : ∀ smpls2 : List String, (∀ s, s ∈ smpls2 ↔ s ∈ smpls) →
      selectSamples mode hdr false isforce smpls2 = .ok maps := by
    intro smpls2 hmem
    apply selectSamples_congr mode hdr false isforce isforce smpls smpls2 maps h
    · exact hcond.imp id (fun hk s hs => hk s ((hmem s).1 hs))
    · intro i
      simp only [retainedIndex, Bool.false_eq_true, if_false]
      constructor
      · rintro ⟨hi, s, hs, hms⟩
        exact ⟨hi, s, (hmem s).1 hs, hms⟩
      · rintro ⟨hi, s, hs, hms⟩
        exact ⟨hi, s, (hmem s).2 hs, hms⟩
  refine ⟨?_, hR, hinv, ?_, ?_⟩
  · rw [hR.names]
    exact (filter_eq_map_filter_range hdr.ind_names (fun s => decide (s ∈ smpls))).symm
  · intro smpls2 hp
    exact hinv smpls2 (fun s => hp.mem_iff)
  · apply hinv
    intro s
    simp

set_option maxRecDepth 100000 in
theorem include_retains_requested_witness :
    fourSamples.ind_names.Nodup ∧
    selectSamples .BH fourSamples false false ["s3", "s1"]
      = .ok ⟨["s1", "s3"], ["f1", "f3"], ["m1", "m3"], ["p1", "p3"], [1, 3],
          [-1, -1, 0, 1, -1, -1, 2, 3]⟩ ∧
    ["s1", "s3"] = fourSamples.ind_names.filter (fun s => decide (s ∈ ["s3", "s1"])) :=
  ⟨by decide, by decide,
    (include_retains_requested .BH fourSamples false ["s3", "s1"]
      ⟨["s1", "s3"], ["f1", "f3"], ["m1", "m3"], ["p1", "p3"], [1, 3],
        [-1, -1, 0, 1, -1, -1, 2, 3]⟩ (by decide) (by decide)).1⟩

/-- C18: in both subsetting modes, when some listed name is not in the header:
without the force flag selection raises an error and the conversion ends with
that error, no header and no record written; with the force flag selection
succeeds, and the retained samples and index maps are those obtained, with or
without the force flag, from the list with the unknown names removed, and so
is the whole output. -/
theorem unknown_name_policy (mode : ConvMode) (minmaf : F32) (hdr : SampleVectors)
    (records : List XcfRecord) (exclude : Bool) (smpls : List String)
    (hunk : ∃ s ∈ smpls, s ∉ hdr.ind_names) :
    (∃ e, selectSamples mode hdr exclude false smpls = .error e ∧
      convertSubset mode minmaf hdr records exclude false smpls
        = { header := none, records := [], error := some e }) ∧
    (∃ maps, selectSamples mode hdr exclude true smpls = .ok maps ∧
      ∀ isforce,
        selectSamples mode hdr exclude isforce
          (smpls.filter (fun s => decide (s ∈ hdr.ind_names))) = .ok maps ∧
        convertSubset mode minmaf hdr records exclude isforce
          (smpls.filter (fun s => decide (s ∈ hdr.ind_names)))
          = convertSubset mode minmaf hdr records exclude true smpls) := by
  constructor
  · obtain ⟨e, he⟩ := selectSamples_error mode hdr exclude smpls hunk
    refine ⟨e, he, ?_⟩
    unfold convertSubset
    rw [he]
  · have hok : ∃ maps, selectSamples mode hdr exclude true smpls = .ok maps := by
      cases exclude with
      | true => exact ⟨_, selectSamples_exclude_eq mode hdr true smpls (Or.inl rfl)⟩
      | false =>
        obtain ⟨sel, _, _, _, heq⟩ := selectSamples_include_eq mode hdr true smpls (Or.inl rfl)
        exact ⟨_, heq⟩
    obtain ⟨maps, hmaps⟩ := hok
    refine ⟨maps, hmaps, ?_⟩
    intro isforce
    have hsel : selectSamples mode hdr exclude isforce
        (smpls.filter (fun s => decide (s ∈ hdr.ind_names))) = .ok maps := by
      apply selectSamples_congr mode hdr exclude true isforce smpls _ maps hmaps
      · right
        intro s hs
        simpa using (List.mem_filter.1 hs).2
      · exact retainedIndex_filter_known hdr exclude smpls
    refine ⟨hsel, ?_⟩
    unfold convertSubset
    rw [hsel, hmaps]

set_option maxRecDepth 100000 in
theorem unknown_name_policy_witness :
    (∃ s ∈ ["s1", "zz"], s ∉ twoSamples.ind_names) ∧
    (∃ e, selectSamples .BG twoSamples true false ["s1", "zz"] = .error e ∧
      convertSubset .BG F32.half twoSamples [] true false ["s1", "zz"]
        = { header := none, records := [], error := some e }) :=
  ⟨⟨"zz", by decide, by decide⟩,
    (unknown_name_policy .BG F32.half twoSamples [] true ["s1", "zz"]
      ⟨"zz", by decide, by decide⟩).1⟩

/-- C19: in both subsetting modes, if no sample is retained (in exclude mode
every header name is listed; in include mode no listed name is in the header)
the subsetting conversion ends with an error, without a header and without a
record written; under the force flag the error is that of the empty subset. -/
theorem empty_subset_fails (mode : ConvMode) (minmaf : F32) (hdr : SampleVectors)
    (records : List XcfRecord) (exclude isforce : Bool) (smpls : List String)
    (hnone : (exclude = true ∧ ∀ s ∈ hdr.ind_names, s ∈ smpls) ∨
      (exclude = false ∧ ∀ s ∈ smpls, s ∉ hdr.ind_names)) :
    ∃ e, convertSubset mode minmaf hdr records exclude isforce smpls
        = { header := none, records := [], error := some e } ∧
      (isforce = true → e = "Subsetting has removed all samples") := by
  have hret : ∀ i, ¬ retainedIndex hdr exclude smpls i := by
    intro i hi
    rcases hnone with ⟨hex, hall⟩ | ⟨hex, hall⟩
    · subst hex
      simp only [retainedIndex, if_true] at hi
      exact hi.2 (hall _ (getD_mem _ i hi.1))
    · subst hex
      simp only [retainedIndex, Bool.false_eq_true, if_false] at hi
      obtain ⟨_, s, hs, hms⟩ := hi
      rw [(mapNames_eq_none _ _).2 (hall s hs)] at hms
      cases hms
  cases hsel : selectSamples mode hdr exclude isforce smpls with
  | error e =>
    refine ⟨e, ?_, ?_⟩
    · unfold convertSubset
      rw [hsel]
    · intro hf
      subst hf
      exfalso
      cases exclude with
      | true =>
        rw [selectSamples_exclude_eq mode hdr true smpls (Or.inl rfl)] at hsel
        cases hsel
      | false =>
        obtain ⟨sel, _, _, _, heq⟩ := selectSamples_include_eq mode hdr true smpls (Or.inl rfl)
        rw [heq] at hsel
        cases hsel
  | ok maps =>
    obtain ⟨sel, hS⟩ := selectSamples_selection mode hdr exclude isforce smpls maps hsel
    have hnil : sel = [] := by
      apply List.eq_nil_iff_forall_not_mem.2
      intro i hi
      exact hret i ((hS.mem i).1 hi)
    have hnames : maps.sample_names = [] := by
      rw [hS.samples.names, hnil]
      rfl
    refine ⟨"Subsetting has removed all samples", ?_, fun _ => rfl⟩
    unfold convertSubset
    rw [hsel]
    simp [hnames]

set_option maxRecDepth 100000 in
theorem empty_subset_fails_witness :
    ((true = true ∧ ∀ s ∈ twoSamples.ind_names, s ∈ ["s1", "s0"]) ∨
      (true = false ∧ ∀ s ∈ ["s1", "s0"], s ∉ twoSamples.ind_names)) ∧
    ∃ e, convertSubset .SH F32.half twoSamples
          [⟨.binaryHaplotype, af025, [false, false, false, true], []⟩] true false ["s1", "s0"]
        = { header := none, records := [], error := some e } ∧
      (false = true → e = "Subsetting has removed all samples") :=
  ⟨Or.inl ⟨rfl, by decide⟩,
    empty_subset_fails .SH F32.half twoSamples
      [⟨.binaryHaplotype, af025, [false, false, false, true], []⟩] true false ["s1", "s0"]
      (Or.inl ⟨rfl, by decide⟩)⟩

/-- C20 (amended): in both subsetting modes, if the retained sample set equals
the full cohort and the cohort is not empty, the subsetting overload produces
exactly the output of the plain conversion on the same input, mode and
threshold. -/
theorem full_cohort_falls_back (mode : ConvMode) (minmaf : F32) (hdr : SampleVectors)
    (records : List XcfRecord) (exclude isforce : Bool) (smpls : List String) (maps : SubsetMaps)
    (h : selectSamples mode hdr exclude isforce smpls = .ok maps)
    (hfull : maps.sample_names = hdr.ind_names) (hne : hdr.ind_names ≠ []) :
    convertSubset mode minmaf hdr records exclude isforce smpls
      = convertPlain mode minmaf hdr records := by
  unfold convertSubset
  rw [h]
  have hlen : hdr.ind_names.length ≠ 0 := fun hc => hne (List.length_eq_zero.1 hc)
  simp only [hfull, if_neg hlen, if_true]

set_option maxRecDepth 100000 in
theorem full_cohort_falls_back_witness :
    selectSamples .BG twoSamples true true ["zz"]
      = .ok ⟨["s0", "s1"], ["f0", "f1"], ["m0", "m1"], ["p0", "p1"], [0, 1], [0, 1, -1, -1]⟩ ∧
    ["s0", "s1"] = twoSamples.ind_names ∧ twoSamples.ind_names ≠ [] ∧
    convertSubset .BG F32.half twoSamples
        [⟨.binaryGenotype, af025, [false, false, false, true], []⟩] true true ["zz"]
      = convertPlain .BG F32.half twoSamples
        [⟨.binaryGenotype, af025, [false, false, false, true], []⟩] :=
  ⟨by decide, rfl, by decide,
    full_cohort_falls_back .BG F32.half twoSamples
      [⟨.binaryGenotype, af025, [false, false, false, true], []⟩] true true ["zz"]
      ⟨["s0", "s1"], ["f0", "f1"], ["m0", "m1"], ["p0", "p1"], [0, 1], [0, 1, -1, -1]⟩
      (by decide) rfl (by decide)⟩

theorem le32_length (v : Nat) : (le32 v).length = 4 := rfl

theorem le64_length (v : Nat) : (le64 v).length = 8 := rfl

theorem rd32_le32 (v : Nat) (rest : List Nat) : rd32 (le32 v ++ rest) = v % 2 ^ 32 := by
  simp only [rd32, le32, List.cons_append, List.nil_append, List.getD_cons_zero,
    List.getD_cons_succ]
  omega

theorem drop4_le32 (v : Nat) (rest : List Nat) : (le32 v ++ rest).drop 4 = rest := rfl

theorem rd64_le64 (v : Nat) (rest : List Nat) (hv : v < 2 ^ 64) : rd64 (le64 v ++ rest) = v := by
  unfold rd64 le64
  rw [List.append_assoc, drop4_le32, rd32_le32, rd32_le32]
  omega

theorem OStream.write_end (b d : List Nat) :
    OStream.write ⟨b, b.length⟩ d = ⟨b ++ d, (b ++ d).length⟩ := by
  simp [OStream.write]

theorem encode_length (hi : HetInfo) : hi.encode.length = 16 := rfl

theorem encodeAll_length (his : List HetInfo) : (encodeAll his).length = 16 * his.length := by
  induction his with
  | nil => rfl
  | cons hi his ih => simp only [encodeAll, List.length_append, encode_length, ih, List.length_cons]; omega

theorem to_stream_end (b : List Nat) (hi : HetInfo) :
    HetInfo.to_stream ⟨b, b.length⟩ hi = ⟨b ++ hi.encode, (b ++ hi.encode).length⟩ := by
  unfold HetInfo.to_stream HetInfo.encode
  rw [OStream.write_end, OStream.write_end, OStream.write_end, OStream.write_end]
  simp only [List.append_assoc]

theorem foldl_to_stream_end (his : List HetInfo) :
    ∀ b : List Nat, his.foldl HetInfo.to_stream ⟨b, b.length⟩
      = ⟨b ++ encodeAll his, (b ++ encodeAll his).length⟩ := by
  induction his with
  | nil => intro b; simp [encodeAll]
  | cons hi his ih =>
    intro b
    rw [List.foldl_cons, to_stream_end, ih]
    simp only [encodeAll, List.append_assoc]

theorem write_to_stream_end (b : List Nat) (his : List HetInfo) (id : Nat) :
    SampleBlock.write_to_stream ⟨b, b.length⟩ his id
      = ⟨b ++ blockBytes his id, (b ++ blockBytes his id).length⟩ := by
  unfold SampleBlock.write_to_stream blockBytes
  rw [OStream.write_end, OStream.write_end, OStream.write_end, foldl_to_stream_end]
  simp only [List.append_assoc]

theorem blockBytes_length (his : List HetInfo) (id : Nat) :
    (blockBytes his id).length = 12 + 16 * his.length := by
  simp only [blockBytes, List.length_append, le32_length, encodeAll_length]

theorem blockStart_zero (n : Nat) (kept : List (List HetInfo)) : blockStart n kept 0 = 8 + 8 * n := by
  simp [blockStart]

theorem blockStart_succ (n : Nat) (kept : List (List HetInfo)) (k : Nat) :
    blockStart n kept (k + 1) = blockStart n kept k + (12 + 16 * (kept.getD k []).length) := by
  simp only [blockStart, List.range_succ, List.map_append, List.sum_append, List.map_cons,
    List.map_nil, List.sum_cons, List.sum_nil]
  omega

theorem tablePrefix_length (n : Nat) (kept : List (List HetInfo)) (k : Nat) :
    (tablePrefix n kept k).length = 8 * k := by
  induction k with
  | zero => rfl
  | succ k ih => simp only [tablePrefix, List.length_append, ih, le64_length]; omega

theorem blocksPrefix_length (start_id n : Nat) (kept : List (List HetInfo)) (k : Nat) :
    8 + 8 * n + (blocksPrefix start_id kept k).length = blockStart n kept k := by
  induction k with
  | zero => simp [blocksPrefix, blockStart_zero]
  | succ k ih =>
    simp only [blocksPrefix, List.length_append, blockBytes_length, blockStart_succ]
    omega

theorem foldl_write_dummy (d : List Nat) (l : List Nat) :
    ∀ b : List Nat, ∃ D : List Nat, D.length = d.length * l.length ∧
      l.foldl (fun (s : OStream) _ => s.write d) ⟨b, b.length⟩ = ⟨b ++ D, (b ++ D).length⟩ := by
  induction l with
  | nil => intro b; exact ⟨[], by simp, by simp⟩
  | cons a l ih =>
    intro b
    rw [List.foldl_cons, OStream.write_end]
    obtain ⟨D, hD, hfold⟩ := ih (b ++ d)
    refine ⟨d ++ D, ?_, ?_⟩
    · simp only [List.length_append, hD, List.length_cons]
      rw [Nat.mul_add]
      omega
    · rw [hfold]
      simp only [List.append_assoc]

/-- The loop of lines 371-376 after `k` samples: the blocks are appended to
the file and the table holds their positions. -/
theorem foldl_blocks (start_id n : Nat) (kept : List (List HetInfo)) (base : List Nat)
    (hbase : base.length = 8 + 8 * n) :
    ∀ k, k ≤ n → ∃ T : List Nat, T.length = n ∧ (∀ j, j < k → T.getD j 0 = blockStart n kept j) ∧
      (List.range' start_id k).foldl
        (fun (acc : OStream × List Nat) i =>
          let idx := i - start_id
          (SampleBlock.write_to_stream acc.1 (kept.getD idx []) i, acc.2.set idx acc.1.pos))
        ((⟨base, base.length⟩ : OStream), List.replicate n 0)
      = (⟨base ++ blocksPrefix start_id kept k, (base ++ blocksPrefix start_id kept k).length⟩, T) := by
  intro k
  induction k with
  | zero =>
    intro _
    exact ⟨List.replicate n 0, by simp, fun j hj => absurd hj (Nat.not_lt_zero _), by simp [blocksPrefix]⟩
  | succ k ih =>
    intro hk
    obtain ⟨T, hT, hget, hfold⟩ := ih (by omega)
    rw [List.range'_1_concat, List.foldl_append, hfold]
    refine ⟨T.set k (base ++ blocksPrefix start_id kept k).length, by simp [hT], ?_, ?_⟩
    · intro j hj
      by_cases hjk : j = k
      · subst hjk
        rw [List.getD_eq_getElem?_getD, List.getElem?_set_self (by omega)]
        simp only [Option.getD_some, List.length_append, hbase]
        exact blocksPrefix_length start_id n kept j
      · rw [List.getD_eq_getElem?_getD, List.getElem?_set_ne (fun h => hjk h.symm),
          ← List.getD_eq_getElem?_getD]
        exact hget j (by omega)
    · simp only [List.foldl_cons, List.foldl_nil, Nat.add_sub_cancel_left, write_to_stream_end,
        blocksPrefix, List.append_assoc]

/-- The loop of lines 380-383 after `k` samples: the first `k` entries of the
table are rewritten in place. -/
theorem foldl_table (start_id n : Nat) (kept : List (List HetInfo)) (F T : List Nat)
    (hF : 8 + 8 * n ≤ F.length) (hT : ∀ j, j < n → T.getD j 0 = blockStart n kept j) :
    ∀ k, k ≤ n →
      (List.range' start_id k).foldl
        (fun (s : OStream) i => s.write (le64 (T.getD (i - start_id) 0))) ⟨F, 8⟩
      = ⟨F.take 8 ++ tablePrefix n kept k ++ F.drop (8 + 8 * k), 8 + 8 * k⟩ := by
  intro k
  induction k with
  | zero => intro _; simp [tablePrefix]
  | succ k ih =>
    intro hk
    rw [List.range'_1_concat, List.foldl_append, ih (by omega)]
    simp only [List.foldl_cons, List.foldl_nil, Nat.add_sub_cancel_left, hT k (by omega)]
    have hlen : (F.take 8 ++ tablePrefix n kept k).length = 8 + 8 * k := by
      simp only [List.length_append, List.length_take, tablePrefix_length]
      omega
    simp only [OStream.write, le64_length]
    congr 1
    rw [List.take_append_of_le_length (by omega), List.take_of_length_le (by omega)]
    have e : 8 + 8 * k + 8 = (F.take 8 ++ tablePrefix n kept k).length + 8 := by omega
    rw [e, List.drop_append, List.drop_drop]
    simp only [tablePrefix, List.append_assoc]
    congr 3

/-- The bytes written by `write_to_file`: the two header words, the offset
table with the positions of the blocks, and the blocks. -/
theorem write_to_file_layout (start_id stop_id : Nat) (kept : List (List HetInfo)) :
    write_to_file start_id stop_id kept
      = le32 0xaabbccdd ++ le32 (stop_id - start_id)
        ++ tablePrefix (stop_id - start_id) kept (stop_id - start_id)
        ++ blocksPrefix start_id kept (stop_id - start_id) := by
  unfold write_to_file
  generalize stop_id - start_id = n
  have h0 : (OStream.write ⟨[], 0⟩ (le32 0xaabbccdd)).write (le32 n)
      = ⟨le32 0xaabbccdd ++ le32 n, (le32 0xaabbccdd ++ le32 n).length⟩ := by
    have e : (⟨[], 0⟩ : OStream) = ⟨[], ([] : List Nat).length⟩ := rfl
    rw [e, OStream.write_end, OStream.write_end]
    rfl
  simp only [h0]
  obtain ⟨D, hD, hdummy⟩ := foldl_write_dummy (le64 0xdeadc0dedeadc0de) (List.range' start_id n)
    (le32 0xaabbccdd ++ le32 n)
  rw [hdummy]
  have hbase : (le32 0xaabbccdd ++ le32 n ++ D).length = 8 + 8 * n := by
    simp only [List.length_append, le32_length, hD, le64_length, List.length_range']
  obtain ⟨T, hT, hget, hblocks⟩ := foldl_blocks start_id n kept _ hbase n (Nat.le_refl _)
  rw [hblocks]
  simp only [OStream.seekp]
  have hpos : (le32 0xaabbccdd ++ le32 n).length = 8 := rfl
  rw [hpos, foldl_table start_id n kept _ T (by simp only [List.length_append, hbase]; omega) hget n
    (Nat.le_refl _)]
  simp only
  have htake : (le32 0xaabbccdd ++ le32 n ++ D ++ blocksPrefix start_id kept n).take 8
      = le32 0xaabbccdd ++ le32 n := by
    rw [List.append_assoc, List.append_assoc, ← List.append_assoc (le32 0xaabbccdd)]
    exact List.take_left' hpos
  have hdrop : (le32 0xaabbccdd ++ le32 n ++ D ++ blocksPrefix start_id kept n).drop (8 + 8 * n)
      = blocksPrefix start_id kept n := List.drop_left' hbase
  rw [htake, hdrop]

theorem tablePrefix_split (n : Nat) (kept : List (List HetInfo)) (k : Nat) :
    ∀ m, k < m → ∃ rest, tablePrefix n kept m
      = tablePrefix n kept k ++ le64 (blockStart n kept k) ++ rest := by
  intro m
  induction m with
  | zero => intro h; omega
  | succ m ih =>
    intro h
    by_cases hkm : k = m
    · subst hkm
      exact ⟨[], by simp [tablePrefix]⟩
    · obtain ⟨rest, hr⟩ := ih (by omega)
      exact ⟨rest ++ le64 (blockStart n kept m), by simp only [tablePrefix, hr, List.append_assoc]⟩

theorem blocksPrefix_split (start_id : Nat) (kept : List (List HetInfo)) (k : Nat) :
    ∀ m, k < m → ∃ rest, blocksPrefix start_id kept m
      = blocksPrefix start_id kept k ++ blockBytes (kept.getD k []) (start_id + k) ++ rest := by
  intro m
  induction m with
  | zero => intro h; omega
  | succ m ih =>
    intro h
    by_cases hkm : k = m
    · subst hkm
      exact ⟨[], by simp [blocksPrefix]⟩
    · obtain ⟨rest, hr⟩ := ih (by omega)
      exact ⟨rest ++ blockBytes (kept.getD m []) (start_id + m),
        by simp only [blocksPrefix, hr, List.append_assoc]⟩

/-- In the file, the `k`-th entry of the offset table is at byte `8 + 8 * k`. -/
theorem file_drop_table (start_id stop_id : Nat) (kept : List (List HetInfo)) (k : Nat)
    (hk : k < stop_id - start_id) :
    ∃ rest, (write_to_file start_id stop_id kept).drop (8 + 8 * k)
      = le64 (blockStart (stop_id - start_id) kept k) ++ rest := by
  rw [write_to_file_layout]
  obtain ⟨r, hr⟩ := tablePrefix_split (stop_id - start_id) kept k _ hk
  rw [hr]
  refine ⟨r ++ blocksPrefix start_id kept (stop_id - start_id), ?_⟩
  have hlen : (le32 0xaabbccdd ++ le32 (stop_id - start_id)
      ++ tablePrefix (stop_id - start_id) kept k).length = 8 + 8 * k := by
    simp only [List.length_append, le32_length, tablePrefix_length]
  have e : le32 0xaabbccdd ++ le32 (stop_id - start_id)
        ++ (tablePrefix (stop_id - start_id) kept k
          ++ le64 (blockStart (stop_id - start_id) kept k) ++ r)
        ++ blocksPrefix start_id kept (stop_id - start_id)
      = (le32 0xaabbccdd ++ le32 (stop_id - start_id) ++ tablePrefix (stop_id - start_id) kept k)
        ++ (le64 (blockStart (stop_id - start_id) kept k)
          ++ (r ++ blocksPrefix start_id kept (stop_id - start_id))) := by
    simp only [List.append_assoc]
  rw [e]
  exact List.drop_left' hlen

/-- In the file, the block of the `k`-th sample is at byte `blockStart k`. -/
theorem file_drop_block (start_id stop_id : Nat) (kept : List (List HetInfo)) (k : Nat)
    (hk : k < stop_id - start_id) :
    ∃ rest, (write_to_file start_id stop_id kept).drop (blockStart (stop_id - start_id) kept k)
      = blockBytes (kept.getD k []) (start_id + k) ++ rest := by
  rw [write_to_file_layout]
  obtain ⟨r, hr⟩ := blocksPrefix_split start_id kept k _ hk
  rw [hr]
  refine ⟨r, ?_⟩
  have hlen : (le32 0xaabbccdd ++ le32 (stop_id - start_id)
      ++ tablePrefix (stop_id - start_id) kept (stop_id - start_id)
      ++ blocksPrefix start_id kept k).length = blockStart (stop_id - start_id) kept k := by
    rw [← blocksPrefix_length start_id (stop_id - start_id) kept k]
    simp only [List.length_append, le32_length, tablePrefix_length]
  have e : le32 0xaabbccdd ++ le32 (stop_id - start_id)
        ++ tablePrefix (stop_id - start_id) kept (stop_id - start_id)
        ++ (blocksPrefix start_id kept k ++ blockBytes (kept.getD k []) (start_id + k) ++ r)
      = (le32 0xaabbccdd ++ le32 (stop_id - start_id)
          ++ tablePrefix (stop_id - start_id) kept (stop_id - start_id)
          ++ blocksPrefix start_id kept k)
        ++ (blockBytes (kept.getD k []) (start_id + k) ++ r) := by
    simp only [List.append_assoc]
  rw [e]
  exact List.drop_left' hlen

theorem write_to_file_length (start_id stop_id : Nat) (kept : List (List HetInfo)) :
    (write_to_file start_id stop_id kept).length
      = blockStart (stop_id - start_id) kept (stop_id - start_id) := by
  rw [write_to_file_layout, ← blocksPrefix_length start_id (stop_id - start_id) kept]
  simp only [List.length_append, le32_length, tablePrefix_length]

theorem blockStart_eq (n : Nat) (kept : List (List HetInfo)) (k : Nat) :
    blockStart n kept k
      = 8 + 8 * n + 12 * k + 16 * ((List.range k).map (fun j => (kept.getD j []).length)).sum := by
  induction k with
  | zero => simp [blockStart]
  | succ k ih =>
    rw [blockStart_succ, ih]
    simp only [List.range_succ, List.map_append, List.sum_append, List.map_cons, List.map_nil,
      List.sum_cons, List.sum_nil]
    omega

theorem blockStart_mono (n : Nat) (kept : List (List HetInfo)) (k : Nat) :
    ∀ m, k ≤ m → blockStart n kept k ≤ blockStart n kept m := by
  intro m
  induction m with
  | zero => intro h; have : k = 0 := by omega
            subst this; exact Nat.le_refl _
  | succ m ih =>
    intro h
    by_cases hkm : k = m + 1
    · subst hkm; exact Nat.le_refl _
    · have := ih (by omega)
      rw [blockStart_succ]
      omega

theorem signed32_pattern32 (v : Int) (h1 : -2 ^ 31 ≤ v) (h2 : v < 2 ^ 31) :
    signed32 (pattern32 v % 2 ^ 32) = v := by
  unfold signed32 pattern32
  have hnn : 0 ≤ v % 2 ^ 32 := Int.emod_nonneg _ (by norm_num)
  have hlt : v % 2 ^ 32 < 2 ^ 32 := Int.emod_lt_of_pos _ (by norm_num)
  have hcast : (((v % 2 ^ 32).toNat : Nat) : Int) = v % 2 ^ 32 := Int.toNat_of_nonneg hnn
  have hmod : (v % 2 ^ 32).toNat % 2 ^ 32 = (v % 2 ^ 32).toNat := by
    apply Nat.mod_eq_of_lt
    omega
  simp only [hmod, Nat.mod_mod]
  split <;> omega

theorem from_stream_encode (hi : HetInfo) (hr : hi.inRange) (rest : List Nat) :
    HetInfo.from_stream (hi.encode ++ rest) = hi := by
  obtain ⟨⟨l1, l2⟩, ⟨a1, a2⟩, ⟨b1, b2⟩, hp⟩ := hr
  unfold HetInfo.from_stream HetInfo.encode
  have d4 : (le32 (pattern32 hi.vcf_line) ++ le32 (pattern32 hi.a0) ++ le32 (pattern32 hi.a1)
      ++ le32 hi.pp.bits ++ rest).drop 4
      = le32 (pattern32 hi.a0) ++ (le32 (pattern32 hi.a1) ++ (le32 hi.pp.bits ++ rest)) := rfl
  have d8 : (le32 (pattern32 hi.vcf_line) ++ le32 (pattern32 hi.a0) ++ le32 (pattern32 hi.a1)
      ++ le32 hi.pp.bits ++ rest).drop 8
      = le32 (pattern32 hi.a1) ++ (le32 hi.pp.bits ++ rest) := rfl
  have d12 : (le32 (pattern32 hi.vcf_line) ++ le32 (pattern32 hi.a0) ++ le32 (pattern32 hi.a1)
      ++ le32 hi.pp.bits ++ rest).drop 12 = le32 hi.pp.bits ++ rest := rfl
  rw [d4, d8, d12]
  simp only [List.append_assoc, rd32_le32, signed32_pattern32 _ l1 l2, signed32_pattern32 _ a1 a2,
    signed32_pattern32 _ b1 b2, Nat.mod_eq_of_lt hp]

theorem readEntries_encodeAll (his : List HetInfo) (hr : ∀ hi ∈ his, hi.inRange)
    (rest : List Nat) : readEntries his.length (encodeAll his ++ rest) = his := by
  induction his with
  | nil => rfl
  | cons hi his ih =>
    simp only [List.length_cons, readEntries, encodeAll, List.append_assoc]
    rw [from_stream_encode hi (hr hi (List.mem_cons_self _ _))]
    have hd : (hi.encode ++ (encodeAll his ++ rest)).drop 16 = encodeAll his ++ rest :=
      List.drop_left' (encode_length hi)
    rw [hd, ih (fun x hx => hr x (List.mem_cons_of_mem _ hx))]

/-- Reading the block of the `k`-th sample through the offset table gives the
sample id and the kept-list that were written. -/
theorem readBlock_write_to_file (start_id stop_id : Nat) (kept : List (List HetInfo)) (k : Nat)
    (hk : k < stop_id - start_id) (hid : stop_id ≤ 2 ^ 32)
    (hlen : (kept.getD k []).length < 2 ^ 32)
    (hfile : (write_to_file start_id stop_id kept).length < 2 ^ 64)
    (hr : ∀ hi ∈ kept.getD k [], hi.inRange) :
    readBlock (write_to_file start_id stop_id kept) k = some (start_id + k, kept.getD k []) := by
  obtain ⟨r1, h1⟩ := file_drop_table start_id stop_id kept k hk
  obtain ⟨r2, h2⟩ := file_drop_block start_id stop_id kept k hk
  have hoff : blockStart (stop_id - start_id) kept k < 2 ^ 64 := by
    rw [write_to_file_length] at hfile
    exact Nat.lt_of_le_of_lt (blockStart_mono _ kept k _ (by omega)) hfile
  unfold readBlock
  simp only [h1, rd64_le64 _ _ hoff, h2]
  unfold blockBytes
  have d4 : (le32 0xd00dc0de ++ le32 (start_id + k) ++ le32 (kept.getD k []).length
      ++ encodeAll (kept.getD k []) ++ r2).drop 4
      = le32 (start_id + k) ++ (le32 (kept.getD k []).length
        ++ (encodeAll (kept.getD k []) ++ r2)) := rfl
  have d8 : (le32 0xd00dc0de ++ le32 (start_id + k) ++ le32 (kept.getD k []).length
      ++ encodeAll (kept.getD k []) ++ r2).drop 8
      = le32 (kept.getD k []).length ++ (encodeAll (kept.getD k []) ++ r2) := rfl
  have d12 : (le32 0xd00dc0de ++ le32 (start_id + k) ++ le32 (kept.getD k []).length
      ++ encodeAll (kept.getD k []) ++ r2).drop 12 = encodeAll (kept.getD k []) ++ r2 := rfl
  rw [d4, d8, d12]
  simp only [List.append_assoc, rd32_le32]
  have e1 : (start_id + k) % 2 ^ 32 = start_id + k := Nat.mod_eq_of_lt (by omega)
  have e2 : (kept.getD k []).length % 2 ^ 32 = (kept.getD k []).length := Nat.mod_eq_of_lt hlen
  rw [e1, e2, readEntries_encodeAll _ hr]
  simp

/-- C28: a side-channel file written by `write_to_file` for 3 samples whose
kept-lists `l0`, `l1`, `l2` have 2, 0 and 5 calls, read back through the offset
table, gives for each sample its id and the identical sequence of calls (line
number, the two allele codes and the bit pattern of the confidence). Each block
is read from the file alone, so the order in which the blocks are read does not
matter. -/
theorem side_channel_roundtrip_three (start_id : Nat) (l0 l1 l2 : List HetInfo)
    (h0 : l0.length = 2) (h1 : l1.length = 0) (h2 : l2.length = 5)
    (hid : start_id + 3 ≤ 2 ^ 32) (hr : ∀ hi, hi ∈ l0 ++ l1 ++ l2 → hi.inRange) :
    readBlock (write_to_file start_id (start_id + 3) [l0, l1, l2]) 0 = some (start_id, l0) ∧
    readBlock (write_to_file start_id (start_id + 3) [l0, l1, l2]) 1 = some (start_id + 1, l1) ∧
    readBlock (write_to_file start_id (start_id + 3) [l0, l1, l2]) 2 = some (start_id + 2, l2) := by
  have hn : start_id + 3 - start_id = 3 := by omega
  have hfile : (write_to_file start_id (start_id + 3) [l0, l1, l2]).length < 2 ^ 64 := by
    rw [write_to_file_length, hn, blockStart_eq]
    simp [List.range_succ, h0, h1, h2]
  have hr0 : ∀ hi ∈ l0, hi.inRange := fun hi hm => hr hi (by simp [hm])
  have hr1 : ∀ hi ∈ l1, hi.inRange := fun hi hm => hr hi (by simp [hm])
  have hr2 : ∀ hi ∈ l2, hi.inRange := fun hi hm => hr hi (by simp [hm])
  refine ⟨?_, ?_, ?_⟩
  · exact readBlock_write_to_file start_id (start_id + 3) [l0, l1, l2] 0 (by omega) hid
      (by simp [h0]) hfile hr0
  · exact readBlock_write_to_file start_id (start_id + 3) [l0, l1, l2] 1 (by omega) hid
      (by simp [h1]) hfile hr1
  · exact readBlock_write_to_file start_id (start_id + 3) [l0, l1, l2] 2 (by omega) hid
      (by simp [h2]) hfile hr2

/-- C29: for `n = stop_id - start_id` samples with kept-list lengths `c_j`,
in the file written by `write_to_file` the `k`-th entry of the offset table is
`8 + 8 * n + sum over j < k of (12 + 16 * c_j)`; it is not the placeholder; at
that position the file holds the marker `0xd00dc0de`, then the sample id
`start_id + k`, then the entry count `c_k`; and the file has
`8 + 20 * n + 16 * (sum of the c_j)` bytes. -/
theorem write_to_file_offsets (start_id stop_id : Nat) (kept : List (List HetInfo))
    (hid : stop_id ≤ 2 ^ 32)
    (hc : ∀ k, k < stop_id - start_id → (kept.getD k []).length < 2 ^ 32)
    (hfile : 8 + 20 * (stop_id - start_id)
      + 16 * ((List.range (stop_id - start_id)).map (fun j => (kept.getD j []).length)).sum
        < 2 ^ 63) :
    (∀ k, k < stop_id - start_id →
      rd64 ((write_to_file start_id stop_id kept).drop (8 + 8 * k))
        = 8 + 8 * (stop_id - start_id)
          + ((List.range k).map (fun j => 12 + 16 * (kept.getD j []).length)).sum ∧
      rd64 ((write_to_file start_id stop_id kept).drop (8 + 8 * k)) ≠ 0xdeadc0dedeadc0de ∧
      rd32 ((write_to_file start_id stop_id kept).drop
          (rd64 ((write_to_file start_id stop_id kept).drop (8 + 8 * k)))) = 0xd00dc0de ∧
      rd32 ((write_to_file start_id stop_id kept).drop
          (rd64 ((write_to_file start_id stop_id kept).drop (8 + 8 * k)) + 4)) = start_id + k ∧
      rd32 ((write_to_file start_id stop_id kept).drop
          (rd64 ((write_to_file start_id stop_id kept).drop (8 + 8 * k)) + 8))
        = (kept.getD k []).length) ∧
    (write_to_file start_id stop_id kept).length
      = 8 + 20 * (stop_id - start_id)
        + 16 * ((List.range (stop_id - start_id)).map (fun j => (kept.getD j []).length)).sum := by
  have hlen : (write_to_file start_id stop_id kept).length
      = 8 + 20 * (stop_id - start_id)
        + 16 * ((List.range (stop_id - start_id)).map (fun j => (kept.getD j []).length)).sum := by
    rw [write_to_file_length, blockStart_eq]
    omega
  refine ⟨?_, hlen⟩
  intro k hk
  obtain ⟨r1, h1⟩ := file_drop_table start_id stop_id kept k hk
  obtain ⟨r2, h2⟩ := file_drop_block start_id stop_id kept k hk
  have hle : blockStart (stop_id - start_id) kept k < 2 ^ 63 := by
    have := blockStart_mono (stop_id - start_id) kept k (stop_id - start_id) (by omega)
    rw [← write_to_file_length start_id stop_id kept, hlen] at this
    omega
  have hoff : rd64 ((write_to_file start_id stop_id kept).drop (8 + 8 * k))
      = blockStart (stop_id - start_id) kept k := by
    rw [h1, rd64_le64 _ _ (by omega)]
  have d4 : (blockBytes (kept.getD k []) (start_id + k) ++ r2).drop 4
      = le32 (start_id + k) ++ (le32 (kept.getD k []).length
        ++ (encodeAll (kept.getD k []) ++ r2)) := rfl
  have d8 : (blockBytes (kept.getD k []) (start_id + k) ++ r2).drop 8
      = le32 (kept.getD k []).length ++ (encodeAll (kept.getD k []) ++ r2) := rfl
  have hmark : rd32 (blockBytes (kept.getD k []) (start_id + k) ++ r2) = 0xd00dc0de := by
    unfold blockBytes
    simp only [List.append_assoc, rd32_le32]
    decide
  rw [hoff]
  refine ⟨rfl, by omega, ?_, ?_, ?_⟩
  · rw [h2, hmark]
  · rw [← List.drop_drop, h2, d4, rd32_le32]
    exact Nat.mod_eq_of_lt (by omega)
  · rw [← List.drop_drop, h2, d8, rd32_le32]
    exact Nat.mod_eq_of_lt (hc k hk)

set_option maxRecDepth 100000 in
theorem side_channel_roundtrip_three_witness :
    readBlock (write_to_file 7 (7 + 3) [twoCalls, [], fiveCalls]) 0 = some (7, twoCalls) ∧
    readBlock (write_to_file 7 (7 + 3) [twoCalls, [], fiveCalls]) 1 = some (7 + 1, []) ∧
    readBlock (write_to_file 7 (7 + 3) [twoCalls, [], fiveCalls]) 2 = some (7 + 2, fiveCalls) :=
  side_channel_roundtrip_three 7 twoCalls [] fiveCalls rfl rfl rfl (by decide) (by decide)

set_option maxRecDepth 100000 in
theorem write_to_file_offsets_witness :
    (write_to_file 7 10 [twoCalls, [], fiveCalls]).length = 8 + 20 * (10 - 7)
      + 16 * ((List.range (10 - 7)).map
          (fun j => (([twoCalls, [], fiveCalls] : List (List HetInfo)).getD j []).length)).sum :=
  (write_to_file_offsets 7 10 [twoCalls, [], fiveCalls] (by decide) (by decide) (by decide)).2

/-- C30: for every configured size `s`, a new window has size `s` when `s` is
odd and `s + 1` when `s` is even; in both cases its centre index is
`(size - 1) / 2`, and as many slots precede the centre as follow it. -/
theorem fifo_size_and_centre {T : Type} (s : Nat) (p : T → Bool) :
    (GenericKeepFifo.new s p).size = (if s % 2 = 1 then s else s + 1) ∧
    (GenericKeepFifo.new s p).mid = ((GenericKeepFifo.new s p).size - 1) / 2 ∧
    (GenericKeepFifo.new s p).size - 1 - (GenericKeepFifo.new s p).mid
      = (GenericKeepFifo.new s p).mid := by
  unfold GenericKeepFifo.new
  by_cases h : s % 2 = 0
  · simp only [h, if_true]
    refine ⟨by rw [if_neg (by omega)], by omega, by omega⟩
  · simp only [h, if_false]
    refine ⟨by rw [if_pos (by omega)], by omega, by omega⟩

/-! ## Properties of the subsetting overload: the complement of a sparse list -/

theorem pattern32_ofNat (v : Nat) (h : v < 2 ^ 32) : pattern32 (v : Int) = v := by
  unfold pattern32
  have : ((v : Int) % 2 ^ 32) = (v : Int) := Int.emod_eq_of_lt (by omega) (by omega)
  rw [this]
  simp

theorem signed32_ofNat (v : Nat) (h : v < 2 ^ 31) : signed32 v = (v : Int) := by
  unfold signed32
  have hm : v % 2 ^ 32 = v := Nat.mod_eq_of_lt (by omega)
  rw [hm, if_pos h]

theorem foldl_flatMap_singleton {α β γ : Type} (f : β → γ → β) (g : α → γ) (l : List α) :
    ∀ init : β, (l.flatMap fun a => [g a]).foldl f init = l.foldl (fun b a => f b (g a)) init := by
  induction l with
  | nil => intro init; rfl
  | cons a l ih => intro init; simp [List.flatMap_cons, ih]

/-- The loop of `emitRange`, with the running value as a natural number. -/
theorem emitRange_eq (acc : List Nat × Nat) (lo hi : Int) :
    emitRange acc lo hi = (List.range (hi - lo).toNat).foldl
      (fun (a : List Nat × Nat) (k : Nat) => (a.1.set a.2 (pattern32 (lo + (k : Int))), a.2 + 1))
      acc := by
  unfold emitRange
  simp only [List.pure_def, List.bind_eq_flatMap]
  exact foldl_flatMap_singleton _ _ _ _

theorem take_set_of_le {α : Type} (a : α) {n m : Nat} (l : List α) (h : m ≤ n) :
    (l.set n a).take m = l.take m := by
  apply List.ext_getElem?
  intro i
  rw [List.getElem?_take, List.getElem?_take]
  split
  · rw [List.getElem?_set_ne (by omega)]
  · rfl

theorem emitLoop_spec (buf : List Nat) (i lo : Nat) (f : List Nat × Nat → Nat → List Nat × Nat)
    (hf : ∀ a k, f a k = (a.1.set a.2 (pattern32 ((lo : Int) + (k : Int))), a.2 + 1)) :
    ∀ cnt : Nat, i + cnt ≤ buf.length → lo + cnt ≤ 2 ^ 32 →
      ((List.range cnt).foldl f (buf, i)).2 = i + cnt ∧
      ((List.range cnt).foldl f (buf, i)).1.length = buf.length ∧
      ((List.range cnt).foldl f (buf, i)).1.take (i + cnt) = buf.take i ++ List.range' lo cnt := by
  intro cnt
  induction cnt with
  | zero => intro _ _; simp
  | succ c ih =>
    intro h1 h2
    obtain ⟨e1, e2, e3⟩ := ih (by omega) (by omega)
    rw [List.range_succ, List.foldl_append]
    cases hres : List.foldl f (buf, i) (List.range c) with
    | mk b1 i1 =>
      rw [hres] at e1 e2 e3
      simp only at e1 e2 e3
      subst e1
      simp only [List.foldl_cons, List.foldl_nil, hf]
      have hp : pattern32 ((lo : Int) + (c : Int)) = lo + c := by
        have := pattern32_ofNat (lo + c) (by omega)
        simpa using this
      refine ⟨by omega, by simp [e2], ?_⟩
      rw [← Nat.add_assoc, List.take_succ, take_set_of_le _ _ (Nat.le_refl _), e3,
        List.getElem?_set_self (by omega), hp, List.range'_1_concat]
      simp

/-- The inner loop of the complement: the values `lo .. hi - 1` are stored
behind the first `i` entries. -/
theorem emitRange_spec (buf : List Nat) (i lo cnt : Nat) (h1 : i + cnt ≤ buf.length)
    (h2 : lo + cnt ≤ 2 ^ 32) :
    (emitRange (buf, i) (lo : Int) ((lo + cnt : Nat) : Int)).2 = i + cnt ∧
    (emitRange (buf, i) (lo : Int) ((lo + cnt : Nat) : Int)).1.length = buf.length ∧
    (emitRange (buf, i) (lo : Int) ((lo + cnt : Nat) : Int)).1.take (i + cnt)
      = buf.take i ++ List.range' lo cnt := by
  have hcnt : (((lo + cnt : Nat) : Int) - (lo : Int)).toNat = cnt := by omega
  rw [emitRange_eq, hcnt]
  exact emitLoop_spec buf i lo _ (fun _ _ => rfl) cnt h1 h2

theorem foldl_range_getD {β : Type} (g : β → Nat → β) (l : List Nat) :
    ∀ init : β, (List.range l.length).foldl (fun acc j => g acc (l.getD j 0)) init
      = l.foldl g init := by
  induction l using List.reverseRecOn with
  | nil => intro init; rfl
  | append_singleton l a ih =>
    intro init
    rw [List.length_append, List.length_singleton, List.range_succ, List.foldl_append,
      List.foldl_append]
    have hcongr : (List.range l.length).foldl (fun acc j => g acc ((l ++ [a]).getD j 0)) init
        = (List.range l.length).foldl (fun acc j => g acc (l.getD j 0)) init := by
      apply List.foldl_ext
      intro acc j hj
      rw [List.getD_append _ _ _ _ (List.mem_range.1 hj)]
    rw [hcongr, ih]
    simp [List.getD_eq_getElem?_getD]

theorem sorted_bounded_length (B : Nat) :
    ∀ (L : List Nat) (lo : Nat), L.Pairwise (· < ·) → (∀ x ∈ L, lo ≤ x ∧ x < B) →
      lo + L.length ≤ B ∨ L = [] := by
  intro L
  induction L with
  | nil => intro _ _ _; right; rfl
  | cons a rest ih =>
    intro lo hs hb
    left
    rw [List.pairwise_cons] at hs
    have ha := hb a (List.mem_cons_self _ _)
    rcases ih (a + 1) hs.2 (fun x hx => ⟨hs.1 x hx, (hb x (List.mem_cons_of_mem _ hx)).2⟩) with h | h
    · simp only [List.length_cons]; omega
    · subst h; simp only [List.length_cons, List.length_nil]; omega

/-- The outer loop of lines 446-462 on a strictly increasing list `L` of
values in `[next, B)`, followed by the last inner loop: the values of
`[next, B)` that are not in `L` are stored, in ascending order, behind the first
`i` entries. -/
theorem complement_loop (B : Nat) (hB : B ≤ 2 ^ 31) :
    ∀ (L : List Nat) (buf : List Nat) (i next : Nat), L.Pairwise (· < ·) →
      (∀ x ∈ L, next ≤ x ∧ x < B) → next ≤ B → i + (B - next) ≤ buf.length + L.length →
      ∃ out : List Nat,
        (emitRange (L.foldl
            (fun (acc : (List Nat × Nat) × Int) x =>
              (emitRange acc.1 acc.2 (signed32 x),
                (if acc.2 < signed32 x then signed32 x else acc.2) + 1))
            ((buf, i), (next : Int))).1
          (L.foldl
            (fun (acc : (List Nat × Nat) × Int) x =>
              (emitRange acc.1 acc.2 (signed32 x),
                (if acc.2 < signed32 x then signed32 x else acc.2) + 1))
            ((buf, i), (next : Int))).2 (B : Int)).1.take (i + out.length) = buf.take i ++ out ∧
        (emitRange (L.foldl
            (fun (acc : (List Nat × Nat) × Int) x =>
              (emitRange acc.1 acc.2 (signed32 x),
                (if acc.2 < signed32 x then signed32 x else acc.2) + 1))
            ((buf, i), (next : Int))).1
          (L.foldl
            (fun (acc : (List Nat × Nat) × Int) x =>
              (emitRange acc.1 acc.2 (signed32 x),
                (if acc.2 < signed32 x then signed32 x else acc.2) + 1))
            ((buf, i), (next : Int))).2 (B : Int)).2 = i + out.length ∧
        out.Pairwise (· < ·) ∧ (∀ x, x ∈ out ↔ next ≤ x ∧ x < B ∧ x ∉ L) ∧
        out.length + L.length = B - next := by
  intro L
  induction L with
  | nil =>
    intro buf i next _ _ hnext hroom
    simp only [List.foldl_nil, List.length_nil, Nat.add_zero] at hroom ⊢
    have hBn : B = next + (B - next) := by omega
    obtain ⟨e1, _, e3⟩ := emitRange_spec buf i next (B - next) hroom (by omega)
    rw [← hBn] at e1 e3
    refine ⟨List.range' next (B - next), ?_, ?_, List.pairwise_lt_range' _ _, ?_, ?_⟩
    · rw [List.length_range']
      exact e3
    · rw [List.length_range']
      exact e1
    · intro x
      rw [List.mem_range'_1]
      simp only [List.not_mem_nil, not_false_eq_true, and_true]
      omega
    · rw [List.length_range']
  | cons a rest ih =>
    intro buf i next hs hb hnext hroom
    rw [List.pairwise_cons] at hs
    have ha := hb a (List.mem_cons_self _ _)
    have hrest : ∀ x ∈ rest, a + 1 ≤ x ∧ x < B :=
      fun x hx => ⟨hs.1 x hx, (hb x (List.mem_cons_of_mem _ hx)).2⟩
    have hcard : a + 1 + rest.length ≤ B := by
      rcases sorted_bounded_length B rest (a + 1) hs.2 hrest with h | h
      · exact h
      · subst h; simp only [List.length_nil]; omega
    simp only [List.length_cons] at hroom
    have hsa : signed32 a = (a : Int) := signed32_ofNat a (by omega)
    have han : a = next + (a - next) := by omega
    obtain ⟨e1, e2, e3⟩ := emitRange_spec buf i next (a - next) (by omega) (by omega)
    rw [← han] at e1 e2 e3
    have hnext2 : (if (next : Int) < (a : Int) then (a : Int) else (next : Int)) + 1
        = ((a + 1 : Nat) : Int) := by
      split <;> omega
    rw [List.foldl_cons]
    simp only [hsa, hnext2]
    cases hres : emitRange (buf, i) (next : Int) (a : Int) with
    | mk b1 i1 =>
      rw [hres] at e1 e2 e3
      simp only at e1 e2 e3
      subst e1
      obtain ⟨out, o1, o2, o3, o4, o5⟩ := ih b1 (i + (a - next)) (a + 1) hs.2 hrest (by omega)
        (by omega)
      refine ⟨List.range' next (a - next) ++ out, ?_, ?_, ?_, ?_, ?_⟩
      · rw [List.length_append, List.length_range', ← Nat.add_assoc, o1, e3, List.append_assoc]
      · rw [List.length_append, List.length_range', ← Nat.add_assoc]
        exact o2
      · rw [List.pairwise_append]
        refine ⟨List.pairwise_lt_range' _ _, o3, ?_⟩
        intro x hx y hy
        rw [List.mem_range'_1] at hx
        have := (o4 y).1 hy
        omega
      · intro x
        rw [List.mem_append, List.mem_range'_1, o4, List.mem_cons]
        constructor
        · rintro (h | ⟨h1, h2, h3⟩)
          · refine ⟨h.1, by omega, ?_⟩
            rintro (hc | hc)
            · omega
            · have := hs.1 x hc
              omega
          · refine ⟨by omega, h2, ?_⟩
            rintro (hc | hc)
            · omega
            · exact h3 hc
        · rintro ⟨h1, h2, h3⟩
          by_cases hxa : x < a
          · left; omega
          · right
            refine ⟨?_, h2, fun hc => h3 (Or.inr hc)⟩
            have : x ≠ a := fun hc => h3 (Or.inl hc)
            omega
      · rw [List.length_append, List.length_range', List.length_cons]
        omega

/-- The complement of lines 444-462 on a buffer whose first entries are the
strictly increasing list `L` of slots below `2 * M`. -/
theorem complementSparse_eq (M : Nat) (L buf : List Nat) (hM : 2 * M < 2 ^ 31)
    (hsorted : L.Pairwise (· < ·)) (hrange : ∀ x ∈ L, x < 2 * M)
    (hbuf : buf.length = 2 * M) (hlist : buf.take L.length = L) :
    (complementSparse M L.length buf).1.take (complementSparse M L.length buf).2
        = (List.range (2 * M)).filter (fun x => decide (x ∉ L)) ∧
      ((List.range (2 * M)).filter (fun x => decide (x ∉ L))).length + L.length = 2 * M := by
  unfold complementSparse
  simp only [hlist]
  have hfold := foldl_range_getD
    (fun (acc : (List Nat × Nat) × Int) x =>
      (emitRange acc.1 acc.2 (signed32 x),
        (if acc.2 < signed32 x then signed32 x else acc.2) + 1)) L ((buf, 0), (0 : Int))
  simp only at hfold
  rw [hfold]
  obtain ⟨out, o1, o2, o3, o4, o5⟩ := complement_loop (2 * M) (by omega) L buf 0 0 hsorted
    (fun x hx => ⟨Nat.zero_le _, hrange x hx⟩) (Nat.zero_le _) (by omega)
  simp only [Nat.cast_zero, Nat.zero_add, List.take_zero, List.nil_append, Nat.cast_mul,
    Nat.cast_ofNat] at o1 o2
  rw [o2, o1]
  have hout : out = (List.range (2 * M)).filter (fun x => decide (x ∉ L)) := by
    apply sorted_ext_nat _ _ o3 (List.Pairwise.filter _ (List.pairwise_lt_range _))
    intro x
    rw [o4, List.mem_filter, List.mem_range]
    simp
  rw [← hout]
  exact ⟨rfl, by omega⟩

/-- C21: during subsetting with mode SH, for a rare sparse haplotype record
whose minor flag changes, for every number `M` of retained samples and every
strictly increasing list `L` of slot indices below `2 * M` held at the front of
`sparse_int_buf_subs`, the list written is the ascending list of exactly the
slots of `[0, 2 * M)` that are not in `L`, and its length is
`2 * M - L.length`. -/
theorem subset_sparse_haplotype_complement (M : Nat) (L : List Nat) (minor minor_full : Bool)
    (st : SubsetBuffers) (hM : 2 * M < 2 ^ 31) (hflip : minor ≠ minor_full)
    (hsorted : L.Pairwise (· < ·)) (hrange : ∀ x ∈ L, x < 2 * M)
    (hbuf : st.sparse_int_buf_subs.length = 2 * M)
    (hlist : st.sparse_int_buf_subs.take L.length = L) :
    (∃ st2, writeStepSubset .SH true minor minor_full .sparseHaplotype L.length M st
      = .ok (⟨.sparseHaplotype,
          .sparse ((List.range (2 * M)).filter (fun x => decide (x ∉ L)))⟩, st2)) ∧
    ((List.range (2 * M)).filter (fun x => decide (x ∉ L))).Pairwise (· < ·) ∧
    (∀ x, x ∈ (List.range (2 * M)).filter (fun x => decide (x ∉ L)) ↔ x < 2 * M ∧ x ∉ L) ∧
    ((List.range (2 * M)).filter (fun x => decide (x ∉ L))).length = 2 * M - L.length := by
  obtain ⟨h1, h2⟩ := complementSparse_eq M L st.sparse_int_buf_subs hM hsorted hrange hbuf hlist
  refine ⟨?_, List.Pairwise.filter _ (List.pairwise_lt_range _), ?_, ?_⟩
  · unfold writeStepSubset
    simp only [hflip, ne_eq, not_false_eq_true, if_true]
    exact ⟨{ st with
      sparse_int_buf_subs := (complementSparse M L.length st.sparse_int_buf_subs).1 },
      by simp [h1]⟩
  · intro x
    rw [List.mem_filter, List.mem_range]
    simp
  · omega

set_option maxRecDepth 100000 in
theorem subset_sparse_haplotype_complement_witness :
    ∃ st2, writeStepSubset .SH true true false .sparseHaplotype ([1, 4] : List Nat).length 3
        ⟨Buffers.fresh 4, List.replicate 6 false, [1, 4, 0, 0, 0, 0]⟩
      = .ok (⟨.sparseHaplotype,
          .sparse ((List.range (2 * 3)).filter (fun x => decide (x ∉ ([1, 4] : List Nat))))⟩,
          st2) :=
  (subset_sparse_haplotype_complement 3 [1, 4] true false
    ⟨Buffers.fresh 4, List.replicate 6 false, [1, 4, 0, 0, 0, 0]⟩ (by decide) (by decide)
    (by decide) (by decide) rfl rfl).1

/-! ## Properties of the merge-back: the worklist -/

theorem mapGet_mapPut {V : Type} (m : List (Nat × V)) (k : Nat) (v : V) (k2 : Nat) :
    mapGet (mapPut m k v) k2 = if k2 = k then some v else mapGet m k2 := by
  induction m with
  | nil =>
    simp only [mapPut, mapGet]
  | cons a m ih =>
    obtain ⟨k1, v1⟩ := a
    unfold mapPut
    by_cases h1 : k < k1
    · simp only [h1, if_true]
      simp only [mapGet]
    · simp only [h1, if_false]
      by_cases h2 : k = k1
      · subst h2
        simp only [if_true, mapGet]
        by_cases h3 : k2 = k
        · simp [h3]
        · simp [h3]
      · simp only [h2, if_false, mapGet, ih]
        by_cases h3 : k2 = k1
        · have hne : ¬ k1 = k := fun hc => h2 hc.symm
          simp [h3, hne]
        · simp [h3]

/-- The corrected call stored in the worklist for the line `line` and the
sample `i`, if there is one. -/
theorem insert_in_work_get (work : List (Nat × VCFLineWork)) (hi : HetInfo) (id : Nat)
    (line : Nat) :
    mapGet (insert_in_work work hi id) line
      = if line = sizeT hi.vcf_line then
          some ⟨((mapGet work line).map VCFLineWork.vcf_line_num).getD line,
            mapPut (((mapGet work line).map VCFLineWork.updated_data).getD []) id hi⟩
        else mapGet work line := by
  unfold insert_in_work
  cases hw : mapGet work (sizeT hi.vcf_line) with
  | none =>
    simp only [mapGet_mapPut]
    by_cases h : line = sizeT hi.vcf_line
    · subst h
      simp [hw]
    · simp [h]
  | some w =>
    simp only [mapGet_mapPut]
    by_cases h : line = sizeT hi.vcf_line
    · subst h
      simp [hw]
    · simp [h]

theorem workEntry_insert (work : List (Nat × VCFLineWork)) (hi : HetInfo) (id line i : Nat) :
    workEntry (insert_in_work work hi id) line i
      = if line = sizeT hi.vcf_line ∧ i = id then some hi else workEntry work line i := by
  unfold workEntry
  rw [insert_in_work_get]
  by_cases h : line = sizeT hi.vcf_line
  · subst h
    rw [if_pos rfl]
    show mapGet (mapPut _ id hi) i = _
    rw [mapGet_mapPut]
    by_cases h2 : i = id
    · rw [if_pos h2, if_pos ⟨rfl, h2⟩]
    · rw [if_neg h2, if_neg (fun hc => h2 hc.2)]
      cases mapGet work (sizeT hi.vcf_line) with
      | none => rfl
      | some w => rfl
  · rw [if_neg h, if_neg (fun hc => h hc.1)]

theorem line_num_insert (work : List (Nat × VCFLineWork)) (hi : HetInfo) (id : Nat)
    (h : ∀ line w, mapGet work line = some w → w.vcf_line_num = line) :
    ∀ line w, mapGet (insert_in_work work hi id) line = some w → w.vcf_line_num = line := by
  intro line w hw
  rw [insert_in_work_get] at hw
  by_cases hl : line = sizeT hi.vcf_line
  · simp only [hl, if_true, Option.some.injEq] at hw
    subst hw
    simp only
    cases hg : mapGet work (sizeT hi.vcf_line) with
    | none => simp [hl]
    | some w0 => simp [h _ w0 hg, hl]
  · simp only [hl, if_false] at hw
    exact h line w hw

/-- What the loop over the calls of sample `s` does to the worklist. -/
theorem fillSample_spec (s : Nat) (his : List HetInfo) :
    ∀ work : List (Nat × VCFLineWork),
      ((∀ line w, mapGet work line = some w → w.vcf_line_num = line) →
        ∀ line w, mapGet (fillSample work his s) line = some w → w.vcf_line_num = line) ∧
      (∀ line i e, workEntry (fillSample work his s) line i = some e →
        workEntry work line i = some e ∨
          (i = s ∧ e ∈ his ∧ e.pp.isNaN = false ∧ F32.gt e.pp F32.one = true ∧
            sizeT e.vcf_line = line)) ∧
      (∀ line i, ((workEntry work line i).isSome = true ∨
          (i = s ∧ ∃ e ∈ his, e.pp.isNaN = false ∧ F32.gt e.pp F32.one = true ∧
            sizeT e.vcf_line = line)) →
        (workEntry (fillSample work his s) line i).isSome = true) := by
  induction his with
  | nil =>
    intro work
    refine ⟨fun h => h, fun line i e h => Or.inl h, ?_⟩
    intro line i h
    rcases h with h | ⟨_, e, he, _⟩
    · exact h
    · simp at he
  | cons hi his ih =>
    intro work
    have hunf : fillSample work (hi :: his) s
        = fillSample (if (!hi.pp.isNaN && F32.gt hi.pp F32.one) = true
            then insert_in_work work hi s else work) his s := rfl
    rw [hunf]
    obtain ⟨ih1, ih2, ih3⟩ := ih (if (!hi.pp.isNaN && F32.gt hi.pp F32.one) = true
      then insert_in_work work hi s else work)
    by_cases hq : (!hi.pp.isNaN && F32.gt hi.pp F32.one) = true
    · simp only [hq, if_true] at ih1 ih2 ih3 ⊢
      have hq2 : hi.pp.isNaN = false ∧ F32.gt hi.pp F32.one = true := by
        simpa using hq
      refine ⟨fun h => ih1 (line_num_insert work hi s h), ?_, ?_⟩
      · intro line i e he
        rcases ih2 line i e he with h | ⟨h1, h2, h3⟩
        · rw [workEntry_insert] at h
          by_cases hc : line = sizeT hi.vcf_line ∧ i = s
          · simp only [hc, and_self, if_true, Option.some.injEq] at h
            subst h
            exact Or.inr ⟨hc.2, List.mem_cons_self _ _, hq2.1, hq2.2, hc.1.symm⟩
          · rw [if_neg hc] at h
            exact Or.inl h
        · exact Or.inr ⟨h1, List.mem_cons_of_mem _ h2, h3⟩
      · intro line i h
        apply ih3
        rcases h with h | ⟨h1, e, he, h2, h3, h4⟩
        · left
          rw [workEntry_insert]
          split
          · rfl
          · exact h
        · rcases List.mem_cons.1 he with hc | hc
          · left
            subst hc
            rw [workEntry_insert, if_pos ⟨h4.symm, h1⟩]
            rfl
          · exact Or.inr ⟨h1, e, hc, h2, h3, h4⟩
    · simp only [hq, if_false] at ih1 ih2 ih3 ⊢
      refine ⟨ih1, ?_, ?_⟩
      · intro line i e he
        rcases ih2 line i e he with h | ⟨h1, h2, h3⟩
        · exact Or.inl h
        · exact Or.inr ⟨h1, List.mem_cons_of_mem _ h2, h3⟩
      · intro line i h
        apply ih3
        rcases h with h | ⟨h1, e, he, h2, h3, h4⟩
        · exact Or.inl h
        · rcases List.mem_cons.1 he with hc | hc
          · subst hc
            exfalso
            apply hq
            simp [h2, h3]
          · exact Or.inr ⟨h1, e, hc, h2, h3, h4⟩

/-- What the loop over the first `k` samples does to the worklist. -/
theorem fill_work_spec (blocks : List (List HetInfo)) (work : List (Nat × VCFLineWork)) :
    ∀ k : Nat,
      ((∀ line w, mapGet work line = some w → w.vcf_line_num = line) →
        ∀ line w, mapGet ((List.range k).foldl
            (fun w i => fillSample w (blocks.getD i []) i) work) line = some w →
          w.vcf_line_num = line) ∧
      (∀ line i e, workEntry ((List.range k).foldl
            (fun w i => fillSample w (blocks.getD i []) i) work) line i = some e →
        workEntry work line i = some e ∨
          (i < k ∧ e ∈ blocks.getD i [] ∧ e.pp.isNaN = false ∧ F32.gt e.pp F32.one = true ∧
            sizeT e.vcf_line = line)) ∧
      (∀ line i, ((workEntry work line i).isSome = true ∨
          (i < k ∧ ∃ e ∈ blocks.getD i [], e.pp.isNaN = false ∧ F32.gt e.pp F32.one = true ∧
            sizeT e.vcf_line = line)) →
        (workEntry ((List.range k).foldl
            (fun w i => fillSample w (blocks.getD i []) i) work) line i).isSome = true) := by
  intro k
  induction k with
  | zero =>
    refine ⟨fun h => h, fun line i e h => Or.inl h, ?_⟩
    intro line i h
    rcases h with h | ⟨h, _⟩
    · exact h
    · omega
  | succ k ih =>
    obtain ⟨ih1, ih2, ih3⟩ := ih
    rw [List.range_succ, List.foldl_append]
    simp only [List.foldl_cons, List.foldl_nil]
    obtain ⟨f1, f2, f3⟩ := fillSample_spec k (blocks.getD k [])
      ((List.range k).foldl (fun w i => fillSample w (blocks.getD i []) i) work)
    refine ⟨fun h => f1 (ih1 h), ?_, ?_⟩
    · intro line i e he
      rcases f2 line i e he with h | ⟨h1, h2, h3⟩
      · rcases ih2 line i e h with h | ⟨h1, h2⟩
        · exact Or.inl h
        · exact Or.inr ⟨by omega, h2⟩
      · subst h1
        exact Or.inr ⟨by omega, h2, h3⟩
    · intro line i h
      apply f3
      rcases h with h | ⟨h1, h2⟩
      · exact Or.inl (ih3 line i (Or.inl h))
      · by_cases hik : i = k
        · subst hik
          exact Or.inr ⟨rfl, h2⟩
        · exact Or.inl (ih3 line i (Or.inr ⟨by omega, h2⟩))

theorem workEntry_nil (line i : Nat) : workEntry [] line i = none := rfl

theorem getD_nil_of_le (blocks : List (List HetInfo)) (i : Nat) (h : blocks.length ≤ i) :
    blocks.getD i [] = [] := by
  rw [List.getD_eq_getElem?_getD, List.getElem?_eq_none h]
  rfl

/-- Every line of a worklist built by `fill_work_from_himm` carries its own key. -/
theorem fill_work_line_num (blocks : List (List HetInfo)) (line : Nat) (w : VCFLineWork)
    (h : mapGet (fill_work_from_himm [] blocks) line = some w) : w.vcf_line_num = line := by
  apply (fill_work_spec blocks [] blocks.length).1 _ line w h
  intro l w0 h0
  simp [mapGet] at h0

/-- C26: `fill_work_from_himm` puts an entry for the line `line` and the sample
`i` in the worklist if and only if the block of sample `i` holds a call with that
line number whose confidence is not NaN and is greater than `1.0`; the entry
stored is such a call; a confidence of exactly `1.0` does not pass the test. -/
theorem worklist_membership (blocks : List (List HetInfo)) (line i : Nat) :
    ((∃ w hi, mapGet (fill_work_from_himm [] blocks) line = some w ∧
        mapGet w.updated_data i = some hi) ↔
      (∃ hi ∈ blocks.getD i [], sizeT hi.vcf_line = line ∧ hi.pp.isNaN = false ∧
        F32.gt hi.pp F32.one = true)) ∧
    (∀ w hi, mapGet (fill_work_from_himm [] blocks) line = some w →
      mapGet w.updated_data i = some hi →
      hi ∈ blocks.getD i [] ∧ sizeT hi.vcf_line = line ∧ hi.pp.isNaN = false ∧
        F32.gt hi.pp F32.one = true) ∧
    F32.gt F32.one F32.one = false := by
  obtain ⟨_, s2, s3⟩ := fill_work_spec blocks [] blocks.length
  have hval : ∀ w hi, mapGet (fill_work_from_himm [] blocks) line = some w →
      mapGet w.updated_data i = some hi →
      hi ∈ blocks.getD i [] ∧ sizeT hi.vcf_line = line ∧ hi.pp.isNaN = false ∧
        F32.gt hi.pp F32.one = true := by
    intro w hi hw hhi
    have he : workEntry (fill_work_from_himm [] blocks) line i = some hi := by
      unfold workEntry
      rw [hw]
      exact hhi
    rcases s2 line i hi he with h | ⟨_, h1, h2, h3, h4⟩
    · rw [workEntry_nil] at h
      cases h
    · exact ⟨h1, h4, h2, h3⟩
  refine ⟨⟨?_, ?_⟩, hval, by decide⟩
  · rintro ⟨w, hi, hw, hhi⟩
    obtain ⟨h1, h2, h3, h4⟩ := hval w hi hw hhi
    exact ⟨hi, h1, h2, h3, h4⟩
  · rintro ⟨hi, h1, h2, h3, h4⟩
    have hlt : i < blocks.length := by
      by_contra hc
      rw [getD_nil_of_le blocks i (by omega)] at h1
      simp at h1
    have hs := s3 line i (Or.inr ⟨hlt, hi, h1, h3, h4, h2⟩)
    have hs2 : (workEntry (fill_work_from_himm [] blocks) line i).isSome = true := hs
    unfold workEntry at hs2
    cases hw : mapGet (fill_work_from_himm [] blocks) line with
    | none => rw [hw] at hs2; simp at hs2
    | some w =>
      rw [hw] at hs2
      change (mapGet w.updated_data i).isSome = true at hs2
      cases hg : mapGet w.updated_data i with
      | none => rw [hg] at hs2; simp at hs2
      | some e => exact ⟨w, e, rfl, hg⟩

/-! ## Properties of the merge-back: the record loop -/

theorem mergeAll_genotype (type : RecordType)
    (htype : type = .binaryGenotype ∨ type = .sparseGenotype) (st : MergeState)
    (todo : Nat × HetInfo) (rest : List (Nat × HetInfo)) :
    mergeAll type st (todo :: rest) = .error "Binary genotype is for unphased data" := by
  rcases htype with h | h <;> subst h <;> rfl

set_option maxRecDepth 100000 in
/-- C25: two samples, mode BG, a binary genotype record with the pairs
`(0,1),(0,0)`, and a side-channel file with a corrected call for each of the two
samples on the line of the record. The call of `vrb.error` for the first pair
(line 187) ends the run: no error is reported for the second pair, the `errors++`
of line 188 is not reached and the counter stays `0`, and the record is not
written. For every record of a genotype type the loop over the pairs of a line
ends at its first pair. -/
theorem genotype_merge_stops_at_first_pair :
    fill_work_from_himm [] [[⟨0, 3, 5, ppTwo⟩], [⟨0, 5, 3, ppTwo⟩]]
      = [(0, ⟨0, [(0, ⟨0, 3, 5, ppTwo⟩), (1, ⟨0, 5, 3, ppTwo⟩)]⟩)] ∧
    convertSapphire .BG F32.half twoSamples
        [⟨.binaryGenotype, af025, [false, true, false, false], []⟩]
        [[⟨0, 3, 5, ppTwo⟩], [⟨0, 5, 3, ppTwo⟩]]
      = { out := { header := some (.all ["s0", "s1"]), records := [],
                   error := some "Binary genotype is for unphased data" },
          errors := 0, updated_gts := 0 } ∧
    ∀ (type : RecordType) (st : MergeState) (todo : Nat × HetInfo) (rest : List (Nat × HetInfo)),
      type = .binaryGenotype ∨ type = .sparseGenotype →
        mergeAll type st (todo :: rest) = .error "Binary genotype is for unphased data" := by
  refine ⟨by decide, by decide, ?_⟩
  intro type st todo rest htype
  exact mergeAll_genotype type htype st todo rest

theorem sapphireLoop_congr (mode : ConvMode) (minmaf : F32) (nsamples : Nat)
    (work1 work2 : List (Nat × VCFLineWork)) :
    ∀ (records : List XcfRecord) (line_counter : Nat) (st : MergeState),
      (∀ k, line_counter ≤ k → k < line_counter + records.length →
        mapGet work1 k = mapGet work2 k) →
      sapphireLoop mode minmaf nsamples work1 line_counter st records
        = sapphireLoop mode minmaf nsamples work2 line_counter st records := by
  intro records
  induction records with
  | nil => intro _ _ _; rfl
  | cons rec rest ih =>
    intro line_counter st h
    have h0 : mapGet work1 line_counter = mapGet work2 line_counter :=
      h line_counter (Nat.le_refl _) (by simp)
    have hrec : sapphireRecord mode minmaf nsamples work1 line_counter st rec
        = sapphireRecord mode minmaf nsamples work2 line_counter st rec := by
      unfold sapphireRecord applyWork
      rw [h0]
    unfold sapphireLoop
    rw [hrec]
    cases sapphireRecord mode minmaf nsamples work2 line_counter st rec with
    | error e => rfl
    | ok r =>
      obtain ⟨w, st1⟩ := r
      simp only
      rw [ih (line_counter + 1) st1 (fun k h1 h2 => h k (by omega)
        (by simp only [List.length_cons]; omega))]

/-- C27 (amended): a line of the worklist that matches no record of the record
source is never looked up: two side-channel files whose worklists agree on the
line numbers below the number of records give the same records written, the
same error outcome and the same counters. -/
theorem unmatched_lines_have_no_effect (mode : ConvMode) (minmaf : F32) (hdr : SampleVectors)
    (records : List XcfRecord) (blocks1 blocks2 : List (List HetInfo))
    (h : ∀ k, k < records.length →
      mapGet (fill_work_from_himm [] blocks1) k = mapGet (fill_work_from_himm [] blocks2) k) :
    convertSapphire mode minmaf hdr records blocks1
      = convertSapphire mode minmaf hdr records blocks2 := by
  unfold convertSapphire
  simp only
  rw [sapphireLoop_congr mode minmaf hdr.ind_names.length _ _ records 0 _
    (fun k _ h2 => h k (by omega))]

set_option maxRecDepth 100000 in
theorem unmatched_lines_have_no_effect_witness :
    convertSapphire .BH F32.half twoSamples
        [⟨.binaryHaplotype, af025, [false, true, false, false], []⟩] [[⟨5, 5, 3, ppTwo⟩]]
      = convertSapphire .BH F32.half twoSamples
        [⟨.binaryHaplotype, af025, [false, true, false, false], []⟩] [] :=
  unmatched_lines_have_no_effect .BH F32.half twoSamples
    [⟨.binaryHaplotype, af025, [false, true, false, false], []⟩] [[⟨5, 5, 3, ppTwo⟩]] []
    (by decide)

set_option maxRecDepth 100000 in
/-- C27 (as stated, refuted): one record, and a side-channel file whose only
corrected call has line number 5. The worklist holds the line 5, which matches
no record, and the conversion ends without an error, with the record written
and both counters at zero. -/
theorem worklist_line_without_record_ignored :
    (mapGet (fill_work_from_himm [] [[⟨5, 5, 3, ppTwo⟩]]) 5).isSome = true ∧
    convertSapphire .BH F32.half twoSamples
        [⟨.binaryHaplotype, af025, [false, true, false, false], []⟩] [[⟨5, 5, 3, ppTwo⟩]]
      = { out := { header := some (.all ["s0", "s1"]),
                   records := [⟨.binaryHaplotype, .dense [false, true, false, false]⟩],
                   error := none },
          errors := 0, updated_gts := 0 } := by
  decide

set_option maxRecDepth 100000 in
/-- C22: two samples, mode SH, a rare sparse haplotype record with the list
`[3]` (sample 1), and a corrected call for sample 0 on that line. Neither slot of
sample 0 is in the list, but `std::find` runs over the whole vector
`[3, 0, 0, 0]` and finds the `0` behind the list: no error is reported, and the
run ends without an error with the record written. -/
theorem sparse_haplotype_merge_no_error_reported :
    stdFind 0 [3, 0, 0, 0] = some 1 ∧ stdFind 1 [3, 0, 0, 0] = none ∧
    convertSapphire .SH F32.half twoSamples [⟨.sparseHaplotype, af025, [], [3]⟩]
        [[⟨0, 3, 5, ppTwo⟩]]
      = { out := { header := some (.all ["s0", "s1"]),
                   records := [⟨.sparseHaplotype, .sparse [3]⟩], error := none },
          errors := 0, updated_gts := 0 } := by
  decide

set_option maxRecDepth 100000 in
/-- C23: two samples, mode SH, the first record of the run, a rare sparse
haplotype record with the list `[1]` (sample 0, second slot), and a corrected
call for sample 0 with the non-zero code `a0 = 5`. Exactly one slot of sample 0
is in the list, but the search also finds the `0` behind the list in
`[1, 0, 0, 0]`: the sample is taken as hom alt, the call of `vrb.error` of line
208 ends the run, and the entry `1` of the list is never replaced by `0`. -/
theorem sparse_haplotype_merge_misses_entry :
    stdFind 0 [1, 0, 0, 0] = some 1 ∧ stdFind 1 [1, 0, 0, 0] = some 0 ∧
    convertSapphire .SH F32.half twoSamples [⟨.sparseHaplotype, af025, [], [1]⟩]
        [[⟨0, 5, 3, ppTwo⟩]]
      = { out := { header := some (.all ["s0", "s1"]), records := [],
                   error := some "Sample is hom alt, cannot rephase)" },
          errors := 0, updated_gts := 0 } := by
  decide

set_option maxRecDepth 100000 in
/-- C24: two samples, mode BH, a binary haplotype record with the bits
`(0,1),(0,0)` and a corrected call for sample 0 with the phased codes of the
pair `(1,0)`, `a0 = 5` and `a1 = 3`. The two slots are written `(1,1)`, not
`(1,0)`: both codes are non-zero. When the stored pair is already `(1,0)` the
stored bit `1` still differs from the code `5`: an update is counted and the
pair becomes `(1,1)`. -/
theorem binary_haplotype_merge_sets_both_slots :
    bcf_gt_phased true = 5 ∧ bcf_gt_phased false = 3 ∧
    bcf_gt_allele 5 = 1 ∧ bcf_gt_allele 3 = 0 ∧
    convertSapphire .BH F32.half twoSamples
        [⟨.binaryHaplotype, af025, [false, true, false, false], []⟩]
        [[⟨0, bcf_gt_phased true, bcf_gt_phased false, ppTwo⟩]]
      = { out := { header := some (.all ["s0", "s1"]),
                   records := [⟨.binaryHaplotype, .dense [true, true, false, false]⟩],
                   error := none },
          errors := 0, updated_gts := 1 } ∧
    mergeBinaryHaplotype ⟨⟨[true, false, false, false], [0, 0, 0, 0]⟩, 0, 0⟩ 0
        ⟨0, bcf_gt_phased true, bcf_gt_phased false, ppTwo⟩
      = ⟨⟨[true, true, false, false], [0, 0, 0, 0]⟩, 0, 1⟩ := by
  decide

/-! ## Properties of the merge-back: errors and the line check -/

theorem mem_mapPut {V : Type} (m : List (Nat × V)) (k : Nat) (v : V) (q : Nat × V)
    (h : q ∈ mapPut m k v) : q = (k, v) ∨ q ∈ m := by
  induction m with
  | nil =>
    simp only [mapPut, List.mem_singleton] at h
    exact Or.inl h
  | cons a m ih =>
    obtain ⟨k1, v1⟩ := a
    unfold mapPut at h
    by_cases h1 : k < k1
    · simp only [h1, if_true, List.mem_cons] at h
      rcases h with h | h | h
      · exact Or.inl h
      · exact Or.inr (by simp [h])
      · exact Or.inr (by simp [h])
    · simp only [h1, if_false] at h
      by_cases h2 : k = k1
      · simp only [h2, if_true, List.mem_cons] at h
        rcases h with h | h
        · exact Or.inl (by rw [h, h2])
        · exact Or.inr (by simp [h])
      · simp only [h2, if_false, List.mem_cons] at h
        rcases h with h | h
        · exact Or.inr (by simp [h])
        · rcases ih h with h3 | h3
          · exact Or.inl h3
          · exact Or.inr (by simp [h3])

theorem mapGet_mem {V : Type} (m : List (Nat × V)) (k : Nat) (v : V)
    (h : mapGet m k = some v) : (k, v) ∈ m := by
  induction m with
  | nil => simp [mapGet] at h
  | cons a m ih =>
    obtain ⟨k1, v1⟩ := a
    unfold mapGet at h
    by_cases h1 : k = k1
    · simp only [h1, if_true, Option.some.injEq] at h
      subst h
      simp [h1]
    · simp only [h1, if_false] at h
      exact List.mem_cons_of_mem _ (ih h)

theorem insert_in_work_keys (work : List (Nat × VCFLineWork)) (hi : HetInfo) (id : Nat)
    (h : ∀ q ∈ work, q.2.vcf_line_num = q.1) :
    ∀ q ∈ insert_in_work work hi id, q.2.vcf_line_num = q.1 := by
  intro q hq
  unfold insert_in_work at hq
  cases hw : mapGet work (sizeT hi.vcf_line) with
  | none =>
    rw [hw] at hq
    rcases mem_mapPut _ _ _ _ hq with h1 | h1
    · rw [h1]
    · exact h q h1
  | some w =>
    rw [hw] at hq
    rcases mem_mapPut _ _ _ _ hq with h1 | h1
    · rw [h1]
      exact h (sizeT hi.vcf_line, w) (mapGet_mem _ _ _ hw)
    · exact h q h1

theorem fillSample_keys (his : List HetInfo) (i : Nat) :
    ∀ work : List (Nat × VCFLineWork), (∀ q ∈ work, q.2.vcf_line_num = q.1) →
      ∀ q ∈ fillSample work his i, q.2.vcf_line_num = q.1 := by
  induction his with
  | nil => intro work h; exact h
  | cons hi his ih =>
    intro work h
    have hunf : fillSample work (hi :: his) i
        = fillSample (if (!hi.pp.isNaN && F32.gt hi.pp F32.one) = true
            then insert_in_work work hi i else work) his i := rfl
    rw [hunf]
    apply ih
    split
    · exact insert_in_work_keys work hi i h
    · exact h

theorem fill_work_keys (blocks : List (List HetInfo)) :
    ∀ q ∈ fill_work_from_himm [] blocks, q.2.vcf_line_num = q.1 := by
  have gen : ∀ k, ∀ q ∈ (List.range k).foldl
      (fun w i => fillSample w (blocks.getD i []) i) ([] : List (Nat × VCFLineWork)),
      q.2.vcf_line_num = q.1 := by
    intro k
    induction k with
    | zero => intro q hq; simp at hq
    | succ k ih =>
      rw [List.range_succ, List.foldl_append]
      exact fillSample_keys _ _ _ ih
  exact gen blocks.length

/-- The lookup of a line in a worklist built by `fill_work_from_himm` never
takes the error branch: every corrected call of the line is applied. -/
theorem applyWork_ok (blocks : List (List HetInfo)) (line_counter : Nat) (type : RecordType)
    (st : MergeState) :
    applyWork (fill_work_from_himm [] blocks) line_counter type st
      = match mapGet (fill_work_from_himm [] blocks) line_counter with
        | none => .ok st
        | some w => mergeAll type st w.updated_data := by
  unfold applyWork
  cases hw : mapGet (fill_work_from_himm [] blocks) line_counter with
  | none => rfl
  | some w =>
    have hk := fill_work_keys blocks _ (mapGet_mem _ _ _ hw)
    simp only at hk
    simp [hk]

theorem mergeSparseHaplotype_error (st : MergeState) (idx : Nat) (hi : HetInfo) (e : String)
    (h : mergeSparseHaplotype st idx hi = .error e) :
    e = "Sample is hom alt, cannot rephase)" ∨ e = "Sample is hom ref, cannot rephase" := by
  unfold mergeSparseHaplotype at h
  simp only at h
  split at h
  · injection h with h
    exact Or.inl h.symm
  · split at h
    · injection h with h
      exact Or.inr h.symm
    · split at h <;> cases h

theorem mergeEntry_error (type : RecordType) (st : MergeState) (todo : Nat × HetInfo)
    (e : String) (h : mergeEntry type st todo = .error e) :
    e = "Binary genotype is for unphased data" ∨ e = "Sample is hom alt, cannot rephase)"
      ∨ e = "Sample is hom ref, cannot rephase" := by
  cases type <;> simp only [mergeEntry] at h
  · cases h
  · injection h with h
    exact Or.inl h.symm
  · cases h
  · injection h with h
    exact Or.inl h.symm
  · exact Or.inr (mergeSparseHaplotype_error _ _ _ _ h)
  · cases h

theorem mergeAll_error (type : RecordType) (l : List (Nat × HetInfo)) :
    ∀ (st : MergeState) (e : String), mergeAll type st l = .error e →
      e = "Binary genotype is for unphased data" ∨ e = "Sample is hom alt, cannot rephase)"
        ∨ e = "Sample is hom ref, cannot rephase" := by
  induction l with
  | nil => intro st e h; cases h
  | cons todo rest ih =>
    intro st e h
    unfold mergeAll at h
    cases hm : mergeEntry type st todo with
    | error e1 =>
      rw [hm] at h
      injection h with h
      subst h
      exact mergeEntry_error _ _ _ _ hm
    | ok st1 =>
      rw [hm] at h
      exact ih st1 e h

theorem writeStepSapphire_error (mode : ConvMode) (rare minor : Bool) (type : RecordType)
    (nsamples n_elements : Nat) (st : Buffers) (e : String)
    (h : writeStepSapphire mode rare minor type nsamples n_elements st = .error e) :
    e = "Converting non-genotype type to genotype type!"
      ∨ e = "Converting non-haplotype type to haplotype type!" := by
  unfold writeStepSapphire at h
  split_ifs at h <;> first
    | (cases h; done)
    | (injection h with h; exact Or.inl h.symm)
    | (injection h with h; exact Or.inr h.symm)

theorem sapphireRecord_error (mode : ConvMode) (minmaf : F32) (nsamples : Nat)
    (blocks : List (List HetInfo)) (line_counter : Nat) (st : MergeState) (rec : XcfRecord)
    (e : String)
    (h : sapphireRecord mode minmaf nsamples (fill_work_from_himm [] blocks) line_counter st rec
      = .error e) :
    e ≠ "Work line is different from line counter !" := by
  unfold sapphireRecord at h
  unfold parseGenotypesSapphire at h
  by_cases hb : rec.type = .bcfvcfGenotype
  · simp only [hb, if_true] at h
    cases h
    decide
  · simp only [hb, if_false] at h
    cases ha : applyWork (fill_work_from_himm [] blocks) line_counter rec.type
        { st with bufs := (parse_genotypes nsamples st.bufs rec).1 } with
    | error e1 =>
      rw [ha] at h
      injection h with h
      subst h
      rw [applyWork_ok] at ha
      split at ha
      · cases ha
      · rcases mergeAll_error _ _ _ _ ha with h1 | h1 | h1 <;> rw [h1] <;> decide
    | ok st1 =>
      rw [ha] at h
      simp only at h
      split at h
      · rename_i e1 hw
        cases h
        rcases writeStepSapphire_error _ _ _ _ _ _ _ _ hw with h1 | h1 <;> rw [h1] <;> decide
      · cases h

theorem sapphireLoop_no_line_error (mode : ConvMode) (minmaf : F32) (nsamples : Nat)
    (blocks : List (List HetInfo)) :
    ∀ (records : List XcfRecord) (line_counter : Nat) (st : MergeState),
      (sapphireLoop mode minmaf nsamples (fill_work_from_himm [] blocks) line_counter st
        records).2.1 ≠ some "Work line is different from line counter !" := by
  intro records
  induction records with
  | nil => intro _ _; simp [sapphireLoop]
  | cons rec rest ih =>
    intro line_counter st
    unfold sapphireLoop
    cases hrec : sapphireRecord mode minmaf nsamples (fill_work_from_himm [] blocks)
        line_counter st rec with
    | error e =>
      simp only [ne_eq, Option.some.injEq]
      exact sapphireRecord_error _ _ _ _ _ _ _ _ hrec
    | ok r =>
      obtain ⟨w, st1⟩ := r
      exact ih (line_counter + 1) st1

/-- C40: every entry of the worklist built by `fill_work_from_himm` has
`vcf_line_num` equal to the key under which it is stored, so the lookup of a
line never takes the branch for a differing `vcf_line_num`: it goes into the
loop over the corrected calls of the line, and no run of the merge-back
conversion ends with the message of that branch. -/
theorem work_line_check_unreachable (blocks : List (List HetInfo)) :
    (∀ q ∈ fill_work_from_himm [] blocks, q.2.vcf_line_num = q.1) ∧
    (∀ (line_counter : Nat) (w : VCFLineWork),
      mapGet (fill_work_from_himm [] blocks) line_counter = some w →
        ¬ (w.vcf_line_num ≠ line_counter)) ∧
    (∀ (line_counter : Nat) (type : RecordType) (st : MergeState),
      applyWork (fill_work_from_himm [] blocks) line_counter type st
        = match mapGet (fill_work_from_himm [] blocks) line_counter with
          | none => .ok st
          | some w => mergeAll type st w.updated_data) ∧
    ∀ (mode : ConvMode) (minmaf : F32) (hdr : SampleVectors) (records : List XcfRecord),
      (convertSapphire mode minmaf hdr records blocks).out.error
        ≠ some "Work line is different from line counter !" := by
  refine ⟨fill_work_keys blocks, ?_, applyWork_ok blocks, ?_⟩
  · intro line_counter w hw hne
    exact hne (fill_work_keys blocks _ (mapGet_mem _ _ _ hw))
  · intro mode minmaf hdr records
    exact sapphireLoop_no_line_error mode minmaf _ blocks records 0 _

theorem mergeSparseHaplotype_errors (st st1 : MergeState) (idx : Nat) (hi : HetInfo)
    (h : mergeSparseHaplotype st idx hi = .ok st1) : st1.errors = st.errors := by
  unfold mergeSparseHaplotype at h
  simp only at h
  split at h
  · cases h
  · split at h
    · cases h
    · split at h
      · injection h with h
        rw [← h]
      · injection h with h
        rw [← h]

theorem mergeEntry_errors (type : RecordType) (st st1 : MergeState) (todo : Nat × HetInfo)
    (h : mergeEntry type st todo = .ok st1) : st1.errors = st.errors := by
  cases type <;> simp only [mergeEntry] at h
  · injection h with h
    rw [← h]
  · cases h
  · injection h with h
    rw [← h]
    unfold mergeBinaryHaplotype
    simp only
    split <;> rfl
  · cases h
  · exact mergeSparseHaplotype_errors _ _ _ _ h
  · injection h with h
    rw [← h]

theorem mergeAll_errors (type : RecordType) (l : List (Nat × HetInfo)) :
    ∀ (st st1 : MergeState), mergeAll type st l = .ok st1 → st1.errors = st.errors := by
  induction l with
  | nil =>
    intro st st1 h
    injection h with h
    rw [← h]
  | cons todo rest ih =>
    intro st st1 h
    unfold mergeAll at h
    cases hm : mergeEntry type st todo with
    | error e =>
      rw [hm] at h
      cases h
    | ok st2 =>
      rw [hm] at h
      rw [ih st2 st1 h, mergeEntry_errors _ _ _ _ hm]

theorem sapphireRecord_errors (mode : ConvMode) (minmaf : F32) (nsamples : Nat)
    (work : List (Nat × VCFLineWork)) (line_counter : Nat) (st st1 : MergeState)
    (rec : XcfRecord) (w : Written)
    (h : sapphireRecord mode minmaf nsamples work line_counter st rec = .ok (w, st1)) :
    st1.errors = st.errors := by
  unfold sapphireRecord at h
  simp only at h
  split at h
  · cases h
  · rename_i r hr
    split at h
    · cases h
    · rename_i st2 ha
      split at h
      · cases h
      · rename_i w1 b hw
        injection h with h
        injection h with h1 h2
        rw [← h2]
        simp only
        unfold applyWork at ha
        split at ha
        · injection ha with ha
          rw [← ha]
        · split at ha
          · cases ha
          · rw [mergeAll_errors _ _ _ _ ha]

theorem sapphireLoop_errors (mode : ConvMode) (minmaf : F32) (nsamples : Nat)
    (work : List (Nat × VCFLineWork)) :
    ∀ (records : List XcfRecord) (line_counter : Nat) (st : MergeState),
      (sapphireLoop mode minmaf nsamples work line_counter st records).2.2.errors
        = st.errors := by
  intro records
  induction records with
  | nil => intro _ _; rfl
  | cons rec rest ih =>
    intro line_counter st
    unfold sapphireLoop
    cases hrec : sapphireRecord mode minmaf nsamples work line_counter st rec with
    | error e => rfl
    | ok r =>
      obtain ⟨w, st1⟩ := r
      simp only
      rw [ih (line_counter + 1) st1, sapphireRecord_errors _ _ _ _ _ _ _ _ _ hrec]

set_option maxRecDepth 100000 in
/-- C35: four samples, mode SH, two rare sparse haplotype records and a
side-channel file with one corrected call, for sample 1 on the line of the first
record, whose list `[2, 3]` holds both slots of the sample. The call of
`vrb.error` of line 208 ends the run: neither the first record nor the one after
it is written, although without the side-channel file both are; the same holds
for a corrected call on the line of a binary genotype record (line 187). The
`errors++` behind each call is not reached: the counter is `0` at the end of
every run. -/
theorem merge_violation_ends_run :
    convertSapphire .SH F32.half fourSamples
        [⟨.sparseHaplotype, af025, [], [2, 3]⟩, ⟨.sparseHaplotype, af025, [], [1, 6]⟩]
        [[], [⟨0, 5, 3, ppTwo⟩]]
      = { out := { header := some (.all ["s0", "s1", "s2", "s3"]), records := [],
                   error := some "Sample is hom alt, cannot rephase)" },
          errors := 0, updated_gts := 0 } ∧
    convertSapphire .SH F32.half fourSamples
        [⟨.sparseHaplotype, af025, [], [2, 3]⟩, ⟨.sparseHaplotype, af025, [], [1, 6]⟩] []
      = { out := { header := some (.all ["s0", "s1", "s2", "s3"]),
                   records := [⟨.sparseHaplotype, .sparse [2, 3]⟩,
                               ⟨.sparseHaplotype, .sparse [1, 6]⟩],
                   error := none },
          errors := 0, updated_gts := 0 } ∧
    convertSapphire .BG F32.half twoSamples
        [⟨.binaryGenotype, af025, [false, true, false, false], []⟩,
         ⟨.binaryGenotype, af025, [false, false, false, true], []⟩]
        [[⟨0, 3, 5, ppTwo⟩]]
      = { out := { header := some (.all ["s0", "s1"]), records := [],
                   error := some "Binary genotype is for unphased data" },
          errors := 0, updated_gts := 0 } ∧
    ∀ (mode : ConvMode) (minmaf : F32) (hdr : SampleVectors) (records : List XcfRecord)
      (blocks : List (List HetInfo)),
      (convertSapphire mode minmaf hdr records blocks).errors = 0 := by
  refine ⟨by decide, by decide, by decide, ?_⟩
  intro mode minmaf hdr records blocks
  exact sapphireLoop_errors mode minmaf _ _ records 0 _

/-! ## Properties of the subsetting overload: genotype records -/

set_option maxRecDepth 100000 in
/-- C32: two samples, genotype mode BG, exclusion of `s0`, a binary genotype
record with the pairs `(0,0),(0,1)`. In a genotype mode `full2subs` has one
entry per sample, `[-1, 0, -1, -1]`, but lines 384-385 read it at the slot
indices `2*i+0` and `2*i+1`: for the retained sample `s1` both reads give `-1`,
no slot of the subset buffer is written, and the pair of subset sample `0` is
`(0,0)`, not the pair `(0,1)` of `s1`. -/
theorem subset_binary_genotype_pair_lost :
    selectSamples .BG twoSamples true false ["s0"]
      = .ok ⟨["s1"], ["f1"], ["m1"], ["p1"], [1], [-1, 0, -1, -1]⟩ ∧
    (subsample (subsampleBits .BG 2 [1]) [-1, 0, -1, -1] 1 true .binaryGenotype 2
        { SubsetBuffers.fresh 2 1 with
          full := { binary_bit_buf := [false, false, false, true],
                    sparse_int_buf := [0, 0, 0, 0] } }).st.binary_bit_buf_subs
      = [false, false] ∧
    convertSubset .BG F32.half twoSamples
        [⟨.binaryGenotype, af025, [false, false, false, true], []⟩] true false ["s0"]
      = { header := some (.subsample [1]),
          records := [⟨.binaryGenotype, .dense [false, false]⟩], error := none } := by
  decide

set_option maxRecDepth 100000 in
/-- C33: four samples, mode SG, inclusion of `s0`, a rare sparse genotype record
with the one code `6` (sample `0`, pair `(1,1)`). Line 356 tests the bitmask at
the code itself, slot `6`, not at the sample index of the code, so the code of
the retained sample is dropped; and line 360 stores into `sparse_int_buf` while
line 422 writes from `sparse_int_buf_subs`, which the loop never touches. The
payload written is empty, not `[6]`. -/
theorem subset_sparse_genotype_code_lost :
    selectSamples .SG fourSamples false false ["s0"]
      = .ok ⟨["s0"], ["f0"], ["m0"], ["p0"], [0], [0, -1, -1, -1, -1, -1, -1, -1]⟩ ∧
    (sparse_genotype.set 6).idx = 0 ∧
    (subsampleBits .SG 4 [0]).getD 0 false = true ∧
    (subsampleBits .SG 4 [0]).getD 6 false = false ∧
    convertSubset .SG F32.half fourSamples [⟨.sparseGenotype, af025, [], [6]⟩] false false ["s0"]
      = { header := some (.subsample [0]),
          records := [⟨.sparseGenotype, .sparse []⟩], error := none } := by
  decide

set_option maxRecDepth 100000 in
/-- C34: four samples, mode SG, inclusion of `s0` and `s1` (`M = 2`), a rare
binary genotype record with the pairs `(0,1),(0,0),(0,0),(0,1)`. Line 389 sets
`n_elements_subs` to the slot count `2 * M`, and the loop of line 428 runs `i`
up to that bound: four codes are written, for the indices `0 .. 3`, the last
two built from the slots `4 .. 7` behind the `2 * M = 4` slots of the subset
buffer. -/
theorem subset_genotype_to_sparse_emits_twice :
    (subsample (subsampleBits .SG 4 [0, 1]) [0, 1, -1, -1, -1, -1, -1, -1] 2 true .binaryGenotype 4
        { SubsetBuffers.fresh 4 2 with
          full := { binary_bit_buf := [false, true, false, false, false, false, false, true],
                    sparse_int_buf := [0, 0, 0, 0, 0, 0, 0, 0] } }).n_elements_subs = 4 ∧
    convertSubset .SG F32.half fourSamples
        [⟨.binaryGenotype, af025, [false, true, false, false, false, false, false, true], []⟩]
        false false ["s0", "s1"]
      = { header := some (.subsample [0, 1]),
          records := [⟨.sparseGenotype, .sparse [18, 32, 64, 96]⟩], error := none } := by
  decide

set_option maxRecDepth 100000 in
/-- C37: mode SH, two samples, a rare binary haplotype record with the bits
`(0,0),(0,1)`, a side-channel file without blocks (empty worklist). The
merge-back conversion looks at all `2 * N` slots (line 252) and writes the list
`[3]`; the plain conversion looks at the slots below `N` only (line 122 of
`binary2binary.cpp`) and writes the empty list. -/
theorem empty_worklist_differs_from_plain :
    fill_work_from_himm [] [] = [] ∧
    (convertSapphire .SH F32.half twoSamples
        [⟨.binaryHaplotype, af025, [false, false, false, true], []⟩] []).out
      = { header := some (.all ["s0", "s1"]),
          records := [⟨.sparseHaplotype, .sparse [3]⟩], error := none } ∧
    convertPlain .SH F32.half twoSamples
        [⟨.binaryHaplotype, af025, [false, false, false, true], []⟩]
      = { header := some (.all ["s0", "s1"]),
          records := [⟨.sparseHaplotype, .sparse []⟩], error := none } := by
  decide

/-! ## Properties of the subsetting overload: the sparse haplotype codec -/

theorem take_succ_set {α : Type} (l : List α) (c : Nat) (a : α) (h : c < l.length) :
    (l.set c a).take (c + 1) = l.take c ++ [a] := by
  rw [List.take_succ, take_set_of_le a l (Nat.le_refl c), List.getElem?_set_self h]
  rfl

theorem binaryHaplotypeToSparseMinor_spec (minor : Bool) (bits : List Bool) (buf : List Nat) :
    ∀ k : Nat, k ≤ buf.length →
      (binaryHaplotypeToSparseMinor minor k bits buf).2
        = ((List.range k).filter (fun i => decide (bits.getD i false = minor))).length ∧
      (binaryHaplotypeToSparseMinor minor k bits buf).1.length = buf.length ∧
      (binaryHaplotypeToSparseMinor minor k bits buf).1.take
          (binaryHaplotypeToSparseMinor minor k bits buf).2
        = (List.range k).filter (fun i => decide (bits.getD i false = minor)) := by
  intro k
  induction k with
  | zero => intro _; simp [binaryHaplotypeToSparseMinor]
  | succ k ih =>
    intro hk
    obtain ⟨e1, e2, e3⟩ := ih (by omega)
    have hle : ((List.range k).filter (fun i => decide (bits.getD i false = minor))).length ≤ k := by
      have := List.length_filter_le (fun i => decide (bits.getD i false = minor)) (List.range k)
      simpa using this
    unfold binaryHaplotypeToSparseMinor at e1 e2 e3 ⊢
    rw [List.range_succ, List.foldl_append, List.filter_append]
    cases hres : List.foldl
        (fun (acc : List Nat × Nat) i =>
          if bits.getD i false = minor then (acc.1.set acc.2 i, acc.2 + 1) else acc)
        (buf, 0) (List.range k) with
    | mk b c =>
      rw [hres] at e1 e2 e3
      simp only at e1 e2 e3
      by_cases hp : bits.getD k false = minor
      · simp only [List.foldl_cons, List.foldl_nil, hp, if_true, List.filter_cons, decide_True,
          List.filter_nil, List.length_append, List.length_singleton, List.length_set]
        refine ⟨by rw [e1], e2, ?_⟩
        rw [take_succ_set b c k (by omega), e3]
      · simp only [List.foldl_cons, List.foldl_nil, hp, if_false, List.filter_cons,
          decide_False, List.filter_nil, List.append_nil, Bool.false_eq_true]
        exact ⟨e1, e2, e3⟩

theorem foldl_range_take {β : Type} (g : β → Nat → β) (buf : List Nat) (n : Nat)
    (hn : n ≤ buf.length) (init : β) :
    (List.range n).foldl (fun acc j => g acc (buf.getD j 0)) init = (buf.take n).foldl g init := by
  rw [← foldl_range_getD g (buf.take n) init, List.length_take, Nat.min_eq_left hn]
  apply List.foldl_ext
  intro acc j hj
  have hj' : j < n := List.mem_range.1 hj
  rw [List.getD_eq_getElem?_getD, List.getD_eq_getElem?_getD, List.getElem?_take_of_lt hj']

theorem foldl_set_getElem? {α : Type} (v : α) (l : List Nat) :
    ∀ b : List α,
      (l.foldl (fun (b : List α) i => b.set i v) b).length = b.length ∧
      ∀ j, j < b.length →
        (l.foldl (fun (b : List α) i => b.set i v) b)[j]? = if j ∈ l then some v else b[j]? := by
  induction l with
  | nil => intro b; simp
  | cons a l ih =>
    intro b
    obtain ⟨h1, h2⟩ := ih (b.set a v)
    rw [List.foldl_cons]
    refine ⟨by rw [h1, List.length_set], ?_⟩
    intro j hj
    rw [h2 j (by rw [List.length_set]; exact hj)]
    by_cases hjl : j ∈ l
    · simp [hjl]
    · by_cases hja : j = a
      · subst hja
        simp [List.getElem?_set_self hj]
      · have hne : a ≠ j := fun h => hja h.symm
        simp [hjl, hja, List.getElem?_set_ne hne]

/-- C38: in the subsetting path, for a subset haplotype buffer `bits` of `2 * M`
bits and a minor flag `m`, the sparse encoding (lines 469-475) is the ascending
list of the slots whose bit equals `m`, and decoding that list with the same
flag (lines 510-512: fill with `!m`, set the listed slots to `m`) gives `bits`
back. -/
theorem subset_haplotype_sparse_roundtrip (M : Nat) (m : Bool) (bits bits_subs : List Bool)
    (buf : List Nat) (hbits : bits.length = 2 * M) (hsubs : bits_subs.length = 2 * M)
    (hbuf : buf.length = 2 * M) :
    (binaryHaplotypeToSparseMinor m (2 * M) bits buf).1.take
        (binaryHaplotypeToSparseMinor m (2 * M) bits buf).2
      = (List.range (2 * M)).filter (fun i => decide (bits.getD i false = m)) ∧
    sparseHaplotypeToBinaryN m (binaryHaplotypeToSparseMinor m (2 * M) bits buf).2 bits_subs
        (binaryHaplotypeToSparseMinor m (2 * M) bits buf).1
      = bits := by
  obtain ⟨e1, e2, e3⟩ := binaryHaplotypeToSparseMinor_spec m bits buf (2 * M) (by omega)
  refine ⟨e3, ?_⟩
  have hle : (binaryHaplotypeToSparseMinor m (2 * M) bits buf).2
      ≤ (binaryHaplotypeToSparseMinor m (2 * M) bits buf).1.length := by
    rw [e1, e2, hbuf]
    have := List.length_filter_le (fun i => decide (bits.getD i false = m)) (List.range (2 * M))
    simpa using this
  unfold sparseHaplotypeToBinaryN
  rw [foldl_range_take (fun (b : List Bool) i => b.set i m) _ _ hle, e3]
  obtain ⟨h1, h2⟩ := foldl_set_getElem? m
    ((List.range (2 * M)).filter (fun i => decide (bits.getD i false = m)))
    (List.replicate bits_subs.length (!m))
  apply List.ext_getElem?
  intro j
  by_cases hj : j < 2 * M
  · rw [h2 j (by rw [List.length_replicate, hsubs]; exact hj)]
    have hjb : j < bits.length := by omega
    rw [List.getElem?_eq_getElem hjb]
    simp only [List.mem_filter, List.mem_range, hj, true_and, decide_eq_true_eq,
      List.getD_eq_getElem?_getD, List.getElem?_eq_getElem hjb, Option.getD_some]
    by_cases hm : bits[j] = m
    · simp [hm]
    · rw [if_neg hm, List.getElem?_replicate]
      simp only [hsubs, hj, if_true, Option.some.injEq]
      cases hb : bits[j] <;> cases m <;> simp_all
  · rw [List.getElem?_eq_none (by rw [h1, List.length_replicate, hsubs]; omega),
      List.getElem?_eq_none (by omega)]

set_option maxRecDepth 100000 in
theorem subset_haplotype_sparse_roundtrip_witness :
    (binaryHaplotypeToSparseMinor true (2 * 2) [false, true, true, false] [9, 9, 9, 9]).1.take
        (binaryHaplotypeToSparseMinor true (2 * 2) [false, true, true, false] [9, 9, 9, 9]).2
      = (List.range (2 * 2)).filter
          (fun i => decide (([false, true, true, false] : List Bool).getD i false = true)) ∧
    sparseHaplotypeToBinaryN true
        (binaryHaplotypeToSparseMinor true (2 * 2) [false, true, true, false] [9, 9, 9, 9]).2
        [true, true, true, true]
        (binaryHaplotypeToSparseMinor true (2 * 2) [false, true, true, false] [9, 9, 9, 9]).1
      = [false, true, true, false] :=
  subset_haplotype_sparse_roundtrip 2 true [false, true, true, false] [true, true, true, true]
    [9, 9, 9, 9] rfl rfl rfl

/-! ## Properties of the merge-back: the sparse haplotype list stays sorted -/

theorem stdFind_some (v : Nat) :
    ∀ (l : List Nat) (pos : Nat), stdFind v l = some pos →
      ∃ x, l[pos]? = some x ∧ sizeT (signed32 x) = v := by
  intro l
  induction l with
  | nil => intro pos h; simp [stdFind] at h
  | cons a l ih =>
    intro pos h
    unfold stdFind at h
    by_cases ha : sizeT (signed32 a) = v
    · simp only [ha, if_true, Option.some.injEq] at h
      subst h
      exact ⟨a, by simp, ha⟩
    · simp only [ha, if_false, Option.map_eq_some'] at h
      obtain ⟨p, hp, hpos⟩ := h
      obtain ⟨x, hx, hxv⟩ := ih p hp
      subst hpos
      exact ⟨x, by simpa using hx, hxv⟩

theorem sizeT_signed32_eq (x v : Nat) (hv : v < 2 ^ 31) (h : sizeT (signed32 x) = v) :
    signed32 x = (v : Int) := by
  unfold sizeT at h
  unfold signed32 at h ⊢
  have hx : x % 2 ^ 32 < 2 ^ 32 := Nat.mod_lt _ (by norm_num)
  norm_num at h hv hx ⊢
  split at h
  · rename_i hlt
    rw [if_pos hlt]
    omega
  · rename_i hlt
    rw [if_neg hlt]
    omega

theorem signed32_small (v : Nat) (hv : v < 2 ^ 31) : signed32 v = (v : Int) := by
  unfold signed32
  have h1 : v % 2 ^ 32 = v := Nat.mod_eq_of_lt (by omega)
  rw [h1, if_pos hv]

theorem pairwise_set_adjacent (l : List Int) (hl : l.Pairwise (· < ·)) (X : Int) (pos : Nat)
    (c c' : Int) (hc : l[pos]? = some c) (hcX : c = X ∨ c = X + 1) (hc' : c' = X ∨ c' = X + 1)
    (hex : ¬ (X ∈ l ∧ X + 1 ∈ l)) : (l.set pos c').Pairwise (· < ·) := by
  rw [List.pairwise_iff_getElem] at hl ⊢
  intro i j hi hj hij
  rw [List.length_set] at hi hj
  have hpos : pos < l.length := by
    by_contra hn
    rw [List.getElem?_eq_none (by omega)] at hc
    cases hc
  have hcv : l[pos] = c := by
    rw [List.getElem?_eq_getElem hpos] at hc
    exact Option.some.inj hc
  have hcm : c ∈ l := hcv ▸ List.getElem_mem hpos
  have hbase := hl i j hi hj hij
  rw [List.getElem_set, List.getElem_set]
  have hmi : l[i] ∈ l := List.getElem_mem hi
  have hmj : l[j] ∈ l := List.getElem_mem hj
  by_cases hpi : pos = i
  · have hpj : pos ≠ j := by omega
    rw [if_pos hpi, if_neg hpj]
    have h1 := hl pos j hpos hj (by omega)
    rw [hcv] at h1
    have h2 : l[j] ≠ X ∨ l[j] ≠ X + 1 := by
      by_contra hcon
      push_neg at hcon
      omega
    have h3 : ¬ (l[j] = X + 1 ∧ c = X) := by
      rintro ⟨e1, e2⟩
      exact hex ⟨e2 ▸ hcm, e1 ▸ hmj⟩
    omega
  · rw [if_neg hpi]
    by_cases hpj : pos = j
    · rw [if_pos hpj]
      have h1 := hl i pos hi hpos (by omega)
      rw [hcv] at h1
      have h3 : ¬ (l[i] = X ∧ c = X + 1) := by
        rintro ⟨e1, e2⟩
        exact hex ⟨e1 ▸ hmi, e2 ▸ hcm⟩
      omega
    · rw [if_neg hpj]
      exact hbase

theorem stdFind_none (v : Nat) :
    ∀ (l : List Nat), stdFind v l = none → ∀ x ∈ l, sizeT (signed32 x) ≠ v := by
  intro l
  induction l with
  | nil => intro _ x hx; cases hx
  | cons a l ih =>
    intro h x hx
    unfold stdFind at h
    by_cases ha : sizeT (signed32 a) = v
    · simp [ha] at h
    · simp only [ha, if_false, Option.map_eq_none'] at h
      rcases List.mem_cons.1 hx with e | e
      · rw [e]; exact ha
      · exact ih h x e

theorem stdFind_of_listed (v : Nat) (hv : v < 2 ^ 31) (buf : List Nat) (n : Nat)
    (h : ((v : Nat) : Int) ∈ (buf.take n).map signed32) : stdFind v buf ≠ none := by
  intro hnone
  rw [List.mem_map] at h
  obtain ⟨x, hx, hxv⟩ := h
  have hne := stdFind_none v buf hnone x (List.mem_of_mem_take hx)
  apply hne
  rw [hxv]
  unfold sizeT
  norm_num at hv ⊢
  omega

theorem mergeSparseHaplotype_cases (st : MergeState) (idx : Nat) (hi : HetInfo)
    (hidx : 2 * idx + 1 < 2 ^ 31) :
    ((stdFind (2 * idx) st.bufs.sparse_int_buf ≠ none
        ∧ stdFind (2 * idx + 1) st.bufs.sparse_int_buf ≠ none) →
      mergeSparseHaplotype st idx hi = .error "Sample is hom alt, cannot rephase)") ∧
    ((stdFind (2 * idx) st.bufs.sparse_int_buf = none
        ∧ stdFind (2 * idx + 1) st.bufs.sparse_int_buf = none) →
      mergeSparseHaplotype st idx hi = .error "Sample is hom ref, cannot rephase") ∧
    (¬ (stdFind (2 * idx) st.bufs.sparse_int_buf ≠ none
        ∧ stdFind (2 * idx + 1) st.bufs.sparse_int_buf ≠ none) →
      ¬ (stdFind (2 * idx) st.bufs.sparse_int_buf = none
        ∧ stdFind (2 * idx + 1) st.bufs.sparse_int_buf = none) →
      ∃ pos val x, mergeSparseHaplotype st idx hi
          = .ok { st with bufs := { st.bufs with
              sparse_int_buf := st.bufs.sparse_int_buf.set pos val } }
        ∧ (val = 2 * idx ∨ val = 2 * idx + 1)
        ∧ st.bufs.sparse_int_buf[pos]? = some x
        ∧ (signed32 x = ((2 * idx : Nat) : Int) ∨ signed32 x = ((2 * idx + 1 : Nat) : Int))) := by
  have e0 : (2 * idx) % 2 ^ 64 = 2 * idx := Nat.mod_eq_of_lt (by omega)
  have e1 : (2 * idx + 1) % 2 ^ 64 = 2 * idx + 1 := Nat.mod_eq_of_lt (by omega)
  have e2 : (2 * idx) % 2 ^ 32 = 2 * idx := Nat.mod_eq_of_lt (by omega)
  have e3 : (2 * idx + 1) % 2 ^ 32 = 2 * idx + 1 := Nat.mod_eq_of_lt (by omega)
  unfold mergeSparseHaplotype
  simp only [e0, e1]
  refine ⟨fun h => by rw [if_pos h], fun h => ?_, fun h1 h2 => ?_⟩
  · rw [if_neg (by rw [h.1]; simp), if_pos h]
  · rw [if_neg h1, if_neg h2]
    cases h0 : stdFind (2 * idx) st.bufs.sparse_int_buf with
    | none =>
      cases h1' : stdFind (2 * idx + 1) st.bufs.sparse_int_buf with
      | none => exact absurd ⟨h0, h1'⟩ h2
      | some pos =>
        obtain ⟨x, hx, hxv⟩ := stdFind_some _ _ _ h1'
        refine ⟨pos, (if hi.a0 ≠ 0 then 2 * idx else 2 * idx + 1) % 2 ^ 32, x, by simp, ?_, hx,
          Or.inr (sizeT_signed32_eq x _ (by omega) hxv)⟩
        split
        · left; exact e2
        · right; exact e3
    | some pos =>
      obtain ⟨x, hx, hxv⟩ := stdFind_some _ _ _ h0
      refine ⟨pos, (if hi.a0 ≠ 0 then 2 * idx else 2 * idx + 1) % 2 ^ 32, x, by simp, ?_, hx,
        Or.inl (sizeT_signed32_eq x _ (by omega) hxv)⟩
      split
      · left; exact e2
      · right; exact e3

/-- C39: if the first `n` entries of `sparse_int_buf` (the sparse haplotype list
of the record), read as `int32_t`, are strictly increasing, and exactly one of
the two slot indices `2 * s`, `2 * s + 1` of a sample is in the list, then the
merge of a corrected call for that sample replaces one entry and the first `n`
entries are still strictly increasing, whatever the entries behind the list
hold; unless the search finds the other slot behind the list, in which case the
call of `vrb.error` of line 208 ends the run with the list as it was. -/
theorem sparse_merge_keeps_list_sorted (st : MergeState) (s : Nat) (hi : HetInfo) (n : Nat)
    (hs : 2 * s + 1 < 2 ^ 31)
    (hsorted : ((st.bufs.sparse_int_buf.take n).map signed32).Pairwise (· < ·))
    (hone : (((2 * s : Nat) : Int) ∈ (st.bufs.sparse_int_buf.take n).map signed32
          ∧ ((2 * s + 1 : Nat) : Int) ∉ (st.bufs.sparse_int_buf.take n).map signed32)
        ∨ (((2 * s : Nat) : Int) ∉ (st.bufs.sparse_int_buf.take n).map signed32
          ∧ ((2 * s + 1 : Nat) : Int) ∈ (st.bufs.sparse_int_buf.take n).map signed32)) :
    ((stdFind (2 * s) st.bufs.sparse_int_buf ≠ none
        ∧ stdFind (2 * s + 1) st.bufs.sparse_int_buf ≠ none) →
      mergeSparseHaplotype st s hi = .error "Sample is hom alt, cannot rephase)") ∧
    (¬ (stdFind (2 * s) st.bufs.sparse_int_buf ≠ none
        ∧ stdFind (2 * s + 1) st.bufs.sparse_int_buf ≠ none) →
      ∃ st1, mergeSparseHaplotype st s hi = .ok st1 ∧
        ((st1.bufs.sparse_int_buf.take n).map signed32).Pairwise (· < ·)) := by
  obtain ⟨c1, _, c3⟩ := mergeSparseHaplotype_cases st s hi hs
  refine ⟨c1, fun hnb => ?_⟩
  have hnn : ¬ (stdFind (2 * s) st.bufs.sparse_int_buf = none
      ∧ stdFind (2 * s + 1) st.bufs.sparse_int_buf = none) := by
    rintro ⟨n0, n1⟩
    rcases hone with ⟨m, _⟩ | ⟨_, m⟩
    · exact stdFind_of_listed (2 * s) (by omega) _ n m n0
    · exact stdFind_of_listed (2 * s + 1) (by omega) _ n m n1
  obtain ⟨pos, val, x, h, hval, hx, hxv⟩ := c3 hnb hnn
  refine ⟨_, h, ?_⟩
  simp only
  by_cases hpos : pos < n
  · rw [List.set_take, List.map_set]
    apply pairwise_set_adjacent _ hsorted ((2 * s : Nat) : Int) pos (signed32 x)
    · rw [List.getElem?_map, List.getElem?_take_of_lt hpos, hx]
      rfl
    · rcases hxv with h1 | h1
      · left; exact h1
      · right; rw [h1]; push_cast; rfl
    · rcases hval with h1 | h1
      · left; rw [h1, signed32_small _ (by omega)]
      · right; rw [h1, signed32_small _ (by omega)]; push_cast; rfl
    · rintro ⟨m0, m1⟩
      have m1' : ((2 * s + 1 : Nat) : Int) ∈ (st.bufs.sparse_int_buf.take n).map signed32 := by
        have e : ((2 * s + 1 : Nat) : Int) = ((2 * s : Nat) : Int) + 1 := by push_cast; rfl
        rw [e]
        exact m1
      rcases hone with ⟨_, h2⟩ | ⟨h2, _⟩
      · exact h2 m1'
      · exact h2 m0
  · rw [take_set_of_le val _ (by omega)]
    exact hsorted

set_option maxRecDepth 100000 in
theorem sparse_merge_keeps_list_sorted_witness :
    mergeSparseHaplotype ⟨⟨[], [2, 6, 9, 9]⟩, 0, 0⟩ 1 ⟨0, 0, 5, ppTwo⟩
      = .ok ⟨⟨[], [3, 6, 9, 9]⟩, 0, 0⟩ ∧
    ∃ st1, mergeSparseHaplotype ⟨⟨[], [2, 6, 9, 9]⟩, 0, 0⟩ 1 ⟨0, 0, 5, ppTwo⟩ = .ok st1 ∧
      ((st1.bufs.sparse_int_buf.take 2).map signed32).Pairwise (· < ·) :=
  ⟨by decide,
   (sparse_merge_keeps_list_sorted ⟨⟨[], [2, 6, 9, 9]⟩, 0, 0⟩ 1 ⟨0, 0, 5, ppTwo⟩ 2 (by decide)
    (by decide) (by decide)).2 (by decide)⟩

/-! ## Properties of the extraction of heterozygous calls -/

theorem decodeBinaryGenotype_spec (bits : List Bool) (out : List Int) :
    ∀ k : Nat, 2 * k ≤ out.length →
      (decodeBinaryGenotype k bits out).length = out.length ∧
      (∀ i, i < k →
        (decodeBinaryGenotype k bits out)[2 * i]?
            = some (if bits.getD (2 * i) false = true ∧ bits.getD (2 * i + 1) false = false
                then bcf_gt_missing else bcf_gt_unphased (bits.getD (2 * i) false)) ∧
        (decodeBinaryGenotype k bits out)[2 * i + 1]?
            = some (if bits.getD (2 * i) false = true ∧ bits.getD (2 * i + 1) false = false
                then bcf_gt_missing else bcf_gt_unphased (bits.getD (2 * i + 1) false))) ∧
      (∀ j, 2 * k ≤ j → (decodeBinaryGenotype k bits out)[j]? = out[j]?) := by
  intro k
  induction k with
  | zero => intro _; simp [decodeBinaryGenotype]
  | succ k ih =>
    intro hk
    obtain ⟨e1, e2, e3⟩ := ih (by omega)
    have hstep : decodeBinaryGenotype (k + 1) bits out
        = if bits.getD (2 * k + 0) false = true ∧ bits.getD (2 * k + 1) false = false then
            ((decodeBinaryGenotype k bits out).set (2 * k + 0) bcf_gt_missing).set (2 * k + 1)
              bcf_gt_missing
          else
            ((decodeBinaryGenotype k bits out).set (2 * k + 0)
              (bcf_gt_unphased (bits.getD (2 * k + 0) false))).set (2 * k + 1)
              (bcf_gt_unphased (bits.getD (2 * k + 1) false)) := by
      unfold decodeBinaryGenotype
      rw [List.range_succ, List.foldl_append]
      rfl
    have hlen : (decodeBinaryGenotype (k + 1) bits out).length = out.length := by
      rw [hstep]
      split <;> simp [e1]
    refine ⟨hlen, ?_, ?_⟩
    · intro i hi
      by_cases hik : i = k
      · subst hik
        rw [hstep]
        simp only [Nat.add_zero]
        split
        · rw [List.getElem?_set_ne (by omega), List.getElem?_set_self (by rw [e1]; omega),
            List.getElem?_set_self (by rw [List.length_set, e1]; omega)]
          exact ⟨rfl, rfl⟩
        · rw [List.getElem?_set_ne (by omega), List.getElem?_set_self (by rw [e1]; omega),
            List.getElem?_set_self (by rw [List.length_set, e1]; omega)]
          exact ⟨rfl, rfl⟩
      · have hlt : i < k := by omega
        obtain ⟨h0, h1⟩ := e2 i hlt
        rw [hstep]
        split
        · rw [List.getElem?_set_ne (by omega), List.getElem?_set_ne (by omega),
            List.getElem?_set_ne (by omega), List.getElem?_set_ne (by omega)]
          exact ⟨h0, h1⟩
        · rw [List.getElem?_set_ne (by omega), List.getElem?_set_ne (by omega),
            List.getElem?_set_ne (by omega), List.getElem?_set_ne (by omega)]
          exact ⟨h0, h1⟩
    · intro j hj
      rw [hstep]
      split
      · rw [List.getElem?_set_ne (by omega), List.getElem?_set_ne (by omega)]
        exact e3 j (by omega)
      · rw [List.getElem?_set_ne (by omega), List.getElem?_set_ne (by omega)]
        exact e3 j (by omega)

theorem hetCall_decoded (pp_threshold : F32) (line_counter ac : Nat) (pp : F32)
    (nsamples : Nat) (bits : List Bool) (out : List Int) (i : Nat)
    (hout : 2 * nsamples ≤ out.length) (hi : i < nsamples) :
    hetCall pp_threshold line_counter ac pp (decodeBinaryGenotype nsamples bits out) i
      = if bits.getD (2 * i) false = false ∧ bits.getD (2 * i + 1) false = true then
          some ⟨signed32 line_counter, bcf_gt_unphased false, bcf_gt_unphased true,
            if ac = 1 ∧ F32.ge pp pp_threshold = true then pp097 else pp⟩
        else none := by
  obtain ⟨_, e2, _⟩ := decodeBinaryGenotype_spec bits out nsamples hout
  obtain ⟨h0, h1⟩ := e2 i hi
  unfold hetCall
  have i2 : i * 2 = 2 * i := Nat.mul_comm _ _
  simp only [i2, List.getD_eq_getElem?_getD, h0, h1, Option.getD_some]
  cases hb0 : bits[2 * i]?.getD false <;> cases hb1 : bits[2 * i + 1]?.getD false <;>
    simp [bcf_gt_allele, bcf_gt_unphased, bcf_gt_missing]

theorem extractHets_spec (pp_threshold : F32) (line_counter ac : Nat) (pp : F32) (start_id : Nat)
    (output_buffer : List Int) :
    ∀ (cnt : Nat) (fifos : List (GenericKeepFifo HetInfo)) (j : Nat),
      ((List.range' start_id cnt).foldl
        (fun (fs : List (GenericKeepFifo HetInfo)) i =>
          match hetCall pp_threshold line_counter ac pp output_buffer i with
          | some hi =>
            match fs[i - start_id]? with
            | some f => fs.set (i - start_id) (f.insert hi)
            | none => fs
          | none => fs)
        fifos)[j]?
      = if j < cnt then
          fifos[j]?.map (fun f =>
            match hetCall pp_threshold line_counter ac pp output_buffer (start_id + j) with
            | some hi => f.insert hi
            | none => f)
        else fifos[j]? := by
  intro cnt
  induction cnt with
  | zero => intro fifos j; simp
  | succ c ih =>
    intro fifos j
    rw [List.range'_1_concat, List.foldl_append, List.foldl_cons, List.foldl_nil]
    have hsub : start_id + c - start_id = c := by omega
    rw [hsub]
    cases hh : hetCall pp_threshold line_counter ac pp output_buffer (start_id + c) with
    | none =>
      simp only
      rw [ih fifos j]
      by_cases hjc : j < c
      · rw [if_pos hjc, if_pos (by omega)]
      · rw [if_neg hjc]
        by_cases hj : j = c
        · subst hj
          rw [if_pos (by omega), hh]
          cases fifos[j]? <;> rfl
        · rw [if_neg (by omega)]
    | some hi =>
      simp only
      have hc := ih fifos c
      rw [if_neg (by omega)] at hc
      rw [hc]
      cases hf : fifos[c]? with
      | none =>
        simp only
        rw [ih fifos j]
        by_cases hjc : j < c
        · rw [if_pos hjc, if_pos (by omega)]
        · rw [if_neg hjc]
          by_cases hj : j = c
          · subst hj
            rw [if_pos (by omega), hf]
            rfl
          · rw [if_neg (by omega)]
      | some f =>
        simp only
        by_cases hj : j = c
        · subst hj
          have hlen : j < fifos.length := by
            by_contra hn
            rw [List.getElem?_eq_none (by omega)] at hf
            cases hf
          have hlen2 : j < ((List.range' start_id j).foldl
              (fun (fs : List (GenericKeepFifo HetInfo)) i =>
                match hetCall pp_threshold line_counter ac pp output_buffer i with
                | some hi =>
                  match fs[i - start_id]? with
                  | some f => fs.set (i - start_id) (f.insert hi)
                  | none => fs
                | none => fs)
              fifos).length := by
            by_contra hn
            rw [List.getElem?_eq_none (by omega)] at hc
            rw [hf] at hc
            cases hc
          rw [List.getElem?_set_self hlen2, if_pos (by omega), hf, hh]
          rfl
        · rw [List.getElem?_set_ne (fun h => hj h.symm), ih fifos j]
          by_cases hjc : j < c
          · rw [if_pos hjc, if_pos (by omega)]
          · rw [if_neg hjc, if_neg (by omega)]

/-- C36: in `binary2sapphire::convert`, for a binary genotype record decoded
into `output_buffer`, a sample `i` in `[start_id, stop_id)` gives a call exactly
when its stored pair is `(0,1)`: the call carries the two unphased allele codes
and is inserted into the window `fifos[i - start_id]`; for the pairs `(0,0)`,
`(1,1)` and the missing pair `(1,0)` no call is built and the window of the
sample is left as it is. -/
theorem het_call_iff_pair_zero_one (pp_threshold : F32) (line_counter ac : Nat) (pp : F32)
    (start_id stop_id nsamples : Nat) (bits : List Bool) (out : List Int)
    (fifos : List (GenericKeepFifo HetInfo)) (i : Nat) (f : GenericKeepFifo HetInfo)
    (hout : out.length = 2 * nsamples) (hstop : stop_id ≤ nsamples) (hi1 : start_id ≤ i)
    (hi2 : i < stop_id) (hf : fifos[i - start_id]? = some f) :
    ((hetCall pp_threshold line_counter ac pp (decodeBinaryGenotype nsamples bits out) i).isSome
        = true
      ↔ bits.getD (2 * i) false = false ∧ bits.getD (2 * i + 1) false = true) ∧
    hetCall pp_threshold line_counter ac pp (decodeBinaryGenotype nsamples bits out) i
      = (if bits.getD (2 * i) false = false ∧ bits.getD (2 * i + 1) false = true then
          some ⟨signed32 line_counter, bcf_gt_unphased false, bcf_gt_unphased true,
            if ac = 1 ∧ F32.ge pp pp_threshold = true then pp097 else pp⟩
        else none) ∧
    (extractHets pp_threshold line_counter ac pp start_id stop_id
        (decodeBinaryGenotype nsamples bits out) fifos)[i - start_id]?
      = some (if bits.getD (2 * i) false = false ∧ bits.getD (2 * i + 1) false = true then
          f.insert ⟨signed32 line_counter, bcf_gt_unphased false, bcf_gt_unphased true,
            if ac = 1 ∧ F32.ge pp pp_threshold = true then pp097 else pp⟩
        else f) := by
  have hcall := hetCall_decoded pp_threshold line_counter ac pp nsamples bits out i
    (by omega) (by omega)
  refine ⟨?_, hcall, ?_⟩
  · rw [hcall]
    split <;> simp_all
  · have h := extractHets_spec pp_threshold line_counter ac pp start_id
      (decodeBinaryGenotype nsamples bits out) (stop_id - start_id) fifos (i - start_id)
    have e : start_id + (i - start_id) = i := by omega
    rw [if_pos (by omega), hf, e, hcall] at h
    refine Eq.trans h ?_
    by_cases hp : bits.getD (2 * i) false = false ∧ bits.getD (2 * i + 1) false = true
    · rw [if_pos hp, if_pos hp]
      rfl
    · rw [if_neg hp, if_neg hp]
      rfl

set_option maxRecDepth 100000 in
theorem het_call_iff_pair_zero_one_witness :
    (extractHets pp090 7 2 F32.nan 0 2
        (decodeBinaryGenotype 2 [true, false, false, true] [0, 0, 0, 0])
        [GenericKeepFifo.new 3 (PPPred pp090), GenericKeepFifo.new 3 (PPPred pp090)])[1 - 0]?
      = some (if ([true, false, false, true] : List Bool).getD (2 * 1) false = false
            ∧ ([true, false, false, true] : List Bool).getD (2 * 1 + 1) false = true then
          (GenericKeepFifo.new 3 (PPPred pp090)).insert
            ⟨signed32 7, bcf_gt_unphased false, bcf_gt_unphased true,
              if 2 = 1 ∧ F32.ge F32.nan pp090 = true then pp097 else F32.nan⟩
        else GenericKeepFifo.new 3 (PPPred pp090)) :=
  (het_call_iff_pair_zero_one pp090 7 2 F32.nan 0 2 2 [true, false, false, true] [0, 0, 0, 0]
    [GenericKeepFifo.new 3 (PPPred pp090), GenericKeepFifo.new 3 (PPPred pp090)] 1
    (GenericKeepFifo.new 3 (PPPred pp090)) rfl (by decide) (by decide) (by decide) rfl).2.2

/-! ## The retention window over a stream of positions -/

theorem winItems_length (d lo cnt : Nat) (S : Nat → Bool) :
    (winItems d lo cnt S).length = d + cnt := by
  simp [winItems]

theorem winItems_getElem? (d lo cnt : Nat) (S : Nat → Bool) (k : Nat) :
    (winItems d lo cnt S)[k]?
      = if k < d then some (FIFOItem.mk 0 true)
        else if k < d + cnt then some (FIFOItem.mk (lo + (k - d)) (S (lo + (k - d))))
        else none := by
  unfold winItems
  by_cases h1 : k < d
  · rw [if_pos h1, List.getElem?_append_left (by simpa using h1)]
    simp [h1]
  · rw [if_neg h1, List.getElem?_append_right (by simpa using h1)]
    simp only [List.length_replicate, List.getElem?_map]
    by_cases h2 : k < d + cnt
    · rw [if_pos h2, List.getElem?_range' _ _ (by omega)]
      simp
    · rw [if_neg h2, List.getElem?_eq_none (by simp; omega)]
      rfl

theorem winItems_drop (d lo cnt : Nat) (S : Nat → Bool) (s : Nat) :
    (winItems d lo cnt S).drop s = winItems (d - s) (lo + (s - d)) (cnt - (s - d)) S := by
  apply List.ext_getElem?
  intro k
  rw [List.getElem?_drop, winItems_getElem?, winItems_getElem?]
  by_cases h1 : s + k < d
  · rw [if_pos h1, if_pos (show k < d - s by omega)]
  · rw [if_neg h1, if_neg (show ¬ k < d - s by omega)]
    by_cases h2 : s + k < d + cnt
    · rw [if_pos h2, if_pos (show k < d - s + (cnt - (s - d)) by omega)]
      have e : lo + (s + k - d) = lo + (s - d) + (k - (d - s)) := by omega
      rw [e]
    · rw [if_neg h2, if_neg (show ¬ k < d - s + (cnt - (s - d)) by omega)]

theorem unkeptItems_winItems (d lo cnt : Nat) (S : Nat → Bool) :
    unkeptItems (winItems d lo cnt S) = (List.range' lo cnt).filter (fun j => !S j) := by
  unfold unkeptItems winItems
  rw [List.filter_append, List.map_append]
  have h1 : (List.replicate d (FIFOItem.mk 0 true)).filter (fun it => !it.kept) = [] := by
    rw [List.filter_eq_nil_iff]
    intro it hit
    rw [List.eq_of_mem_replicate hit]
    simp
  rw [h1, List.map_nil, List.nil_append, List.filter_map, List.map_map]
  have h2 : ((fun it : FIFOItem Nat => it.item) ∘ fun j => FIFOItem.mk j (S j)) = id := by
    funext j
    rfl
  rw [h2, List.map_id]
  rfl

theorem flagAll_winItems (d lo cnt : Nat) (S : Nat → Bool) :
    flagAll (winItems d lo cnt S) = winItems d lo cnt (fun _ => true) := by
  unfold flagAll winItems
  rw [List.map_append, List.map_replicate, List.map_map]
  rfl

theorem winItems_congr (d lo cnt : Nat) (S S' : Nat → Bool)
    (h : ∀ j, lo ≤ j → j < lo + cnt → S j = S' j) :
    winItems d lo cnt S = winItems d lo cnt S' := by
  unfold winItems
  congr 1
  apply List.map_congr_left
  intro j hj
  rw [List.mem_range'_1] at hj
  rw [h j hj.1 hj.2]

theorem winItems_push_tail (size n : Nat) (S : Nat → Bool) (hsize : 0 < size)
    (hn : S n = false) :
    (winItems (size - n) (n - size) (min size n) S ++ [FIFOItem.mk n false]).tail
      = winItems (size - (n + 1)) (n + 1 - size) (min size (n + 1)) S := by
  apply List.ext_getElem?
  intro k
  rw [List.getElem?_tail, winItems_getElem?]
  by_cases hk : k + 1 < size
  · rw [List.getElem?_append_left (by rw [winItems_length]; omega), winItems_getElem?]
    by_cases h1 : k + 1 < size - n
    · rw [if_pos h1, if_pos (show k < size - (n + 1) by omega)]
    · rw [if_neg h1, if_neg (show ¬ k < size - (n + 1) by omega),
        if_pos (show k + 1 < size - n + min size n by omega),
        if_pos (show k < size - (n + 1) + min size (n + 1) by omega)]
      have e : n - size + (k + 1 - (size - n)) = n + 1 - size + (k - (size - (n + 1))) := by
        omega
      rw [e]
  · rw [List.getElem?_append_right (by rw [winItems_length]; omega), winItems_length]
    by_cases hk2 : k + 1 = size
    · have e0 : k + 1 - (size - n + min size n) = 0 := by omega
      rw [e0, if_neg (show ¬ k < size - (n + 1) by omega),
        if_pos (show k < size - (n + 1) + min size (n + 1) by omega)]
      have e : n + 1 - size + (k - (size - (n + 1))) = n := by omega
      rw [e, hn]
      rfl
    · rw [if_neg (show ¬ k < size - (n + 1) by omega),
        if_neg (show ¬ k < size - (n + 1) + min size (n + 1) by omega),
        List.getElem?_eq_none (by simp; omega)]

theorem keptAt_iff (size mid : Nat) (q : Nat → Bool) (n j : Nat) :
    keptAt size mid q n j = true
      ↔ ∃ t, t ≤ n ∧ j < t ∧ t ≤ j + size ∧ q (t - 1 - mid) = true := by
  unfold keptAt
  rw [List.any_eq_true]
  constructor
  · rintro ⟨t, ht, h⟩
    rw [List.mem_range] at ht
    simp only [Bool.and_eq_true, decide_eq_true_eq] at h
    exact ⟨t, by omega, h.1.1, h.1.2, h.2⟩
  · rintro ⟨t, h1, h2, h3, h4⟩
    refine ⟨t, List.mem_range.2 (by omega), ?_⟩
    simp only [Bool.and_eq_true, decide_eq_true_eq]
    exact ⟨⟨h2, h3⟩, h4⟩

theorem keptAt_succ (size mid : Nat) (q : Nat → Bool) (n j : Nat) :
    keptAt size mid q (n + 1) j
      = (keptAt size mid q n j
          || (decide (j < n + 1) && decide (n + 1 ≤ j + size) && q (n - mid))) := by
  unfold keptAt
  rw [List.range_succ, List.any_append]
  simp

theorem keptAt_lt (size mid : Nat) (q : Nat → Bool) (n j : Nat)
    (h : keptAt size mid q n j = true) : j < n := by
  obtain ⟨t, h1, h2, _, _⟩ := (keptAt_iff size mid q n j).1 h
  omega

theorem keptAt_self (size mid : Nat) (q : Nat → Bool) (n : Nat) :
    keptAt size mid q n n = false := by
  cases h : keptAt size mid q n n with
  | false => rfl
  | true => exact absurd (keptAt_lt size mid q n n h) (Nat.lt_irrefl n)

theorem keptAt_prefix (size mid : Nat) (q : Nat → Bool) (n j j' : Nat)
    (h : keptAt size mid q n j' = true) (hj : j < j') (hw : n ≤ j + size) :
    keptAt size mid q n j = true := by
  obtain ⟨t, h1, h2, h3, h4⟩ := (keptAt_iff size mid q n j').1 h
  exact (keptAt_iff size mid q n j).2 ⟨t, h1, by omega, by omega, h4⟩

theorem filter_append_sorted (S S' : Nat → Bool) (n n' lo cnt : Nat)
    (hcross : ∀ a b, S a = true → S b = false → lo ≤ b → a < b)
    (hmem : ∀ x, (x < n' ∧ S' x = true)
      ↔ ((x < n ∧ S x = true) ∨ (lo ≤ x ∧ x < lo + cnt ∧ S x = false))) :
    (List.range n).filter S ++ (List.range' lo cnt).filter (fun j => !S j)
      = (List.range n').filter S' := by
  apply sorted_ext_nat
  · rw [List.pairwise_append]
    refine ⟨List.Pairwise.filter _ (List.pairwise_lt_range _),
      List.Pairwise.filter _ (List.pairwise_lt_range' _ _), ?_⟩
    intro a ha b hb
    rw [List.mem_filter] at ha hb
    rw [List.mem_range'_1] at hb
    have hb2 : S b = false := by simpa using hb.2
    exact hcross a b ha.2 hb2 hb.1.1
  · exact List.Pairwise.filter _ (List.pairwise_lt_range _)
  · intro x
    rw [List.mem_append, List.mem_filter, List.mem_filter, List.mem_filter, List.mem_range,
      List.mem_range, List.mem_range'_1, hmem x]
    simp only [Bool.not_eq_true', and_assoc]

theorem run_positions (mid : Nat) (q : Nat → Bool) (n : Nat) :
    (GenericKeepFifo.run (2 * mid + 1) q (List.range n)).size = 2 * mid + 1 ∧
    (GenericKeepFifo.run (2 * mid + 1) q (List.range n)).mid = mid ∧
    (GenericKeepFifo.run (2 * mid + 1) q (List.range n)).p = q ∧
    (GenericKeepFifo.run (2 * mid + 1) q (List.range n)).kept_items
      = (List.range n).filter (keptAt (2 * mid + 1) mid q n) ∧
    (GenericKeepFifo.run (2 * mid + 1) q (List.range n)).items
      = if n = 0 then []
        else winItems (2 * mid + 1 - n) (n - (2 * mid + 1)) (min (2 * mid + 1) n)
          (keptAt (2 * mid + 1) mid q n) := by
  induction n with
  | zero =>
    have h1 : (2 * mid + 1) % 2 = 1 := by omega
    have h2 : (2 * mid + 1) / 2 = mid := by omega
    simp [GenericKeepFifo.run, GenericKeepFifo.new, h1, h2]
  | succ n ih =>
    obtain ⟨hs, hm, hp, hk, hi⟩ := ih
    have hrun : GenericKeepFifo.run (2 * mid + 1) q (List.range (n + 1))
        = (GenericKeepFifo.run (2 * mid + 1) q (List.range n)).insert n := by
      unfold GenericKeepFifo.run
      rw [List.range_succ, List.foldl_append]
      rfl
    rw [hrun]
    generalize GenericKeepFifo.run (2 * mid + 1) q (List.range n) = f at hs hm hp hk hi ⊢
    have hfilled : (if f.items.length = 0 then List.replicate f.size (FIFOItem.mk n true)
          else f.items)
        = winItems (2 * mid + 1 - n) (n - (2 * mid + 1)) (min (2 * mid + 1) n)
            (keptAt (2 * mid + 1) mid q n) := by
      by_cases hn : n = 0
      · subst hn
        rw [hi, if_pos rfl]
        simp [winItems, hs]
      · rw [hi, if_neg hn, if_neg]
        rw [winItems_length]
        omega
    have hits : ((if f.items.length = 0 then List.replicate f.size (FIFOItem.mk n true)
          else f.items) ++ [FIFOItem.mk n false]).tail
        = winItems (2 * mid + 1 - (n + 1)) (n + 1 - (2 * mid + 1)) (min (2 * mid + 1) (n + 1))
            (keptAt (2 * mid + 1) mid q n) := by
      rw [hfilled]
      exact winItems_push_tail (2 * mid + 1) n _ (by omega) (keptAt_self _ _ _ _)
    rw [insert_def f n _ hits]
    have hcentre : (winItems (2 * mid + 1 - (n + 1)) (n + 1 - (2 * mid + 1))
          (min (2 * mid + 1) (n + 1)) (keptAt (2 * mid + 1) mid q n))[f.mid]?
        = some (FIFOItem.mk (n - mid) (if mid < 2 * mid + 1 - (n + 1) then true
            else keptAt (2 * mid + 1) mid q n (n - mid))) := by
      rw [winItems_getElem?, hm]
      by_cases h1 : mid < 2 * mid + 1 - (n + 1)
      · rw [if_pos h1, if_pos h1]
        have e : n - mid = 0 := by omega
        rw [e]
      · rw [if_neg h1, if_neg h1,
          if_pos (show mid < 2 * mid + 1 - (n + 1) + min (2 * mid + 1) (n + 1) by omega)]
        have e : n + 1 - (2 * mid + 1) + (mid - (2 * mid + 1 - (n + 1))) = n - mid := by omega
        rw [e]
    simp only [hcentre, hp]
    have hnz : ¬ (n + 1 = 0) := by omega
    rw [if_neg hnz]
    by_cases hq : q (n - mid) = true
    · rw [if_pos hq]
      refine ⟨hs, hm, rfl, ?_, ?_⟩
      · rw [keep_kept_items, hk]
        simp only
        rw [unkeptItems_winItems]
        apply filter_append_sorted
        · intro a b ha hb hlo
          by_contra hcon
          have hne : a ≠ b := by
            intro e
            rw [e] at ha
            rw [ha] at hb
            cases hb
          have := keptAt_prefix (2 * mid + 1) mid q n b a ha (by omega) (by omega)
          rw [this] at hb
          cases hb
        · intro x
          rw [keptAt_succ, hq]
          simp only [Bool.and_true, Bool.or_eq_true, Bool.and_eq_true, decide_eq_true_eq]
          constructor
          · rintro ⟨h1, h2⟩
            cases hx : keptAt (2 * mid + 1) mid q n x with
            | true => exact Or.inl ⟨keptAt_lt _ _ _ _ _ hx, rfl⟩
            | false =>
              rw [hx] at h2
              simp only [Bool.false_eq_true, false_or] at h2
              exact Or.inr ⟨by omega, by omega, rfl⟩
          · rintro (⟨h1, h2⟩ | ⟨h1, h2, h3⟩)
            · exact ⟨by omega, Or.inl h2⟩
            · exact ⟨by omega, Or.inr ⟨by omega, by omega⟩⟩
      · rw [keep_items]
        simp only
        rw [flagAll_winItems]
        apply winItems_congr
        intro j h1 h2
        rw [keptAt_succ, hq]
        have e1 : decide (j < n + 1) = true := decide_eq_true (by omega)
        have e2 : decide (n + 1 ≤ j + (2 * mid + 1)) = true := decide_eq_true (by omega)
        rw [e1, e2]
        simp
    · rw [if_neg hq]
      have hq' : q (n - mid) = false := by simpa using hq
      have hS : ∀ j, keptAt (2 * mid + 1) mid q (n + 1) j = keptAt (2 * mid + 1) mid q n j := by
        intro j
        rw [keptAt_succ, hq']
        simp
      refine ⟨hs, hm, rfl, ?_, ?_⟩
      · simp only
        rw [hk, List.range_succ, List.filter_append]
        have e : [n].filter (keptAt (2 * mid + 1) mid q (n + 1)) = [] := by
          rw [List.filter_eq_nil_iff]
          intro x hx
          rw [List.mem_singleton] at hx
          rw [hx, hS, keptAt_self]
          simp
        rw [e, List.append_nil]
        apply List.filter_congr
        intro x _
        rw [hS]
      · simp only
        apply winItems_congr
        intro j _ _
        rw [hS]

theorem keptAt_context (mid : Nat) (q : Nat → Bool) (n x : Nat)
    (h : keptAt (2 * mid + 1) mid q n x = true) :
    ∃ k, k < n ∧ q k = true ∧ x ≤ k + mid ∧ k ≤ x + mid := by
  obtain ⟨t, h1, h2, h3, h4⟩ := (keptAt_iff _ _ _ _ _).1 h
  exact ⟨t - 1 - mid, by omega, h4, by omega, by omega⟩

theorem context_keptAt (mid : Nat) (q : Nat → Bool) (n x k : Nat) (hq : q k = true)
    (h1 : x ≤ k + mid) (h2 : k ≤ x + mid) (h3 : k + mid + 1 ≤ n) :
    keptAt (2 * mid + 1) mid q n x = true := by
  refine (keptAt_iff _ _ _ _ _).2 ⟨k + mid + 1, h3, by omega, by omega, ?_⟩
  have e : k + mid + 1 - 1 - mid = k := by omega
  rw [e]
  exact hq

theorem context_any_iff (mid : Nat) (q : Nat → Bool) (n x : Nat) :
    (List.range n).any (fun k => q k && decide (x ≤ k + mid) && decide (k ≤ x + mid)) = true
      ↔ ∃ k, k < n ∧ q k = true ∧ x ≤ k + mid ∧ k ≤ x + mid := by
  rw [List.any_eq_true]
  constructor
  · rintro ⟨k, hk, h⟩
    rw [List.mem_range] at hk
    simp only [Bool.and_eq_true, decide_eq_true_eq] at h
    exact ⟨k, hk, h.1.1, h.1.2, h.2⟩
  · rintro ⟨k, hk, h1, h2, h3⟩
    refine ⟨k, List.mem_range.2 hk, ?_⟩
    simp only [Bool.and_eq_true, decide_eq_true_eq]
    exact ⟨⟨h1, h2⟩, h3⟩

theorem tail_item (mid n : Nat) (S : Nat → Bool) (hn : 0 < n) (k : Nat) :
    ((winItems (2 * mid + 1 - n) (n - (2 * mid + 1)) (min (2 * mid + 1) n) S).drop
        (mid + 1))[k]?
      = if k < mid then
          some (FIFOItem.mk (n + k - mid)
            (if k < 2 * mid + 1 - n - (mid + 1) then true else S (n + k - mid)))
        else none := by
  rw [winItems_drop, winItems_getElem?]
  by_cases h1 : k < 2 * mid + 1 - n - (mid + 1)
  · rw [if_pos h1, if_pos (show k < mid by omega), if_pos h1]
    have e : n + k - mid = 0 := by omega
    rw [e]
  · rw [if_neg h1]
    by_cases h2 : k < mid
    · rw [if_pos h2, if_neg h1, if_pos (by omega)]
      have e : n - (2 * mid + 1) + (mid + 1 - (2 * mid + 1 - n))
          + (k - (2 * mid + 1 - n - (mid + 1))) = n + k - mid := by omega
      rw [e]
    · rw [if_neg h2, if_neg (by omega)]

/-- The kept-list of a window of size `2 * mid + 1` over the positions
`0 .. n - 1`, after `finalize`: the positions within distance `mid` of a
position satisfying `q`. -/
theorem finalize_positions (mid : Nat) (q : Nat → Bool) (n : Nat) :
    ((GenericKeepFifo.run (2 * mid + 1) q (List.range n)).finalize).kept_items
      = (List.range n).filter (fun j =>
          (List.range n).any (fun k => q k && decide (j ≤ k + mid) && decide (k ≤ j + mid))) := by
  obtain ⟨hs, hm, hp, hk, hi⟩ := run_positions mid q n
  generalize GenericKeepFifo.run (2 * mid + 1) q (List.range n) = f at hs hm hp hk hi ⊢
  by_cases hn : n = 0
  · subst hn
    rw [if_pos rfl] at hi
    simp [GenericKeepFifo.finalize, hi, GenericKeepFifo.finalizeLoop, hk]
  · rw [if_neg hn] at hi
    have hn' : 0 < n := by omega
    rcases finalize_cases f with ⟨hall, hfin⟩ | ⟨k0, it, hk0, hpit, hfirst, hfin⟩
    · rw [hm, hi, hp] at hall
      rw [hfin, hk]
      apply List.filter_congr
      intro x hx
      rw [List.mem_range] at hx
      rw [Bool.eq_iff_iff, context_any_iff]
      constructor
      · exact keptAt_context mid q n x
      · rintro ⟨k, hk1, hk2, hk3, hk4⟩
        by_cases hc : k + mid + 1 ≤ n
        · exact context_keptAt mid q n x k hk2 hk3 hk4 hc
        · exfalso
          have ht := tail_item mid n (keptAt (2 * mid + 1) mid q n) hn' (k + mid - n)
          rw [if_pos (by omega)] at ht
          have hmem := List.getElem?_mem ht
          have hfalse := hall _ hmem
          have e : n + (k + mid - n) - mid = k := by omega
          simp only [e] at hfalse
          rw [hk2] at hfalse
          cases hfalse
    · rw [hm, hi] at hk0
      rw [hm, hi, hp] at hfirst
      have hk0lt : k0 < mid := by
        by_contra hcon
        have ht := tail_item mid n (keptAt (2 * mid + 1) mid q n) hn' k0
        rw [if_neg hcon, hk0] at ht
        cases ht
      have hitem : it.item = n + k0 - mid := by
        have ht := tail_item mid n (keptAt (2 * mid + 1) mid q n) hn' k0
        rw [if_pos hk0lt, hk0] at ht
        have := Option.some.inj ht
        rw [this]
      have hq0 : q (n + k0 - mid) = true := by
        rw [← hitem, ← hp]
        exact hpit
      rw [hfin, keep_end_kept_items, hk, hi, winItems_drop, unkeptItems_winItems]
      apply filter_append_sorted
      · intro a b ha hb hlo
        by_contra hcon
        have hne : a ≠ b := by
          intro e
          rw [e] at ha
          rw [ha] at hb
          cases hb
        have := keptAt_prefix (2 * mid + 1) mid q n b a ha (by omega) (by omega)
        rw [this] at hb
        cases hb
      · intro x
        rw [context_any_iff]
        constructor
        · rintro ⟨hx, k, hk1, hk2, hk3, hk4⟩
          cases hS : keptAt (2 * mid + 1) mid q n x with
          | true => exact Or.inl ⟨hx, rfl⟩
          | false =>
            right
            have hc : ¬ (k + mid + 1 ≤ n) := by
              intro hc
              rw [context_keptAt mid q n x k hk2 hk3 hk4 hc] at hS
              cases hS
            have hge : k0 ≤ k + mid - n := by
              by_contra hlt
              have ht := tail_item mid n (keptAt (2 * mid + 1) mid q n) hn' (k + mid - n)
              rw [if_pos (by omega)] at ht
              have hfalse := hfirst _ _ (by omega) ht
              have e : n + (k + mid - n) - mid = k := by omega
              simp only [e] at hfalse
              rw [hk2] at hfalse
              cases hfalse
            exact ⟨by omega, by omega, rfl⟩
        · rintro (⟨hx, hS⟩ | ⟨h1, h2, hS⟩)
          · exact ⟨hx, keptAt_context mid q n x hS⟩
          · exact ⟨by omega, n + k0 - mid, by omega, hq0, by omega, by omega⟩

theorem map_getD_range_gen {T : Type} (xs : List T) (x0 : T) :
    (List.range xs.length).map (fun k => xs[k]?.getD x0) = xs := by
  apply List.ext_getElem?
  intro k
  by_cases hk : k < xs.length
  · rw [List.getElem?_map, List.getElem?_range hk, List.getElem?_eq_getElem hk]
    simp [List.getElem?_eq_getElem hk]
  · rw [List.getElem?_eq_none (by simpa using hk), List.getElem?_eq_none (by simpa using hk)]

/-- C31: for a window of odd size `2 * mid + 1` (centre index `mid`), every
predicate `p` and every finite stream `xs`: after inserting the stream in order
and calling `finalize` once, the kept-list is the stream filtered, in order, to
the positions `j` for which some position `k` with `p (xs[k])` satisfies
`|j - k| ≤ mid`. -/
theorem fifo_keeps_symmetric_context {T : Type} (mid : Nat) (p : T → Bool) (xs : List T) :
    (GenericKeepFifo.run (2 * mid + 1) p xs).size = 2 * mid + 1 ∧
    (GenericKeepFifo.run (2 * mid + 1) p xs).mid = mid ∧
    ((GenericKeepFifo.run (2 * mid + 1) p xs).finalize).kept_items = contextFilter mid p xs := by
  cases hxs : xs with
  | nil =>
    have h1 : (2 * mid + 1) % 2 = 1 := by omega
    have h2 : (2 * mid + 1) / 2 = mid := by omega
    simp [GenericKeepFifo.run, GenericKeepFifo.new, h1, h2, GenericKeepFifo.finalize,
      GenericKeepFifo.finalizeLoop, contextFilter]
  | cons x0 rest =>
    rw [← hxs]
    have hmap := map_getD_range_gen xs x0
    have hrel := run_rel (fun k => xs[k]?.getD x0) (2 * mid + 1) p (List.range xs.length)
    have hfin := finalize_rel _ _ _ hrel
    rw [hmap] at hrel hfin
    obtain ⟨hs, hm, _, _, _⟩ :=
      run_positions mid (fun k => p (xs[k]?.getD x0)) xs.length
    refine ⟨by rw [hrel.size_eq, hs], by rw [hrel.mid_eq, hm], ?_⟩
    rw [hfin.kept_eq, finalize_positions]
    unfold contextFilter
    have hpred : ∀ j ∈ List.range xs.length,
        (List.range xs.length).any (fun k =>
            p (xs[k]?.getD x0) && decide (j ≤ k + mid) && decide (k ≤ j + mid))
          = (List.range xs.length).any (fun k =>
            (match xs[k]? with
              | some c => p c
              | none => false) && decide (j ≤ k + mid) && decide (k ≤ j + mid)) := by
      intro j _
      rw [Bool.eq_iff_iff, List.any_eq_true, List.any_eq_true]
      constructor
      · rintro ⟨k, hk, h⟩
        refine ⟨k, hk, ?_⟩
        rw [List.mem_range] at hk
        rw [List.getElem?_eq_getElem hk] at h ⊢
        exact h
      · rintro ⟨k, hk, h⟩
        refine ⟨k, hk, ?_⟩
        rw [List.mem_range] at hk
        rw [List.getElem?_eq_getElem hk] at h ⊢
        exact h
    rw [List.filter_congr hpred]
    rw [← List.filterMap_eq_map]
    apply List.filterMap_congr
    intro j hj
    rw [List.mem_filter, List.mem_range] at hj
    show some (xs[j]?.getD x0) = xs[j]?
    rw [List.getElem?_eq_getElem hj.1]
    rfl

end XcfTools
